import Mathlib

/-!
# Lexer for the Tiny language (`src/src/Lexer.h`)

A shallow embedding of `tiny::Lexer` and `tiny::LexerBuffer`.

* Characters are the `int` values the C++ code manipulates (`lastChar`,
  the result of `getNextChar`), so a character is an `Int`; the elements of a
  line buffer are the `int` values of its `char`s.
* `Token` is `enum Token : int`, and `Token(c)` is the identity on `int`.
* The virtual `readNextLine` is a parameter `rd : σ → List Int × σ` acting on
  the state `σ` of the derived class.
* Loops take a fuel argument and return `none` when it runs out.
* `assert` failures are an explicit outcome (`Outcome.abort`).
* `numVal` is a `double` computed by `strtod`; the embedding records the text
  handed to `strtod`.
* `isspace`, `isalpha`, `isdigit` and `isalnum` are those of the "C" locale and
  are false outside the ASCII range.
* The casts `(char)lastChar` and `numStr += lastChar` act on letters, digits,
  `_` and `.` only, where they are the identity.
* `curLineNum` and `curCol` are unbounded integers: `int` overflow is
  undefined behaviour and out of reach of the inputs considered.
-/

namespace tiny

/-! ## Data model -/

/-- The `int`-backed token enumeration. -/
abbrev Token := Int

def tok_semicolon : Token := 59
def tok_parenthese_open : Token := 40
def tok_parenthese_close : Token := 41
def tok_bracket_open : Token := 123
def tok_bracket_close : Token := 125
def tok_sbracket_open : Token := 91
def tok_sbracket_close : Token := 93
def tok_eof : Token := -1
def tok_return : Token := -2
def tok_var : Token := -3
def tok_def : Token := -4
def tok_struct : Token := -5
def tok_identifier : Token := -6
def tok_number : Token := -7

/-- The `EOF` constant of `<cstdio>`. -/
def EOF : Int := -1

/-- The `int` codes of the characters of a string literal. -/
def codes (s : String) : List Int := s.toList.map (fun c => Int.ofNat c.toNat)

/-- `isspace` in the "C" locale. -/
def isspace (c : Int) : Bool := c == 32 || (decide (9 ≤ c) && decide (c ≤ 13))

/-- `isdigit`. -/
def isdigit (c : Int) : Bool := decide (48 ≤ c) && decide (c ≤ 57)

/-- `isalpha` in the "C" locale. -/
def isalpha (c : Int) : Bool :=
  (decide (65 ≤ c) && decide (c ≤ 90)) || (decide (97 ≤ c) && decide (c ≤ 122))

/-- `isalnum` in the "C" locale. -/
def isalnum (c : Int) : Bool := isalpha c || isdigit c

/-- Structure `Location`: file name, line and column. -/
structure Location where
  file : String
  line : Int
  col : Int
deriving DecidableEq, Repr

/-- The `double` stored in `numVal`: the initial `0`, or the result of
`strtod` on the given text. -/
inductive NumVal where
  | zero : NumVal
  | strtod (numStr : List Int) : NumVal
deriving DecidableEq, Repr

/-- The fields of `Lexer`; `src` is the state of the derived class that
implements `readNextLine`. -/
structure Lexer (σ : Type) where
  curTok : Token
  lastLocation : Location
  identifierStr : List Int
  numVal : NumVal
  lastChar : Token
  curLineNum : Int
  curCol : Int
  curLineBuffer : List Int
  src : σ
deriving DecidableEq, Repr

/-- The constructor `Lexer(filename)` together with the default member
initialisers. -/
def Lexer.new {σ : Type} (filename : String) (src : σ) : Lexer σ :=
  { curTok := tok_eof
    lastLocation := { file := filename, line := 0, col := 0 }
    identifierStr := []
    numVal := NumVal.zero
    lastChar := 32
    curLineNum := 0
    curCol := 0
    curLineBuffer := [10]
    src := src }

/-- Result of an operation that may hit an `assert`: `ok a L` is the
returned value with the state afterwards, `abort L` is an assertion failure
with the state at the point of the failure, `outOfFuel` is fuel exhaustion
of the model. -/
inductive Outcome (σ : Type) (α : Type) where
  | ok (a : α) (L : Lexer σ) : Outcome σ α
  | abort (L : Lexer σ) : Outcome σ α
  | outOfFuel : Outcome σ α
deriving DecidableEq, Repr

section Lexer

variable {σ : Type} (rd : σ → List Int × σ)

/-! ## Character cursor -/

/-- Method `Lexer::getNextChar`. -/
def getNextChar (L : Lexer σ) : Int × Lexer σ :=
  match L.curLineBuffer with
  | [] => (EOF, L)
  | nextchar :: rest =>
    let L1 := { L with curCol := L.curCol + 1, curLineBuffer := rest }
    let L2 :=
      if rest.isEmpty then
        { L1 with curLineBuffer := (rd L1.src).1, src := (rd L1.src).2 }
      else L1
    let L3 :=
      if nextchar = 10 then { L2 with curLineNum := L2.curLineNum + 1, curCol := 0 }
      else L2
    (nextchar, L3)

/-- The statement `lastChar = Token(getNextChar());`. -/
def advanceChar (L : Lexer σ) : Lexer σ :=
  { (getNextChar rd L).2 with lastChar := (getNextChar rd L).1 }

/-! ## Token recognizer -/

/-- The loop `while (isspace(lastChar)) lastChar = Token(getNextChar());`. -/
def skipSpace : Nat → Lexer σ → Option (Lexer σ)
  | 0, _ => none
  | n + 1, L => if isspace L.lastChar then skipSpace n (advanceChar rd L) else some L

/-- The `while (isalnum(lastChar) || lastChar == '_')` loop of the
identifier branch. The result `(some t, L)` is the early `return Token(lastChar)`,
`(none, L)` is the normal loop exit. -/
def identLoop : Nat → Bool → Lexer σ → Option (Option Token × Lexer σ)
  | 0, _, _ => none
  | n + 1, lastDigit, L =>
    if isalnum L.lastChar || L.lastChar == 95 then
      if isdigit L.lastChar then
        identLoop n true
          (advanceChar rd { L with identifierStr := L.identifierStr ++ [L.lastChar] })
      else if lastDigit then
        some (some L.lastChar, L)
      else
        identLoop n lastDigit
          (advanceChar rd { L with identifierStr := L.identifierStr ++ [L.lastChar] })
    else some (none, L)

/-- The `do { numStr += lastChar; ... } while (isdigit(lastChar) || lastChar == '.')`
loop of the number branch. -/
def numLoop : Nat → List Int → Lexer σ → Option (List Int × Lexer σ)
  | 0, _, _ => none
  | n + 1, numStr, L =>
    let numStr1 := numStr ++ [L.lastChar]
    let L1 := advanceChar rd L
    if isdigit L1.lastChar || L1.lastChar == 46 then numLoop n numStr1 L1
    else some (numStr1, L1)

/-- The `do { ... } while (lastChar != EOF && lastChar != '\n' && lastChar != '\r')`
loop of the comment branch. -/
def commentLoop : Nat → Lexer σ → Option (Lexer σ)
  | 0, _ => none
  | n + 1, L =>
    let L1 := advanceChar rd L
    if L1.lastChar != EOF && L1.lastChar != 10 && L1.lastChar != 13 then commentLoop n L1
    else some L1

/-- The tail of `getTok` after the comment branch: the end-of-file check and
the single-character fallback. -/
def eofOrChar (L : Lexer σ) : Token × Lexer σ :=
  if L.lastChar = EOF then (tok_eof, L)
  else (L.lastChar, advanceChar rd L)

/-- Method `Lexer::getTok`. -/
def getTok : Nat → Lexer σ → Option (Token × Lexer σ)
  | 0, _ => none
  | n + 1, L0 =>
    match skipSpace rd (n + 1) L0 with
    | none => none
    | some L1 =>
      let L := { L1 with
        lastLocation := { L1.lastLocation with line := L1.curLineNum, col := L1.curCol } }
      if isalpha L.lastChar then
        match identLoop rd (n + 1) false
            (advanceChar rd { L with identifierStr := [L.lastChar] }) with
        | none => none
        | some (some t, L2) => some (t, L2)
        | some (none, L2) =>
          if L2.identifierStr = codes "return" then some (tok_return, L2)
          else if L2.identifierStr = codes "def" then some (tok_def, L2)
          else if L2.identifierStr = codes "var" then some (tok_var, L2)
          else some (tok_identifier, L2)
      else if isdigit L.lastChar then
        match numLoop rd (n + 1) [] L with
        | none => none
        | some (numStr, L2) => some (tok_number, { L2 with numVal := NumVal.strtod numStr })
      else if L.lastChar = 35 then
        match commentLoop rd (n + 1) L with
        | none => none
        | some L2 =>
          if L2.lastChar ≠ EOF then getTok n L2
          else some (eofOrChar rd L2)
      else some (eofOrChar rd L)

/-! ## Public token stream interface -/

/-- Method `Lexer::getCurToken`. -/
def getCurToken (L : Lexer σ) : Token := L.curTok

/-- Method `Lexer::getNextToken`: `return curTok = getTok();`. -/
def getNextToken (n : Nat) (L : Lexer σ) : Option (Token × Lexer σ) :=
  match getTok rd n L with
  | none => none
  | some (t, L1) => some (t, { L1 with curTok := t })

/-- Method `Lexer::consume`. -/
def consume (tok : Token) (n : Nat) (L : Lexer σ) : Outcome σ Unit :=
  if tok = L.curTok then
    match getNextToken rd n L with
    | none => Outcome.outOfFuel
    | some (_, L1) => Outcome.ok () L1
  else Outcome.abort L

end Lexer

/-- Method `Lexer::getId`. -/
def getId {σ : Type} (L : Lexer σ) : Outcome σ (List Int) :=
  if L.curTok = tok_identifier then Outcome.ok L.identifierStr L else Outcome.abort L

/-- Method `Lexer::getValue`. -/
def getValue {σ : Type} (L : Lexer σ) : Outcome σ NumVal :=
  if L.curTok = tok_number then Outcome.ok L.numVal L else Outcome.abort L

/-- Method `Lexer::getLastLocation`. -/
def getLastLocation {σ : Type} (L : Lexer σ) : Location := L.lastLocation

/-- Method `Lexer::getLine`. -/
def getLine {σ : Type} (L : Lexer σ) : Int := L.curLineNum

/-- Method `Lexer::getCol`. -/
def getCol {σ : Type} (L : Lexer σ) : Int := L.curCol

/-! ## The in-memory line source `LexerBuffer` -/

/-- The fields of `LexerBuffer` beyond those of `Lexer`: `contents` are the
bytes in `[begin, end)`, the byte at `end` is the terminating NUL, `current`
is the offset of the `current` pointer from `begin`. -/
structure LexerBuffer where
  contents : List Int
  current : Nat
deriving DecidableEq, Repr

/-- The dereference `*current` for `current <= end`. -/
def LexerBuffer.deref (b : LexerBuffer) : Int := b.contents.getD b.current 0

/-- The loop `while (current <= end && *current && *current != '\n') ++current;`
of `readNextLine`. -/
def LexerBuffer.scan : Nat → LexerBuffer → LexerBuffer
  | 0, b => b
  | n + 1, b =>
    if b.current ≤ b.contents.length ∧ b.deref ≠ 0 ∧ b.deref ≠ 10 then
      LexerBuffer.scan n { b with current := b.current + 1 }
    else b

/-- Method `LexerBuffer::readNextLine`. -/
def LexerBuffer.readNextLine (b : LexerBuffer) : List Int × LexerBuffer :=
  let b1 := LexerBuffer.scan (b.contents.length + 1 - b.current) b
  let b2 :=
    if b1.current ≤ b1.contents.length ∧ b1.deref ≠ 0 then
      { b1 with current := b1.current + 1 }
    else b1
  ((b.contents.drop b.current).take (b2.current - b.current), b2)

/-- A `LexerBuffer` lexer freshly constructed over the given bytes. -/
def LexerBuffer.new (input : List Int) (filename : String) : Lexer LexerBuffer :=
  Lexer.new filename { contents := input, current := 0 }

/-! ## Driver loop -/

/-- A token together with the payload the accessors give right after it. -/
structure Lexeme where
  tok : Token
  id : Option (List Int)
  value : Option NumVal
deriving DecidableEq, Repr

/-- The token `L.curTok` with what `getId` and `getValue` return in state `L`. -/
def lexeme {σ : Type} (L : Lexer σ) : Lexeme :=
  { tok := L.curTok
    id := match getId L with
      | Outcome.ok s _ => some s
      | _ => none
    value := match getValue L with
      | Outcome.ok v _ => some v
      | _ => none }

/-- Repeated `getNextToken` until `tok_eof` (included), at most `k` tokens,
each call with fuel `n`. -/
def lexAll {σ : Type} (rd : σ → List Int × σ) (n : Nat) :
    Nat → Lexer σ → Option (List Lexeme)
  | 0, _ => none
  | k + 1, L =>
    match getNextToken rd n L with
    | none => none
    | some (t, L1) =>
      if t = tok_eof then some [lexeme L1]
      else
        match lexAll rd n k L1 with
        | none => none
        | some ls => some (lexeme L1 :: ls)

/-- Lexing from state `L` yields the lexeme sequence `toks`: the driver loop
returns it once it is given enough fuel. -/
def Yields {σ : Type} (rd : σ → List Int × σ) (L : Lexer σ) (toks : List Lexeme) : Prop :=
  ∃ n k, lexAll rd n k L = some toks

/-- An identifier lexeme. -/
def Lexeme.ident (s : String) : Lexeme :=
  { tok := tok_identifier, id := some (codes s), value := none }

/-- A lexeme without payload. -/
def Lexeme.plain (t : Token) : Lexeme :=
  { tok := t, id := none, value := none }

/-- A number lexeme. -/
def Lexeme.number (s : String) : Lexeme :=
  { tok := tok_number, id := none, value := some (NumVal.strtod (codes s)) }

/-! ## Observing the character stream -/

/-- The state after `k` executions of `lastChar = Token(getNextChar());`. -/
def advanceN {σ : Type} (rd : σ → List Int × σ) : Nat → Lexer σ → Lexer σ
  | 0, L => L
  | k + 1, L => advanceN rd k (advanceChar rd L)

/-- The values the next `k` calls of `getNextChar` return. -/
def upcoming {σ : Type} (rd : σ → List Int × σ) : Nat → Lexer σ → List Int
  | 0, _ => []
  | k + 1, L => (advanceChar rd L).lastChar :: upcoming rd k (advanceChar rd L)

/-- The unconsumed input seen from `L`: the lookahead followed by the next
`k` characters of the cursor. -/
def input {σ : Type} (rd : σ → List Int × σ) (k : Nat) (L : Lexer σ) : List Int :=
  L.lastChar :: upcoming rd k L

/-- The location `getTok` records when recognition starts in state `L`. -/
def startLocation {σ : Type} (L : Lexer σ) : Location :=
  { L.lastLocation with line := L.curLineNum, col := L.curCol }

/-- The token the keyword comparison of `getTok` selects for the text `s`. -/
def keywordOrIdentifier (s : List Int) : Token :=
  if s = codes "return" then tok_return
  else if s = codes "def" then tok_def
  else if s = codes "var" then tok_var
  else tok_identifier

/-- The part of `getTok` after the whitespace loop, started in the state `L1`
the loop leaves; `self` stands for the recursive call `getTok()` of the
comment branch and `n` is the fuel of the inner loops. -/
def getTokBody {σ : Type} (rd : σ → List Int × σ)
    (self : Lexer σ → Option (Token × Lexer σ)) (n : Nat) (L1 : Lexer σ) :
    Option (Token × Lexer σ) :=
  let L := { L1 with lastLocation := startLocation L1 }
  if isalpha L.lastChar then
    match identLoop rd n false (advanceChar rd { L with identifierStr := [L.lastChar] }) with
    | none => none
    | some (some t, L2) => some (t, L2)
    | some (none, L2) => some (keywordOrIdentifier L2.identifierStr, L2)
  else if isdigit L.lastChar then
    match numLoop rd n [] L with
    | none => none
    | some (numStr, L2) => some (tok_number, { L2 with numVal := NumVal.strtod numStr })
  else if L.lastChar = 35 then
    match commentLoop rd n L with
    | none => none
    | some L2 => if L2.lastChar ≠ EOF then self L2 else some (eofOrChar rd L2)
  else some (eofOrChar rd L)

/-- The same lexer state over another line source, whose state is the image
under `g` of the state of the first. -/
def mapSrc {σ τ : Type} (g : σ → τ) (L : Lexer σ) : Lexer τ :=
  { curTok := L.curTok
    lastLocation := L.lastLocation
    identifierStr := L.identifierStr
    numVal := L.numVal
    lastChar := L.lastChar
    curLineNum := L.curLineNum
    curCol := L.curCol
    curLineBuffer := L.curLineBuffer
    src := g L.src }

/-- The buffer of a `LexerBuffer` with the bytes `p` put in front of it and
the `current` pointer at the same byte as before. -/
def LexerBuffer.shift (p : List Int) (b : LexerBuffer) : LexerBuffer :=
  { contents := p ++ b.contents, current := b.current + p.length }

/-- The number of bytes the scanning loop of `readNextLine` walks over: up to
the first NUL or newline. -/
def scanLen (d : List Int) : Nat := (d.takeWhile (fun c => c ≠ 0 ∧ c ≠ 10)).length

/-- The length of the line `readNextLine` returns when `d` are the bytes from
`current` on: the newline that stopped the scan is part of the line. -/
def lineLen (d : List Int) : Nat :=
  if (d.drop (scanLen d)).headD 0 ≠ 0 then scanLen d + 1 else scanLen d

/-- The bytes of `d` in front of its first NUL. -/
def beforeNul (d : List Int) : List Int := d.takeWhile (fun c => c ≠ 0)

/-- The characters a `LexerBuffer` lexer has not consumed yet: the line
buffer, then the bytes from `current` up to the first NUL. -/
def LexerBuffer.remaining (L : Lexer LexerBuffer) : List Int :=
  L.curLineBuffer ++ beforeNul (L.src.contents.drop L.src.current)

/-- The keyword set named by the specification. -/
def specKeywords : List (List Int) :=
  [codes "return", codes "def", codes "var", codes "struct"]

/-- Input made of whitespace and comments only, a comment being a `#` and
everything up to the next newline, as the specification words it. The flag
tells whether the scan is inside a comment. -/
def specBlank : Bool → List Int → Bool
  | _, [] => true
  | false, c :: cs => if c = 35 then specBlank true cs else isspace c && specBlank false cs
  | true, c :: cs => if c = 10 then specBlank false cs else specBlank true cs

/-- Input made of whitespace and comments only, a comment being a `#` and
everything up to the next newline or carriage return, which is where the
comment loop of `getTok` stops. -/
def blank : Bool → List Int → Bool
  | _, [] => true
  | false, c :: cs => if c = 35 then blank true cs else isspace c && blank false cs
  | true, c :: cs => if c = 10 ∨ c = 13 then blank false cs else blank true cs

/-- The line source `rd` together with a counter of the calls of
`readNextLine`. -/
def counted {σ : Type} (rd : σ → List Int × σ) (s : σ × Nat) : List Int × (σ × Nat) :=
  ((rd s.1).1, ((rd s.1).2, s.2 + 1))

/-- The results of `k` successive calls of `readNextLine`. -/
def LexerBuffer.readLines : Nat → LexerBuffer → List (List Int)
  | 0, _ => []
  | k + 1, b => b.readNextLine.1 :: LexerBuffer.readLines k b.readNextLine.2

/-- The first `k` lines of the bytes `d`, cut after each newline the way
`lineLen` measures them. -/
def linesOf : Nat → List Int → List (List Int)
  | 0, _ => []
  | k + 1, d => d.take (lineLen d) :: linesOf k (d.drop (lineLen d))

/-- The line source in state `s` yields the non-empty lines `ls`, in order,
and then the empty line. -/
def sourceYields {σ : Type} (rd : σ → List Int × σ) : List (List Int) → σ → Bool
  | [], s => (rd s).1.isEmpty
  | l :: ls, s => decide ((rd s).1 = l) && !l.isEmpty && sourceYields rd ls (rd s).2

/-- The state of the line source after `k` calls of `readNextLine`. -/
def pulls {σ : Type} (rd : σ → List Int × σ) : Nat → σ → σ
  | 0, s => s
  | k + 1, s => pulls rd k (rd s).2

/-- The characters `cs` are exactly what the line buffer `buf` and the line
source in state `s` still hold: the cursor will deliver them, refilling the
buffer whenever it runs empty, and end on an empty buffer. -/
def pending {σ : Type} (rd : σ → List Int × σ) : List Int → List Int → σ → Bool
  | [], buf, _ => buf.isEmpty
  | _ :: _, [], _ => false
  | c :: cs, b :: rest, s =>
    decide (b = c) &&
      (if rest.isEmpty then pending rd cs (rd s).1 (rd s).2 else pending rd cs rest s)

/-- At most `p` characters are unconsumed in state `L`: the characters
pending in the line buffer and the line source, and the lookahead unless it
is the end-of-file code. -/
def Bounded {σ : Type} (rd : σ → List Int × σ) (p : Nat) (L : Lexer σ) : Prop :=
  ∃ cs, pending rd cs L.curLineBuffer L.src = true ∧
    cs.length + (if L.lastChar = EOF then 0 else 1) ≤ p

/-- The state after `j` successive calls of `getNextToken`, each with fuel `n`. -/
def advances {σ : Type} (rd : σ → List Int × σ) (n : Nat) : Nat → Lexer σ → Option (Lexer σ)
  | 0, L => some L
  | j + 1, L =>
    match getNextToken rd n L with
    | none => none
    | some r => advances rd n j r.2

/-- Two lexer states whose character cursor is in the same place: the same
lookahead, counters, line buffer and line source. -/
def sameCursor {σ : Type} (L M : Lexer σ) : Prop :=
  L.lastChar = M.lastChar ∧ L.curLineNum = M.curLineNum ∧ L.curCol = M.curCol ∧
    L.curLineBuffer = M.curLineBuffer ∧ L.src = M.src

/-- The line and column counters after the cursor has delivered the given
characters, following the counter updates of `getNextChar`. -/
def locAfter : Int × Int → List Int → Int × Int
  | lc, [] => lc
  | lc, c :: cs => locAfter (if c = 10 then (lc.1 + 1, 0) else (lc.1, lc.2 + 1)) cs

/-- The token `t`, returned in state `L1`, was recognised from a text of `len`
characters whose first character is `x`: a word of the identifier branch
(returned as identifier or keyword, or rejected with its offending character
as the token), a number, or a single character returned as itself. -/
def tokenStart {σ : Type} (x : Int) (len : Nat) (t : Token) (L1 : Lexer σ) : Prop :=
  (isalpha x = true ∧ L1.identifierStr.head? = some x ∧ L1.identifierStr.length = len ∧
    (t = keywordOrIdentifier L1.identifierStr ∨ t = L1.lastChar)) ∨
  (isdigit x = true ∧ t = tok_number ∧
    ∃ suf, L1.numVal = NumVal.strtod (x :: suf) ∧ suf.length + 1 = len) ∨
  (isalpha x = false ∧ isdigit x = false ∧ t = x ∧ len = 1)

/-- The call of `getTok` that started in state `L` and returned `t` in state
`L1` moved the cursor by some number of steps `M`; when `t` is not
end-of-file, the token was recognised from a text of `len` characters that
begins after `m` of these steps, at a lookahead that is no whitespace, and
the recorded location holds the counters of that moment. -/
def recognisedFrom {σ : Type} (rd : σ → List Int × σ) (L : Lexer σ) (t : Token)
    (L1 : Lexer σ) : Prop :=
  ∃ M, sameCursor L1 (advanceN rd M L) ∧
    (t ≠ tok_eof → ∃ m len, m + len = M ∧
      L1.lastLocation.line = (advanceN rd m L).curLineNum ∧
      L1.lastLocation.col = (advanceN rd m L).curCol ∧
      isspace (advanceN rd m L).lastChar = false ∧
      tokenStart (advanceN rd m L).lastChar len t L1)

/-- The characters are ones `getTok` steps over before it recognises a token:
whitespace and complete comments, a comment being a `#` and everything up to
and including the next newline or carriage return. The flag tells whether
the scan is inside a comment. -/
def skippable : Bool → List Int → Bool
  | inComment, [] => !inComment
  | false, c :: cs => if c = 35 then skippable true cs else isspace c && skippable false cs
  | true, c :: cs =>
    if c = 10 ∨ c = 13 then skippable false cs else (c != EOF) && skippable true cs

/-! ## Frame lemmas for the character cursor -/

section Frame

variable {σ : Type} (rd : σ → List Int × σ)

theorem advanceChar_identifierStr (L : Lexer σ) (x : List Int) :
    advanceChar rd { L with identifierStr := x } =
      { advanceChar rd L with identifierStr := x } := by
  cases L with
  | mk ct ll ids nv lc ln cc buf src =>
    cases buf with
    | nil => rfl
    | cons b bs => simp only [advanceChar, getNextChar]; split_ifs <;> rfl

theorem advanceChar_lastLocation (L : Lexer σ) (x : Location) :
    advanceChar rd { L with lastLocation := x } =
      { advanceChar rd L with lastLocation := x } := by
  cases L with
  | mk ct ll ids nv lc ln cc buf src =>
    cases buf with
    | nil => rfl
    | cons b bs => simp only [advanceChar, getNextChar]; split_ifs <;> rfl

theorem advanceN_identifierStr (k : Nat) (L : Lexer σ) (x : List Int) :
    advanceN rd k { L with identifierStr := x } =
      { advanceN rd k L with identifierStr := x } := by
  induction k generalizing L with
  | zero => rfl
  | succ k ih => simp only [advanceN, advanceChar_identifierStr, ih]

theorem advanceN_lastLocation (k : Nat) (L : Lexer σ) (x : Location) :
    advanceN rd k { L with lastLocation := x } =
      { advanceN rd k L with lastLocation := x } := by
  induction k generalizing L with
  | zero => rfl
  | succ k ih => simp only [advanceN, advanceChar_lastLocation, ih]

theorem upcoming_identifierStr (k : Nat) (L : Lexer σ) (x : List Int) :
    upcoming rd k { L with identifierStr := x } = upcoming rd k L := by
  induction k generalizing L with
  | zero => rfl
  | succ k ih => simp only [upcoming, advanceChar_identifierStr, ih]

theorem upcoming_lastLocation (k : Nat) (L : Lexer σ) (x : Location) :
    upcoming rd k { L with lastLocation := x } = upcoming rd k L := by
  induction k generalizing L with
  | zero => rfl
  | succ k ih => simp only [upcoming, advanceChar_lastLocation, ih]

theorem advanceChar_loc_id (L : Lexer σ) (a : Location) (x : List Int) :
    advanceChar rd { L with lastLocation := a, identifierStr := x } =
      { advanceChar rd L with lastLocation := a, identifierStr := x } := by
  cases L with
  | mk ct ll ids nv lc ln cc buf src =>
    cases buf with
    | nil => rfl
    | cons b bs => simp only [advanceChar, getNextChar]; split_ifs <;> rfl

theorem advanceN_loc_id (k : Nat) (L : Lexer σ) (a : Location) (x : List Int) :
    advanceN rd k { L with lastLocation := a, identifierStr := x } =
      { advanceN rd k L with lastLocation := a, identifierStr := x } := by
  induction k generalizing L with
  | zero => rfl
  | succ k ih => simp only [advanceN, advanceChar_loc_id, ih]

theorem upcoming_loc_id (k : Nat) (L : Lexer σ) (a : Location) (x : List Int) :
    upcoming rd k { L with lastLocation := a, identifierStr := x } = upcoming rd k L := by
  induction k generalizing L with
  | zero => rfl
  | succ k ih => simp only [upcoming, advanceChar_loc_id, ih]

/-- The character delivered by the cursor and the buffer it leaves depend on
the line buffer and the line source only. -/
theorem advanceChar_congr (L M : Lexer σ) (hb : L.curLineBuffer = M.curLineBuffer)
    (hs : L.src = M.src) :
    (advanceChar rd L).lastChar = (advanceChar rd M).lastChar ∧
    (advanceChar rd L).curLineBuffer = (advanceChar rd M).curLineBuffer ∧
    (advanceChar rd L).src = (advanceChar rd M).src := by
  cases L with
  | mk ct ll ids nv lc ln cc buf src =>
    cases M with
    | mk ct2 ll2 ids2 nv2 lc2 ln2 cc2 buf2 src2 =>
      simp only at hb hs
      subst hb hs
      cases buf with
      | nil => exact ⟨rfl, rfl, rfl⟩
      | cons b bs =>
        simp only [advanceChar, getNextChar]
        split_ifs <;> simp

theorem upcoming_congr (k : Nat) (L M : Lexer σ) (hb : L.curLineBuffer = M.curLineBuffer)
    (hs : L.src = M.src) : upcoming rd k L = upcoming rd k M := by
  induction k generalizing L M with
  | zero => rfl
  | succ k ih =>
    obtain ⟨h1, h2, h3⟩ := advanceChar_congr rd L M hb hs
    simp only [upcoming, h1, ih _ _ h2 h3]

theorem advanceN_succ (k : Nat) (L : Lexer σ) :
    advanceN rd (k + 1) L = advanceChar rd (advanceN rd k L) := by
  induction k generalizing L with
  | zero => rfl
  | succ k ih => rw [advanceN, ih]; rfl

theorem advanceN_add (a b : Nat) (L : Lexer σ) :
    advanceN rd (a + b) L = advanceN rd b (advanceN rd a L) := by
  induction a generalizing L with
  | zero => simp [advanceN]
  | succ a ih => rw [Nat.succ_add, advanceN, ih]; rfl

theorem upcoming_length (k : Nat) (L : Lexer σ) : (upcoming rd k L).length = k := by
  induction k generalizing L with
  | zero => rfl
  | succ k ih => simp [upcoming, ih]

theorem upcoming_add (a b : Nat) (L : Lexer σ) :
    upcoming rd (a + b) L = upcoming rd a L ++ upcoming rd b (advanceN rd a L) := by
  induction a generalizing L with
  | zero => simp [upcoming, advanceN]
  | succ a ih => rw [Nat.succ_add, upcoming, ih]; rfl

/-- The unconsumed input seen from `L`: the lookahead followed by the next
`k` characters. Its last element is the lookahead after `k` steps. -/
theorem lastChar_advanceN (k : Nat) (L : Lexer σ) (xs : List Int) (c : Int)
    (h : L.lastChar :: upcoming rd k L = xs ++ [c]) :
    (advanceN rd k L).lastChar = c := by
  induction k generalizing L xs with
  | zero =>
    cases xs with
    | nil => simpa [upcoming] using h
    | cons x xs => simp [upcoming] at h
  | succ k ih =>
    cases xs with
    | nil => simp [upcoming] at h
    | cons x xs =>
      simp only [upcoming, List.cons_append, List.cons.injEq] at h
      exact ih (advanceChar rd L) xs h.2

theorem advanceChar_curTok (L : Lexer σ) : (advanceChar rd L).curTok = L.curTok := by
  cases L with
  | mk ct ll ids nv lc ln cc buf src =>
    cases buf with
    | nil => rfl
    | cons b bs => simp only [advanceChar, getNextChar]; split_ifs <;> rfl

theorem advanceChar_idStr (L : Lexer σ) :
    (advanceChar rd L).identifierStr = L.identifierStr := by
  cases L with
  | mk ct ll ids nv lc ln cc buf src =>
    cases buf with
    | nil => rfl
    | cons b bs => simp only [advanceChar, getNextChar]; split_ifs <;> rfl

theorem advanceChar_numVal (L : Lexer σ) : (advanceChar rd L).numVal = L.numVal := by
  cases L with
  | mk ct ll ids nv lc ln cc buf src =>
    cases buf with
    | nil => rfl
    | cons b bs => simp only [advanceChar, getNextChar]; split_ifs <;> rfl

theorem advanceChar_loc (L : Lexer σ) :
    (advanceChar rd L).lastLocation = L.lastLocation := by
  cases L with
  | mk ct ll ids nv lc ln cc buf src =>
    cases buf with
    | nil => rfl
    | cons b bs => simp only [advanceChar, getNextChar]; split_ifs <;> rfl

theorem advanceN_curTok (k : Nat) (L : Lexer σ) : (advanceN rd k L).curTok = L.curTok := by
  induction k generalizing L with
  | zero => rfl
  | succ k ih => rw [advanceN, ih, advanceChar_curTok]

theorem advanceN_idStr (k : Nat) (L : Lexer σ) :
    (advanceN rd k L).identifierStr = L.identifierStr := by
  induction k generalizing L with
  | zero => rfl
  | succ k ih => rw [advanceN, ih, advanceChar_idStr]

theorem advanceN_numVal (k : Nat) (L : Lexer σ) : (advanceN rd k L).numVal = L.numVal := by
  induction k generalizing L with
  | zero => rfl
  | succ k ih => rw [advanceN, ih, advanceChar_numVal]

theorem advanceN_loc (k : Nat) (L : Lexer σ) :
    (advanceN rd k L).lastLocation = L.lastLocation := by
  induction k generalizing L with
  | zero => rfl
  | succ k ih => rw [advanceN, ih, advanceChar_loc]

end Frame

/-! ## The loops of `getTok` on a known stretch of input -/

section Loops

variable {σ : Type} (rd : σ → List Int × σ)

theorem input_succ (k : Nat) (L : Lexer σ) :
    input rd (k + 1) L = L.lastChar :: input rd k (advanceChar rd L) := rfl

theorem input_length (k : Nat) (L : Lexer σ) : (input rd k L).length = k + 1 := by
  simp [input, upcoming_length]

/-- After `xs.length` cursor steps the unconsumed input is what followed `xs`. -/
theorem input_split (xs rest : List Int) (j : Nat) (L : Lexer σ)
    (h : input rd (xs.length + j) L = xs ++ rest) :
    input rd j (advanceN rd xs.length L) = rest := by
  induction xs generalizing L with
  | nil => simpa [advanceN] using h
  | cons x xs ih =>
    rw [List.length_cons, Nat.succ_add, input_succ] at h
    simp only [List.cons_append, List.cons.injEq] at h
    exact ih (advanceChar rd L) h.2

theorem input_head (x : Int) (rest : List Int) (j : Nat) (L : Lexer σ)
    (h : input rd j L = x :: rest) : L.lastChar = x := by
  simp only [input, List.cons.injEq] at h
  exact h.1

theorem input_identifierStr (k : Nat) (L : Lexer σ) (x : List Int) :
    input rd k { L with identifierStr := x } = input rd k L := by
  simp [input, upcoming_identifierStr]

theorem input_congr (k : Nat) (L M : Lexer σ) (hc : L.lastChar = M.lastChar)
    (hb : L.curLineBuffer = M.curLineBuffer) (hs : L.src = M.src) :
    input rd k L = input rd k M := by
  simp only [input, hc, upcoming_congr rd k L M hb hs]

theorem input_loc_id (k : Nat) (L : Lexer σ) (a : Location) (x : List Int) :
    input rd k { L with lastLocation := a, identifierStr := x } = input rd k L := by
  simp [input, upcoming_loc_id]

theorem input_lastLocation (k : Nat) (L : Lexer σ) (x : Location) :
    input rd k { L with lastLocation := x } = input rd k L := by
  simp [input, upcoming_lastLocation]

theorem isdigit_of_letter (x : Int) (h : (isalpha x || x == 95) = true) :
    isdigit x = false := by
  simp only [isalpha, isdigit, Bool.or_eq_true, Bool.and_eq_true, decide_eq_true_eq,
    beq_iff_eq] at h
  simp only [isdigit, Bool.and_eq_false_iff, decide_eq_false_iff_not]
  omega

theorem isalnum_of_letter (x : Int) (h : (isalpha x || x == 95) = true) :
    (isalnum x || x == 95) = true := by
  simp only [isalnum, Bool.or_eq_true] at h ⊢
  tauto

theorem isalnum_of_digit (x : Int) (h : isdigit x = true) :
    (isalnum x || x == 95) = true := by
  simp [isalnum, h]

/-- The identifier loop appends a run of letters and underscores while no
digit has been seen. -/
theorem identLoop_letters (ls rest : List Int) (j m : Nat) (L : Lexer σ)
    (hls : ∀ x ∈ ls, (isalpha x || x == 95) = true)
    (hin : input rd (ls.length + j) L = ls ++ rest) :
    identLoop rd (ls.length + m) false L =
      identLoop rd m false
        { advanceN rd ls.length L with identifierStr := L.identifierStr ++ ls } := by
  induction ls generalizing L with
  | nil => cases L; simp [advanceN]
  | cons x ls ih =>
    rw [List.length_cons, Nat.succ_add, input_succ] at hin
    simp only [List.cons_append, List.cons.injEq] at hin
    have hx := hls x (List.mem_cons_self _ _)
    rw [← hin.1] at hx
    rw [List.length_cons, Nat.succ_add, identLoop]
    simp only [isalnum_of_letter _ hx, isdigit_of_letter _ hx, if_true, Bool.false_eq_true,
      if_false]
    rw [advanceChar_identifierStr, ih _ (fun y hy => hls y (List.mem_cons_of_mem _ hy))
      (by rw [input_identifierStr]; exact hin.2), advanceN_identifierStr]
    simp [advanceN, hin.1]

/-- The identifier loop appends a run of digits and remembers having seen one. -/
theorem identLoop_digits (ds rest : List Int) (j m : Nat) (ld : Bool) (L : Lexer σ)
    (hds : ∀ x ∈ ds, isdigit x = true)
    (hin : input rd (ds.length + j) L = ds ++ rest) :
    identLoop rd (ds.length + m) ld L =
      identLoop rd m (ld || !ds.isEmpty)
        { advanceN rd ds.length L with identifierStr := L.identifierStr ++ ds } := by
  induction ds generalizing L ld with
  | nil => cases L; simp [advanceN]
  | cons x ds ih =>
    rw [List.length_cons, Nat.succ_add, input_succ] at hin
    simp only [List.cons_append, List.cons.injEq] at hin
    have hx := hds x (List.mem_cons_self _ _)
    rw [← hin.1] at hx
    rw [List.length_cons, Nat.succ_add, identLoop]
    simp only [isalnum_of_digit _ hx, hx, if_true]
    rw [advanceChar_identifierStr, ih true _ (fun y hy => hds y (List.mem_cons_of_mem _ hy))
      (by rw [input_identifierStr]; exact hin.2), advanceN_identifierStr]
    simp [advanceN, hin.1]

/-- Whitespace skipping walks over a run of whitespace characters. -/
theorem skipSpace_steps (ws rest : List Int) (j m : Nat) (L : Lexer σ)
    (hws : ∀ c ∈ ws, isspace c = true)
    (hin : input rd (ws.length + j) L = ws ++ rest) :
    skipSpace rd (ws.length + m) L = skipSpace rd m (advanceN rd ws.length L) := by
  induction ws generalizing L with
  | nil => simp [advanceN]
  | cons w ws ih =>
    rw [List.length_cons, Nat.succ_add, input_succ] at hin
    simp only [List.cons_append, List.cons.injEq] at hin
    have hw := hws w (List.mem_cons_self _ _)
    rw [← hin.1] at hw
    rw [List.length_cons, Nat.succ_add, skipSpace]
    simp only [hw, if_true, advanceN]
    exact ih _ (fun y hy => hws y (List.mem_cons_of_mem _ hy)) hin.2

/-- Whitespace skipping stops at a lookahead that is not whitespace. -/
theorem skipSpace_stop (m : Nat) (L : Lexer σ) (h : isspace L.lastChar = false) :
    skipSpace rd (m + 1) L = some L := by
  simp [skipSpace, h]

theorem isspace_of_isalpha (x : Int) (h : isalpha x = true) : isspace x = false := by
  simp only [isalpha, Bool.or_eq_true, Bool.and_eq_true, decide_eq_true_eq] at h
  simp only [isspace, Bool.or_eq_false_iff, Bool.and_eq_false_iff, decide_eq_false_iff_not,
    beq_eq_false_iff_ne]
  omega

theorem skipSpace_then (ws rest : List Int) (d : Int) (j n : Nat) (L : Lexer σ)
    (hws : ∀ c ∈ ws, isspace c = true) (hd : isspace d = false)
    (hin : input rd (ws.length + j) L = ws ++ d :: rest) (hn : ws.length < n) :
    skipSpace rd n L = some (advanceN rd ws.length L) := by
  obtain ⟨m, rfl⟩ : ∃ m, n = ws.length + (m + 1) := ⟨n - ws.length - 1, by omega⟩
  rw [skipSpace_steps rd ws _ j _ L hws hin]
  apply skipSpace_stop
  rw [input_head rd d rest j _ (input_split rd ws _ j L hin)]
  exact hd

/-- The identifier loop from the character after the first letter: it
accumulates letters and underscores, then digits, and stops at `c` with the
`lastDigit` flag telling whether a digit was accumulated. -/
theorem identLoop_word (ls ds rest : List Int) (c : Int) (j n : Nat) (L : Lexer σ)
    (hls : ∀ x ∈ ls, (isalpha x || x == 95) = true)
    (hds : ∀ x ∈ ds, isdigit x = true)
    (hin : input rd (ls.length + (ds.length + j)) L = ls ++ (ds ++ c :: rest))
    (hn : ls.length + ds.length < n) :
    ∃ m, identLoop rd n false L =
      identLoop rd (m + 1) (!ds.isEmpty)
        { advanceN rd (ls.length + ds.length) L with
          identifierStr := L.identifierStr ++ (ls ++ ds) } ∧
      (advanceN rd (ls.length + ds.length) L).lastChar = c := by
  obtain ⟨m, rfl⟩ : ∃ m, n = ls.length + (ds.length + (m + 1)) :=
    ⟨n - ls.length - ds.length - 1, by omega⟩
  refine ⟨m, ?_, ?_⟩
  · rw [identLoop_letters rd ls _ _ _ L hls hin]
    have h2 := input_split rd ls _ _ L hin
    rw [identLoop_digits rd ds (c :: rest) j _ false _ hds
      (by rw [input_identifierStr]; exact h2)]
    simp [advanceN_identifierStr, advanceN_add]
  · have h2 := input_split rd ls _ _ L hin
    have h3 := input_split rd ds _ _ _ h2
    rw [advanceN_add]
    exact input_head rd c rest j _ h3

end Loops

/-! ## `getTok` as whitespace loop and body -/

section Body

variable {σ : Type} (rd : σ → List Int × σ)

theorem getTok_succ (n : Nat) (L0 : Lexer σ) :
    getTok rd (n + 1) L0 =
      (skipSpace rd (n + 1) L0).bind (getTokBody rd (getTok rd n) (n + 1)) := by
  rw [getTok]
  cases skipSpace rd (n + 1) L0 with
  | none => rfl
  | some L1 =>
    simp only [Option.bind, getTokBody, startLocation, keywordOrIdentifier]
    split_ifs
    · split
      · rfl
      · rfl
      · split_ifs <;> rfl
    · rfl
    · rfl
    · rfl

end Body

/-! ## More fuel does not change a result -/

section Mono

variable {σ : Type} (rd : σ → List Int × σ)

theorem skipSpace_mono (n : Nat) (L M : Lexer σ) (h : skipSpace rd n L = some M) :
    skipSpace rd (n + 1) L = some M := by
  induction n generalizing L with
  | zero => simp [skipSpace] at h
  | succ n ih =>
    rw [skipSpace] at h ⊢
    split_ifs at h ⊢ with hs
    · exact ih _ h
    · exact h

theorem identLoop_mono (n : Nat) (ld : Bool) (L : Lexer σ) (r : Option Token × Lexer σ)
    (h : identLoop rd n ld L = some r) : identLoop rd (n + 1) ld L = some r := by
  induction n generalizing L ld with
  | zero => simp [identLoop] at h
  | succ n ih =>
    rw [identLoop] at h ⊢
    split_ifs at h ⊢
    · exact ih _ _ h
    · exact h
    · exact ih _ _ h
    · exact h

theorem numLoop_mono (n : Nat) (numStr : List Int) (L : Lexer σ) (r : List Int × Lexer σ)
    (h : numLoop rd n numStr L = some r) : numLoop rd (n + 1) numStr L = some r := by
  induction n generalizing L numStr with
  | zero => simp [numLoop] at h
  | succ n ih =>
    rw [numLoop] at h ⊢
    split_ifs at h ⊢
    · exact ih _ _ h
    · exact h

theorem commentLoop_mono (n : Nat) (L M : Lexer σ) (h : commentLoop rd n L = some M) :
    commentLoop rd (n + 1) L = some M := by
  induction n generalizing L with
  | zero => simp [commentLoop] at h
  | succ n ih =>
    rw [commentLoop] at h ⊢
    split_ifs at h ⊢
    · exact ih _ h
    · exact h

theorem getTokBody_mono (self self2 : Lexer σ → Option (Token × Lexer σ))
    (hself : ∀ M r, self M = some r → self2 M = some r) (n : Nat) (L1 : Lexer σ)
    (r : Token × Lexer σ) (h : getTokBody rd self n L1 = some r) :
    getTokBody rd self2 (n + 1) L1 = some r := by
  unfold getTokBody at h ⊢
  simp only at h ⊢
  split_ifs at h ⊢ with h1 h2 h3
  · split at h
    · simp at h
    · rename_i t L2 heq
      rw [identLoop_mono rd n _ _ _ heq]
      exact h
    · rename_i L2 heq
      rw [identLoop_mono rd n _ _ _ heq]
      exact h
  · split at h
    · simp at h
    · rename_i numStr L2 heq
      rw [numLoop_mono rd n _ _ _ heq]
      exact h
  · split at h
    · simp at h
    · rename_i L2 heq
      rw [commentLoop_mono rd n _ _ heq]
      simp only
      split_ifs at h ⊢
      · exact hself _ _ h
      · exact h
  · exact h

theorem getTok_mono (n : Nat) (L : Lexer σ) (r : Token × Lexer σ)
    (h : getTok rd n L = some r) : getTok rd (n + 1) L = some r := by
  induction n generalizing L r with
  | zero => simp [getTok] at h
  | succ n ih =>
    rw [getTok_succ] at h ⊢
    cases hs : skipSpace rd (n + 1) L with
    | none => simp [hs] at h
    | some L1 =>
      rw [hs] at h
      rw [skipSpace_mono rd _ _ _ hs]
      exact getTokBody_mono rd _ _ (fun M r => ih M r) (n + 1) L1 r h

theorem getTok_mono_le (n m : Nat) (hnm : n ≤ m) (L : Lexer σ) (r : Token × Lexer σ)
    (h : getTok rd n L = some r) : getTok rd m L = some r := by
  induction hnm with
  | refl => exact h
  | step _ ih => exact getTok_mono rd _ L r ih

theorem getNextToken_mono_le (n m : Nat) (hnm : n ≤ m) (L : Lexer σ) (r : Token × Lexer σ)
    (h : getNextToken rd n L = some r) : getNextToken rd m L = some r := by
  unfold getNextToken at h ⊢
  cases hg : getTok rd n L with
  | none => simp [hg] at h
  | some r1 =>
    rw [hg] at h
    rw [getTok_mono_le rd n m hnm L r1 hg]
    exact h

theorem lexAll_mono_fuel (n m : Nat) (hnm : n ≤ m) (k : Nat) (L : Lexer σ)
    (ts : List Lexeme) (h : lexAll rd n k L = some ts) : lexAll rd m k L = some ts := by
  induction k generalizing L ts with
  | zero => simp [lexAll] at h
  | succ k ih =>
    rw [lexAll] at h ⊢
    cases hg : getNextToken rd n L with
    | none => simp [hg] at h
    | some r =>
      rw [hg] at h
      rw [getNextToken_mono_le rd n m hnm L r hg]
      simp only at h ⊢
      split_ifs at h ⊢
      · exact h
      · cases hl : lexAll rd n k r.2 with
        | none => simp [hl] at h
        | some ls =>
          rw [hl] at h
          rw [ih _ _ hl]
          exact h

theorem lexAll_mono_count (n k : Nat) (L : Lexer σ) (ts : List Lexeme)
    (h : lexAll rd n k L = some ts) : lexAll rd n (k + 1) L = some ts := by
  induction k generalizing L ts with
  | zero => simp [lexAll] at h
  | succ k ih =>
    rw [lexAll] at h ⊢
    cases hg : getNextToken rd n L with
    | none => simp [hg] at h
    | some r =>
      rw [hg] at h
      simp only at h ⊢
      split_ifs at h ⊢
      · exact h
      · cases hl : lexAll rd n k r.2 with
        | none => simp [hl] at h
        | some ls =>
          rw [hl] at h
          rw [ih _ _ hl]
          exact h

end Mono

/-! ## `getTok` overwrites the recorded location and skips leading whitespace -/

section Insensitive

variable {σ : Type} (rd : σ → List Int × σ)

theorem skipSpace_lastLocation (n : Nat) (L : Lexer σ) (x : Location) :
    skipSpace rd n { L with lastLocation := x } =
      (skipSpace rd n L).map (fun M => { M with lastLocation := x }) := by
  induction n generalizing L with
  | zero => rfl
  | succ n ih =>
    simp only [skipSpace]
    split_ifs
    · rw [advanceChar_lastLocation, ih]
    · rfl

theorem skipSpace_loc (n : Nat) (L M : Lexer σ) (h : skipSpace rd n L = some M) :
    M.lastLocation = L.lastLocation := by
  induction n generalizing L with
  | zero => simp [skipSpace] at h
  | succ n ih =>
    rw [skipSpace] at h
    split_ifs at h
    · rw [ih _ h, advanceChar_loc]
    · simp only [Option.some.injEq] at h
      rw [h]

theorem getTokBody_lastLocation (self : Lexer σ → Option (Token × Lexer σ)) (n : Nat)
    (L1 : Lexer σ) (x : Location) (hx : x.file = L1.lastLocation.file) :
    getTokBody rd self n { L1 with lastLocation := x } = getTokBody rd self n L1 := by
  cases L1 with
  | mk ct ll ids nv lc ln cc buf src =>
    simp only at hx
    simp only [getTokBody, startLocation, hx]

theorem getTok_lastLocation (n : Nat) (L : Lexer σ) (x : Location)
    (hx : x.file = L.lastLocation.file) :
    getTok rd n { L with lastLocation := x } = getTok rd n L := by
  cases n with
  | zero => rfl
  | succ n =>
    rw [getTok_succ, getTok_succ, skipSpace_lastLocation]
    cases hs : skipSpace rd (n + 1) L with
    | none => rfl
    | some L1 =>
      simp only [Option.map, Option.bind]
      exact getTokBody_lastLocation rd _ _ L1 x (by rw [skipSpace_loc rd _ _ _ hs]; exact hx)

/-- Token recognition from a whitespace lookahead gives what recognition
from the next character gives. -/
theorem getTok_space_fwd (n : Nat) (L : Lexer σ) (r : Token × Lexer σ)
    (hs : isspace L.lastChar = true) (h : getTok rd n L = some r) :
    getTok rd n (advanceChar rd L) = some r := by
  cases n with
  | zero => simp [getTok] at h
  | succ n =>
    rw [getTok_succ] at h ⊢
    rw [skipSpace] at h
    simp only [hs, if_true] at h
    cases h1 : skipSpace rd n (advanceChar rd L) with
    | none => simp [h1] at h
    | some L1 =>
      rw [h1] at h
      rw [skipSpace_mono rd _ _ _ h1]
      exact h

theorem getTok_space_bwd (n : Nat) (L : Lexer σ) (r : Token × Lexer σ)
    (hs : isspace L.lastChar = true) (h : getTok rd n (advanceChar rd L) = some r) :
    getTok rd (n + 1) L = some r := by
  cases n with
  | zero => simp [getTok] at h
  | succ n =>
    rw [getTok_succ] at h ⊢
    rw [skipSpace]
    simp only [hs, if_true]
    cases h1 : skipSpace rd (n + 1) (advanceChar rd L) with
    | none => simp [h1] at h
    | some L1 =>
      rw [h1] at h
      exact getTokBody_mono rd _ _ (fun M r => getTok_mono rd n M r) (n + 1) L1 r h

end Insensitive

/-! ## The identifier branch of `getTok` -/

section Identifier

variable {σ : Type} (rd : σ → List Int × σ)

/-- The identifier branch of `getTok` once whitespace is skipped. -/
theorem getTok_alpha (n : Nat) (L0 L1 : Lexer σ)
    (hskip : skipSpace rd (n + 1) L0 = some L1) (ha : isalpha L1.lastChar = true) :
    getTok rd (n + 1) L0 =
      match identLoop rd (n + 1) false
          (advanceChar rd
            { L1 with lastLocation := startLocation L1, identifierStr := [L1.lastChar] }) with
      | none => none
      | some (some t, L2) => some (t, L2)
      | some (none, L2) => some (keywordOrIdentifier L2.identifierStr, L2) := by
  simp only [getTok, hskip, ha, if_true, startLocation, keywordOrIdentifier]
  split
  · rfl
  · rfl
  · split_ifs <;> rfl

/-- Exit of the identifier loop at a character that cannot continue an identifier. -/
theorem identLoop_exit (m : Nat) (ld : Bool) (L : Lexer σ)
    (h : (isalnum L.lastChar || L.lastChar == 95) = false) :
    identLoop rd (m + 1) ld L = some (none, L) := by
  simp [identLoop, h]

/-- Early return of the identifier loop at a letter or underscore that
follows a digit. -/
theorem identLoop_reject (m : Nat) (L : Lexer σ)
    (h : (isalpha L.lastChar || L.lastChar == 95) = true) :
    identLoop rd (m + 1) true L = some (some L.lastChar, L) := by
  simp [identLoop, isalnum_of_letter _ h, isdigit_of_letter _ h]

/-- The state in which the identifier loop stops: whitespace `ws`, first
letter, letters and underscores `ls`, digits `ds` have been consumed. -/
theorem getTok_word (ws ls ds rest : List Int) (s0 c : Int) (j n : Nat) (L : Lexer σ)
    (hws : ∀ x ∈ ws, isspace x = true) (h0 : isalpha s0 = true)
    (hls : ∀ x ∈ ls, (isalpha x || x == 95) = true)
    (hds : ∀ x ∈ ds, isdigit x = true)
    (hin : input rd (ws.length + (1 + (ls.length + (ds.length + j)))) L =
      ws ++ s0 :: (ls ++ (ds ++ c :: rest)))
    (hn : ws.length + ls.length + ds.length < n) :
    ∃ m, getTok rd (n + 1) L =
      (match identLoop rd (m + 1) (!ds.isEmpty)
          { advanceN rd (ws.length + (1 + (ls.length + ds.length))) L with
            lastLocation := startLocation (advanceN rd ws.length L)
            identifierStr := s0 :: (ls ++ ds) } with
      | none => none
      | some (some t, L2) => some (t, L2)
      | some (none, L2) => some (keywordOrIdentifier L2.identifierStr, L2)) ∧
      (advanceN rd (ws.length + (1 + (ls.length + ds.length))) L).lastChar = c := by
  have hskip := skipSpace_then rd ws _ s0 _ (n + 1) L hws (isspace_of_isalpha _ h0) hin
    (by omega)
  have h1 := input_split rd ws _ _ L hin
  have hl1 : (advanceN rd ws.length L).lastChar = s0 := input_head rd _ _ _ _ h1
  rw [getTok_alpha rd n L _ hskip (by rw [hl1]; exact h0)]
  rw [Nat.add_comm 1, input_succ] at h1
  simp only [List.cons.injEq] at h1
  obtain ⟨m, hm, hc⟩ := identLoop_word rd ls ds rest c j (n + 1)
    (advanceChar rd { advanceN rd ws.length L with
      lastLocation := startLocation (advanceN rd ws.length L)
      identifierStr := [(advanceN rd ws.length L).lastChar] }) hls hds
    (by rw [advanceChar_loc_id, input_loc_id]; exact h1.2)
    (by omega)
  refine ⟨m, ?_, ?_⟩
  · rw [hm]
    simp only [advanceChar_loc_id, advanceN_loc_id]
    simp only [advanceN_add, advanceN, hl1, List.singleton_append]
  · rw [advanceChar_loc_id, advanceN_loc_id] at hc
    simpa only [advanceN_add, advanceN] using hc

/-- A well-shaped word followed by a character that cannot continue an
identifier: `getTok` consumes exactly the whitespace and the word, stores the
word in `identifierStr` and returns the token of the keyword comparison. -/
theorem getTok_identifier (ws ls ds rest : List Int) (s0 c : Int) (j n : Nat) (L : Lexer σ)
    (hws : ∀ x ∈ ws, isspace x = true) (h0 : isalpha s0 = true)
    (hls : ∀ x ∈ ls, (isalpha x || x == 95) = true)
    (hds : ∀ x ∈ ds, isdigit x = true)
    (hc : (isalnum c || c == 95) = false)
    (hin : input rd (ws.length + (1 + (ls.length + (ds.length + j)))) L =
      ws ++ s0 :: (ls ++ (ds ++ c :: rest)))
    (hn : ws.length + ls.length + ds.length + 1 < n) :
    getTok rd n L = some (keywordOrIdentifier (s0 :: (ls ++ ds)),
      { advanceN rd (ws.length + (1 + (ls.length + ds.length))) L with
        lastLocation := startLocation (advanceN rd ws.length L)
        identifierStr := s0 :: (ls ++ ds) }) := by
  obtain ⟨n, rfl⟩ : ∃ k, n = k + 1 := ⟨n - 1, by omega⟩
  obtain ⟨m, hm, hl⟩ := getTok_word rd ws ls ds rest s0 c j n L hws h0 hls hds hin (by omega)
  rw [hm, identLoop_exit rd m _ _ (by simpa only [hl] using hc)]

/-- A word whose digits are followed by a letter or an underscore `c`:
`getTok` stops in front of `c` and returns `c` itself as the token. -/
theorem getTok_violation (ws ls ds rest : List Int) (s0 c : Int) (j n : Nat) (L : Lexer σ)
    (hws : ∀ x ∈ ws, isspace x = true) (h0 : isalpha s0 = true)
    (hls : ∀ x ∈ ls, (isalpha x || x == 95) = true)
    (hds : ∀ x ∈ ds, isdigit x = true) (hne : ds ≠ [])
    (hc : (isalpha c || c == 95) = true)
    (hin : input rd (ws.length + (1 + (ls.length + (ds.length + j)))) L =
      ws ++ s0 :: (ls ++ (ds ++ c :: rest)))
    (hn : ws.length + ls.length + ds.length + 1 < n) :
    getTok rd n L = some (c,
      { advanceN rd (ws.length + (1 + (ls.length + ds.length))) L with
        lastLocation := startLocation (advanceN rd ws.length L)
        identifierStr := s0 :: (ls ++ ds) }) := by
  obtain ⟨n, rfl⟩ : ∃ k, n = k + 1 := ⟨n - 1, by omega⟩
  obtain ⟨m, hm, hl⟩ := getTok_word rd ws ls ds rest s0 c j n L hws h0 hls hds hin (by omega)
  have hd : (!ds.isEmpty) = true := by cases ds with
    | nil => exact absurd rfl hne
    | cons _ _ => rfl
  rw [hm, hd, identLoop_reject rd m _ (by simpa only [hl] using hc)]
  simp only [hl]

end Identifier

/-! ## The lexer depends on the line source only through the lines it yields -/

section MapSrc

variable {σ τ : Type} (rd : σ → List Int × σ) (rd2 : τ → List Int × τ) (g : σ → τ)

theorem advanceChar_mapSrc (hg : ∀ s, rd2 (g s) = ((rd s).1, g (rd s).2)) (L : Lexer σ) :
    advanceChar rd2 (mapSrc g L) = mapSrc g (advanceChar rd L) := by
  cases L with
  | mk ct ll ids nv lc ln cc buf src =>
    cases buf with
    | nil => rfl
    | cons b bs =>
      simp only [advanceChar, getNextChar, mapSrc, hg]
      split_ifs <;> rfl

theorem mapSrc_identifierStr (L : Lexer σ) (x : List Int) :
    mapSrc g { L with identifierStr := x } = { mapSrc g L with identifierStr := x } := rfl

theorem skipSpace_mapSrc (hg : ∀ s, rd2 (g s) = ((rd s).1, g (rd s).2)) (n : Nat)
    (L : Lexer σ) :
    skipSpace rd2 n (mapSrc g L) = (skipSpace rd n L).map (mapSrc g) := by
  induction n generalizing L with
  | zero => rfl
  | succ n ih =>
    simp only [skipSpace]
    have : (mapSrc g L).lastChar = L.lastChar := rfl
    rw [this]
    split_ifs
    · rw [advanceChar_mapSrc rd rd2 g hg, ih]
    · rfl

theorem identLoop_mapSrc (hg : ∀ s, rd2 (g s) = ((rd s).1, g (rd s).2)) (n : Nat) (ld : Bool)
    (L : Lexer σ) :
    identLoop rd2 n ld (mapSrc g L) =
      (identLoop rd n ld L).map (fun r => (r.1, mapSrc g r.2)) := by
  induction n generalizing L ld with
  | zero => rfl
  | succ n ih =>
    simp only [identLoop]
    have h1 : (mapSrc g L).lastChar = L.lastChar := rfl
    have h2 : (mapSrc g L).identifierStr = L.identifierStr := rfl
    rw [h1, h2]
    split_ifs
    · exact (congrArg (identLoop rd2 n true) (advanceChar_mapSrc rd rd2 g hg
        { L with identifierStr := L.identifierStr ++ [L.lastChar] })).trans (ih _ _)
    · rfl
    · exact (congrArg (identLoop rd2 n ld) (advanceChar_mapSrc rd rd2 g hg
        { L with identifierStr := L.identifierStr ++ [L.lastChar] })).trans (ih _ _)
    · rfl

theorem numLoop_mapSrc (hg : ∀ s, rd2 (g s) = ((rd s).1, g (rd s).2)) (n : Nat)
    (numStr : List Int) (L : Lexer σ) :
    numLoop rd2 n numStr (mapSrc g L) =
      (numLoop rd n numStr L).map (fun r => (r.1, mapSrc g r.2)) := by
  induction n generalizing L numStr with
  | zero => rfl
  | succ n ih =>
    simp only [numLoop]
    rw [advanceChar_mapSrc rd rd2 g hg]
    have h1 : (mapSrc g L).lastChar = L.lastChar := rfl
    have h2 : (mapSrc g (advanceChar rd L)).lastChar = (advanceChar rd L).lastChar := rfl
    rw [h1, h2]
    split_ifs
    · rw [ih]
    · rfl

theorem commentLoop_mapSrc (hg : ∀ s, rd2 (g s) = ((rd s).1, g (rd s).2)) (n : Nat)
    (L : Lexer σ) :
    commentLoop rd2 n (mapSrc g L) = (commentLoop rd n L).map (mapSrc g) := by
  induction n generalizing L with
  | zero => rfl
  | succ n ih =>
    simp only [commentLoop]
    rw [advanceChar_mapSrc rd rd2 g hg]
    have h2 : (mapSrc g (advanceChar rd L)).lastChar = (advanceChar rd L).lastChar := rfl
    rw [h2]
    split_ifs
    · rw [ih]
    · rfl

theorem eofOrChar_mapSrc (hg : ∀ s, rd2 (g s) = ((rd s).1, g (rd s).2)) (L : Lexer σ) :
    eofOrChar rd2 (mapSrc g L) = ((eofOrChar rd L).1, mapSrc g (eofOrChar rd L).2) := by
  simp only [eofOrChar]
  have h1 : (mapSrc g L).lastChar = L.lastChar := rfl
  rw [h1]
  split_ifs
  · rfl
  · rw [advanceChar_mapSrc rd rd2 g hg]

theorem getTokBody_mapSrc (hg : ∀ s, rd2 (g s) = ((rd s).1, g (rd s).2))
    (self : Lexer σ → Option (Token × Lexer σ)) (self2 : Lexer τ → Option (Token × Lexer τ))
    (hself : ∀ M, self2 (mapSrc g M) = (self M).map (fun r => (r.1, mapSrc g r.2)))
    (n : Nat) (L1 : Lexer σ) :
    getTokBody rd2 self2 n (mapSrc g L1) =
      (getTokBody rd self n L1).map (fun r => (r.1, mapSrc g r.2)) := by
  cases L1 with
  | mk ct ll ids nv lc ln cc buf src =>
    simp only [getTokBody, mapSrc, startLocation]
    split_ifs with h1 h2 h3
    · have e := identLoop_mapSrc rd rd2 g hg n false (advanceChar rd
        { curTok := ct, lastLocation := { file := ll.file, line := ln, col := cc },
          identifierStr := [lc], numVal := nv, lastChar := lc, curLineNum := ln, curCol := cc,
          curLineBuffer := buf, src := src })
      rw [← advanceChar_mapSrc rd rd2 g hg] at e
      simp only [mapSrc] at e
      rw [e]
      cases identLoop rd n false (advanceChar rd
        { curTok := ct, lastLocation := { file := ll.file, line := ln, col := cc },
          identifierStr := [lc], numVal := nv, lastChar := lc, curLineNum := ln, curCol := cc,
          curLineBuffer := buf, src := src }) with
      | none => rfl
      | some r =>
        obtain ⟨o, M⟩ := r
        cases o <;> rfl
    · have e := numLoop_mapSrc rd rd2 g hg n []
        { curTok := ct, lastLocation := { file := ll.file, line := ln, col := cc },
          identifierStr := ids, numVal := nv, lastChar := lc, curLineNum := ln, curCol := cc,
          curLineBuffer := buf, src := src }
      simp only [mapSrc] at e
      rw [e]
      cases numLoop rd n []
        { curTok := ct, lastLocation := { file := ll.file, line := ln, col := cc },
          identifierStr := ids, numVal := nv, lastChar := lc, curLineNum := ln, curCol := cc,
          curLineBuffer := buf, src := src } with
      | none => rfl
      | some r => rfl
    · have e := commentLoop_mapSrc rd rd2 g hg n
        { curTok := ct, lastLocation := { file := ll.file, line := ln, col := cc },
          identifierStr := ids, numVal := nv, lastChar := lc, curLineNum := ln, curCol := cc,
          curLineBuffer := buf, src := src }
      simp only [mapSrc] at e
      rw [e]
      cases commentLoop rd n
        { curTok := ct, lastLocation := { file := ll.file, line := ln, col := cc },
          identifierStr := ids, numVal := nv, lastChar := lc, curLineNum := ln, curCol := cc,
          curLineBuffer := buf, src := src } with
      | none => rfl
      | some M =>
        simp only [Option.map]
        have hc2 : (mapSrc g M).lastChar = M.lastChar := rfl
        rw [hc2]
        split_ifs
        · exact hself M
        · rw [eofOrChar_mapSrc rd rd2 g hg]; rfl
    · have e := eofOrChar_mapSrc rd rd2 g hg
        { curTok := ct, lastLocation := { file := ll.file, line := ln, col := cc },
          identifierStr := ids, numVal := nv, lastChar := lc, curLineNum := ln, curCol := cc,
          curLineBuffer := buf, src := src }
      simp only [mapSrc] at e
      rw [e]
      rfl

theorem getTok_mapSrc (hg : ∀ s, rd2 (g s) = ((rd s).1, g (rd s).2)) (n : Nat)
    (L : Lexer σ) :
    getTok rd2 n (mapSrc g L) = (getTok rd n L).map (fun r => (r.1, mapSrc g r.2)) := by
  induction n generalizing L with
  | zero => rfl
  | succ n ih =>
    rw [getTok_succ, getTok_succ, skipSpace_mapSrc rd rd2 g hg]
    cases skipSpace rd (n + 1) L with
    | none => rfl
    | some L1 =>
      exact getTokBody_mapSrc rd rd2 g hg _ _ ih (n + 1) L1

theorem getNextToken_mapSrc (hg : ∀ s, rd2 (g s) = ((rd s).1, g (rd s).2)) (n : Nat)
    (L : Lexer σ) :
    getNextToken rd2 n (mapSrc g L) =
      (getNextToken rd n L).map (fun r => (r.1, mapSrc g r.2)) := by
  simp only [getNextToken, getTok_mapSrc rd rd2 g hg]
  cases getTok rd n L with
  | none => rfl
  | some r => rfl

theorem lexeme_mapSrc (L : Lexer σ) : lexeme (mapSrc g L) = lexeme L := by
  simp only [lexeme, getId, getValue, mapSrc]
  split_ifs <;> rfl

theorem lexAll_mapSrc (hg : ∀ s, rd2 (g s) = ((rd s).1, g (rd s).2)) (n k : Nat)
    (L : Lexer σ) :
    lexAll rd2 n k (mapSrc g L) = lexAll rd n k L := by
  induction k generalizing L with
  | zero => rfl
  | succ k ih =>
    simp only [lexAll, getNextToken_mapSrc rd rd2 g hg]
    cases getNextToken rd n L with
    | none => rfl
    | some r =>
      simp only [Option.map, lexeme_mapSrc, ih]

end MapSrc

/-! ## The line source `LexerBuffer` -/

section Buffer

theorem getD_eq_headD_drop (l : List Int) (i : Nat) : l.getD i 0 = (l.drop i).headD 0 := by
  induction l generalizing i with
  | nil => simp
  | cons x xs ih => cases i <;> simp [ih]

theorem LexerBuffer.deref_eq (b : LexerBuffer) :
    b.deref = (b.contents.drop b.current).headD 0 :=
  getD_eq_headD_drop _ _

theorem scanLen_nil : scanLen [] = 0 := rfl

theorem scanLen_cons_stop (c : Int) (d : List Int) (h : ¬ (c ≠ 0 ∧ c ≠ 10)) :
    scanLen (c :: d) = 0 := by
  simp only [scanLen, List.takeWhile_cons]
  rw [if_neg (by simpa using h)]
  rfl

theorem scanLen_cons_go (c : Int) (d : List Int) (h : c ≠ 0 ∧ c ≠ 10) :
    scanLen (c :: d) = scanLen d + 1 := by
  simp only [scanLen, List.takeWhile_cons]
  rw [if_pos (by simpa using h)]
  rfl

/-- The scanning loop stops after `scanLen` bytes. -/
theorem LexerBuffer.scan_eq (n : Nat) (b : LexerBuffer)
    (hn : (b.contents.drop b.current).length ≤ n) :
    LexerBuffer.scan n b =
      { b with current := b.current + scanLen (b.contents.drop b.current) } := by
  induction n generalizing b with
  | zero =>
    have hd : b.contents.drop b.current = [] := List.length_eq_zero.mp (Nat.le_zero.mp hn)
    rw [hd, scanLen_nil]
    rfl
  | succ n ih =>
    rw [LexerBuffer.scan, LexerBuffer.deref_eq]
    cases hd : b.contents.drop b.current with
    | nil =>
      simp only [List.headD_nil, ne_eq, not_true_eq_false, false_and, and_false, if_false,
        scanLen_nil, Nat.add_zero]
    | cons c d =>
      have hlt : b.current < b.contents.length := by
        by_contra hge
        rw [List.drop_eq_nil_of_le (Nat.le_of_not_lt hge)] at hd
        exact List.noConfusion hd
      have hd2 : b.contents.drop (b.current + 1) = d := by
        rw [← List.drop_drop, hd]
        rfl
      simp only [List.headD_cons]
      by_cases hc : c ≠ 0 ∧ c ≠ 10
      · rw [if_pos ⟨Nat.le_of_lt hlt, hc⟩, ih]
        · simp only [hd2, scanLen_cons_go c d hc]
          congr 1
          omega
        · simp only [hd2]
          rw [hd] at hn
          simpa using hn
      · rw [if_neg (fun h => hc h.2), scanLen_cons_stop c d hc]
        rfl

/-- What `readNextLine` returns, in terms of the bytes from `current` on. -/
theorem LexerBuffer.readNextLine_eq (b : LexerBuffer) :
    b.readNextLine =
      ((b.contents.drop b.current).take (lineLen (b.contents.drop b.current)),
        { b with current := b.current + lineLen (b.contents.drop b.current) }) := by
  have hfuel : (b.contents.drop b.current).length ≤ b.contents.length + 1 - b.current := by
    rw [List.length_drop]; omega
  have key : (b.contents.drop (b.current + scanLen (b.contents.drop b.current))).headD 0 =
      ((b.contents.drop b.current).drop (scanLen (b.contents.drop b.current))).headD 0 := by
    rw [List.drop_drop, Nat.add_comm]
  rw [LexerBuffer.readNextLine]
  simp only [LexerBuffer.scan_eq _ b hfuel, LexerBuffer.deref_eq, key, lineLen]
  by_cases h0 : ((b.contents.drop b.current).drop (scanLen (b.contents.drop b.current))).headD 0
      ≠ 0
  · have hlt : b.current + scanLen (List.drop b.current b.contents) ≤ b.contents.length := by
      by_contra hge
      rw [← key, List.drop_eq_nil_of_le (by omega)] at h0
      exact h0 rfl
    rw [if_pos ⟨hlt, h0⟩, if_pos h0]
    simp only [Nat.add_assoc, Nat.add_sub_cancel_left]
  · rw [if_neg (fun h => h0 h.2), if_neg h0]
    simp only [Nat.add_sub_cancel_left]

/-- Bytes in front of the buffer do not change the lines read. -/
theorem LexerBuffer.readNextLine_shift (p : List Int) (b : LexerBuffer) :
    (LexerBuffer.shift p b).readNextLine =
      (b.readNextLine.1, LexerBuffer.shift p b.readNextLine.2) := by
  have hd : (p ++ b.contents).drop (b.current + p.length) = b.contents.drop b.current := by
    rw [Nat.add_comm, ← List.drop_drop, List.drop_left]
  rw [LexerBuffer.readNextLine_eq, LexerBuffer.readNextLine_eq b]
  simp only [LexerBuffer.shift, hd]
  congr 2
  omega

theorem scanLen_line (xs r : List Int) (h : ∀ c ∈ xs, c ≠ 0 ∧ c ≠ 10) :
    scanLen (xs ++ 10 :: r) = xs.length := by
  induction xs with
  | nil => exact scanLen_cons_stop 10 r (by simp)
  | cons x xs ih =>
    rw [List.cons_append, scanLen_cons_go x _ (h x (List.mem_cons_self _ _)),
      ih (fun c hc => h c (List.mem_cons_of_mem _ hc))]
    rfl

/-- The first line of a buffer that starts with a line free of NUL bytes. -/
theorem LexerBuffer.readNextLine_line (xs r : List Int) (h : ∀ c ∈ xs, c ≠ 0 ∧ c ≠ 10) :
    LexerBuffer.readNextLine { contents := xs ++ 10 :: r, current := 0 } =
      (xs ++ [10], { contents := xs ++ 10 :: r, current := xs.length + 1 }) := by
  rw [LexerBuffer.readNextLine_eq]
  have hl : lineLen (xs ++ 10 :: r) = xs.length + 1 := by
    simp [lineLen, scanLen_line xs r h]
  simp only [List.drop_zero, hl, Nat.zero_add]
  congr 1
  rw [List.take_append_eq_append_take]
  simp

end Buffer

/-! ## The character stream of a `LexerBuffer` -/

section BufferStream

theorem lineLen_nil : lineLen [] = 0 := rfl

theorem lineLen_nul (d : List Int) : lineLen (0 :: d) = 0 := by
  simp [lineLen, scanLen_cons_stop 0 d (by simp)]

theorem lineLen_newline (d : List Int) : lineLen (10 :: d) = 1 := by
  simp [lineLen, scanLen_cons_stop 10 d (by simp)]

theorem lineLen_other (c : Int) (d : List Int) (h : c ≠ 0 ∧ c ≠ 10) :
    lineLen (c :: d) = lineLen d + 1 := by
  simp only [lineLen, scanLen_cons_go c d h, List.drop_succ_cons]
  split_ifs <;> rfl

/-- The line read and the bytes behind it make up the bytes before the first NUL. -/
theorem take_lineLen_append (d : List Int) :
    d.take (lineLen d) ++ beforeNul (d.drop (lineLen d)) = beforeNul d := by
  induction d with
  | nil => rfl
  | cons c d ih =>
    by_cases h0 : c = 0
    · subst h0
      rw [lineLen_nul]
      rfl
    · by_cases h10 : c = 10
      · subst h10
        rw [lineLen_newline]
        simp [beforeNul]
      · rw [lineLen_other c d ⟨h0, h10⟩]
        simp only [List.take_succ_cons, List.drop_succ_cons, List.cons_append, ih]
        simp [beforeNul, h0]

/-- An empty line is read only when no byte is left before the first NUL. -/
theorem take_lineLen_nil (d : List Int) (h : d.take (lineLen d) = []) : beforeNul d = [] := by
  cases d with
  | nil => rfl
  | cons c d =>
    by_cases h0 : c = 0
    · subst h0
      simp [beforeNul]
    · by_cases h10 : c = 10
      · subst h10
        rw [lineLen_newline] at h
        simp at h
      · rw [lineLen_other c d ⟨h0, h10⟩] at h
        simp at h

/-- One cursor step of a `LexerBuffer` lexer with characters left: it delivers
the first of them and leaves the others. -/
theorem LexerBuffer.advanceChar_remaining (L : Lexer LexerBuffer) (x : Int) (r : List Int)
    (hinv : L.curLineBuffer = [] → LexerBuffer.remaining L = [])
    (hrem : LexerBuffer.remaining L = x :: r) :
    (advanceChar LexerBuffer.readNextLine L).lastChar = x ∧
    LexerBuffer.remaining (advanceChar LexerBuffer.readNextLine L) = r ∧
    ((advanceChar LexerBuffer.readNextLine L).curLineBuffer = [] →
      LexerBuffer.remaining (advanceChar LexerBuffer.readNextLine L) = []) := by
  cases L with
  | mk ct ll ids nv lc ln cc buf src =>
    cases buf with
    | nil =>
      rw [hinv rfl] at hrem
      exact List.noConfusion hrem
    | cons b bs =>
      simp only [LexerBuffer.remaining, List.cons_append, List.cons.injEq] at hrem
      obtain ⟨rfl, hr⟩ := hrem
      cases bs with
      | nil =>
        simp only [List.nil_append] at hr
        have hrd := LexerBuffer.readNextLine_eq src
        have happ := take_lineLen_append (src.contents.drop src.current)
        have hnil := take_lineLen_nil (src.contents.drop src.current)
        have hdrop : src.contents.drop (src.current + lineLen (src.contents.drop src.current)) =
            (src.contents.drop src.current).drop (lineLen (src.contents.drop src.current)) := by
          rw [List.drop_drop, Nat.add_comm]
        have key : ∀ M : Lexer LexerBuffer,
            M.curLineBuffer = (src.contents.drop src.current).take
              (lineLen (src.contents.drop src.current)) →
            M.src = { src with
              current := src.current + lineLen (src.contents.drop src.current) } →
            LexerBuffer.remaining M = r ∧
              (M.curLineBuffer = [] → LexerBuffer.remaining M = []) := by
          intro M hb hs
          have hM : LexerBuffer.remaining M = r := by
            simp only [LexerBuffer.remaining, hb, hs, hdrop, happ, hr]
          refine ⟨hM, ?_⟩
          intro he
          rw [hM, ← hr]
          exact hnil (hb ▸ he)
        have hstate : (advanceChar LexerBuffer.readNextLine
            { curTok := ct, lastLocation := ll, identifierStr := ids, numVal := nv,
              lastChar := lc, curLineNum := ln, curCol := cc, curLineBuffer := [b],
              src := src }).lastChar = b ∧
            (advanceChar LexerBuffer.readNextLine
            { curTok := ct, lastLocation := ll, identifierStr := ids, numVal := nv,
              lastChar := lc, curLineNum := ln, curCol := cc, curLineBuffer := [b],
              src := src }).curLineBuffer = (src.contents.drop src.current).take
              (lineLen (src.contents.drop src.current)) ∧
            (advanceChar LexerBuffer.readNextLine
            { curTok := ct, lastLocation := ll, identifierStr := ids, numVal := nv,
              lastChar := lc, curLineNum := ln, curCol := cc, curLineBuffer := [b],
              src := src }).src = { src with
              current := src.current + lineLen (src.contents.drop src.current) } := by
          simp only [advanceChar, getNextChar, List.isEmpty_nil, if_true, hrd]
          split_ifs <;> simp
        exact ⟨hstate.1, key _ hstate.2.1 hstate.2.2⟩
      | cons z zs =>
        simp only [advanceChar, getNextChar, List.isEmpty_cons, Bool.false_eq_true, if_false,
          LexerBuffer.remaining]
        split_ifs <;> simp [hr]

/-- One cursor step of a `LexerBuffer` lexer with no character left: it
delivers the end-of-file code and nothing changes. -/
theorem LexerBuffer.advanceChar_exhausted (L : Lexer LexerBuffer)
    (hinv : L.curLineBuffer = [] → LexerBuffer.remaining L = [])
    (hrem : LexerBuffer.remaining L = []) :
    advanceChar LexerBuffer.readNextLine L = { L with lastChar := EOF } := by
  cases L with
  | mk ct ll ids nv lc ln cc buf src =>
    cases buf with
    | nil => rfl
    | cons b bs => simp [LexerBuffer.remaining] at hrem

/-- The cursor of a `LexerBuffer` lexer delivers the remaining characters and
then the end-of-file code. -/
theorem LexerBuffer.upcoming_remaining (xs : List Int) (L : Lexer LexerBuffer)
    (hinv : L.curLineBuffer = [] → LexerBuffer.remaining L = [])
    (hrem : LexerBuffer.remaining L = xs) :
    upcoming LexerBuffer.readNextLine (xs.length + 1) L = xs ++ [EOF] := by
  induction xs generalizing L with
  | nil =>
    simp only [List.length_nil, Nat.zero_add, upcoming, List.nil_append,
      LexerBuffer.advanceChar_exhausted L hinv hrem]
  | cons x xs ih =>
    obtain ⟨h1, h2, h3⟩ := LexerBuffer.advanceChar_remaining L x xs hinv hrem
    rw [List.length_cons, upcoming, h1, ih _ h3 h2]
    rfl

/-- The input of a fresh `LexerBuffer` lexer: the initial blank, the seeded
newline, the bytes of the buffer before the first NUL, then end-of-file. -/
theorem LexerBuffer.input_new (text : List Int) (f : String) :
    input LexerBuffer.readNextLine ((32 :: 10 :: beforeNul text).length)
      (LexerBuffer.new text f) = (32 :: 10 :: beforeNul text) ++ [EOF] := by
  have h := LexerBuffer.upcoming_remaining (10 :: beforeNul text) (LexerBuffer.new text f)
    (fun h => List.noConfusion h) rfl
  simp only [input, List.length_cons] at h ⊢
  rw [h]
  rfl

end BufferStream

/-! ## The cursor inside one line -/

section Line

variable {σ : Type} (rd : σ → List Int × σ)

theorem advanceChar_inside (L : Lexer σ) (x z : Int) (rest : List Int)
    (hb : L.curLineBuffer = x :: z :: rest) (hx : x ≠ 10) :
    advanceChar rd L =
      { L with lastChar := x, curCol := L.curCol + 1, curLineBuffer := z :: rest } := by
  cases L with
  | mk ct ll ids nv lc ln cc buf src =>
    simp only at hb
    subst hb
    simp [advanceChar, getNextChar, hx]

theorem advanceChar_newline (L : Lexer σ) (hb : L.curLineBuffer = [10]) :
    advanceChar rd L =
      { L with lastChar := 10, curLineNum := L.curLineNum + 1, curCol := 0,
               curLineBuffer := (rd L.src).1, src := (rd L.src).2 } := by
  cases L with
  | mk ct ll ids nv lc ln cc buf src =>
    simp only at hb
    subst hb
    simp [advanceChar, getNextChar]

theorem advanceChar_front (L : Lexer σ) (x : Int) (rest : List Int)
    (hb : L.curLineBuffer = x :: rest) :
    (advanceChar rd L).lastChar = x ∧
      (rest ≠ [] → (advanceChar rd L).curLineBuffer = rest) := by
  cases L with
  | mk ct ll ids nv lc ln cc buf src =>
    simp only at hb
    subst hb
    cases rest with
    | nil => simp [advanceChar, getNextChar]
    | cons z zs =>
      simp only [advanceChar, getNextChar, List.isEmpty_cons, Bool.false_eq_true, if_false]
      split_ifs <;> simp

/-- The characters in the line buffer are the ones the cursor delivers next. -/
theorem upcoming_buffer (xs ys : List Int) (L : Lexer σ) (hb : L.curLineBuffer = xs ++ ys) :
    upcoming rd xs.length L = xs := by
  induction xs generalizing L with
  | nil => rfl
  | cons x xs ih =>
    obtain ⟨h1, h2⟩ := advanceChar_front rd L x (xs ++ ys) hb
    rw [List.length_cons, upcoming, h1]
    cases xs with
    | nil => rfl
    | cons z zs =>
      rw [ih _ (h2 (by simp))]

/-- Cursor steps over characters of a line that are not the last one. -/
theorem advanceN_inside (xs : List Int) (y : Int) (ys : List Int) (L : Lexer σ)
    (hx : ∀ c ∈ xs, c ≠ 10) (hb : L.curLineBuffer = xs ++ y :: ys) :
    advanceN rd xs.length L =
      { L with lastChar := xs.getLastD L.lastChar, curCol := L.curCol + xs.length,
               curLineBuffer := y :: ys } := by
  induction xs generalizing L with
  | nil =>
    cases L
    simp only at hb
    simp [advanceN, hb]
  | cons x xs ih =>
    have hstep := advanceChar_inside rd L x ((xs ++ y :: ys).head (by simp))
      ((xs ++ y :: ys).tail) (by rw [hb]; simp) (hx x (List.mem_cons_self _ _))
    have hb2 : (advanceChar rd L).curLineBuffer = xs ++ y :: ys := by
      rw [hstep]; simp
    rw [List.length_cons, advanceN, ih _ (fun c hc => hx c (List.mem_cons_of_mem _ hc)) hb2,
      hstep]
    simp only [List.getLastD_cons, List.length_cons]
    congr 1
    omega

end Line

/-! ## Whitespace and comments -/

section Comments

variable {σ : Type} (rd : σ → List Int × σ)

/-- The comment branch of `getTok` once whitespace is skipped. -/
theorem getTok_hash (n : Nat) (L0 L1 : Lexer σ)
    (hskip : skipSpace rd (n + 1) L0 = some L1) (h : L1.lastChar = 35) :
    getTok rd (n + 1) L0 =
      match commentLoop rd (n + 1) { L1 with lastLocation := startLocation L1 } with
      | none => none
      | some L2 => if L2.lastChar ≠ EOF then getTok rd n L2 else some (eofOrChar rd L2) := by
  have ha : isalpha (35 : Int) = false := by decide
  have hd : isdigit (35 : Int) = false := by decide
  simp only [getTok, hskip, h, ha, hd, startLocation]
  rfl

/-- The end-of-file check and the fallback of `getTok` once whitespace is skipped. -/
theorem getTok_other (n : Nat) (L0 L1 : Lexer σ)
    (hskip : skipSpace rd (n + 1) L0 = some L1) (ha : isalpha L1.lastChar = false)
    (hd : isdigit L1.lastChar = false) (hh : L1.lastChar ≠ 35) :
    getTok rd (n + 1) L0 =
      some (eofOrChar rd { L1 with lastLocation := startLocation L1 }) := by
  simp only [getTok, hskip, ha, hd, hh, startLocation]
  rfl

/-- The comment loop walks over the comment text `t` and stops with the
lookahead on the first end-of-file, newline or carriage return `e`. -/
theorem commentLoop_run (t : List Int) (e : Int) (n : Nat) (L : Lexer σ)
    (ht : ∀ c ∈ t, c ≠ EOF ∧ c ≠ 10 ∧ c ≠ 13) (he : e = EOF ∨ e = 10 ∨ e = 13)
    (hin : upcoming rd (t.length + 1) L = t ++ [e]) (hn : t.length < n) :
    commentLoop rd n L = some (advanceN rd (t.length + 1) L) := by
  induction t generalizing L n with
  | nil =>
    obtain ⟨m, rfl⟩ : ∃ m, n = m + 1 := ⟨n - 1, by omega⟩
    simp only [List.length_nil, Nat.zero_add, upcoming, List.nil_append, List.cons.injEq,
      and_true] at hin
    simp only [commentLoop, hin, advanceN, List.length_nil]
    rcases he with h | h | h <;> simp [h]
  | cons x t ih =>
    obtain ⟨m, rfl⟩ : ∃ m, n = m + 1 := ⟨n - 1, by omega⟩
    rw [List.length_cons, upcoming] at hin
    simp only [List.cons_append, List.cons.injEq] at hin
    have hx := ht x (List.mem_cons_self _ _)
    rw [← hin.1] at hx
    have hgo : ((advanceChar rd L).lastChar != EOF && (advanceChar rd L).lastChar != 10 &&
        (advanceChar rd L).lastChar != 13) = true := by
      simp [hx.1, hx.2.1, hx.2.2]
    rw [commentLoop]
    simp only [hgo, if_true]
    rw [ih m _ (fun y hy => ht y (List.mem_cons_of_mem _ hy)) hin.2 (by simpa using hn)]
    rfl

theorem upcoming_take (a b : Nat) (L : Lexer σ) (xs ys : List Int)
    (h : upcoming rd (a + b) L = xs ++ ys) (ha : xs.length = a) :
    upcoming rd a L = xs := by
  rw [upcoming_add] at h
  exact List.append_inj_left h (by rw [upcoming_length, ha])

/-- Splitting blank input after its leading whitespace: nothing is left, or a
comment starts. -/
theorem blank_space_decomp (cs : List Int) (h : blank false cs = true) :
    ∃ ws rest, cs = ws ++ rest ∧ (∀ c ∈ ws, isspace c = true) ∧
      (rest = [] ∨ ∃ rem, rest = 35 :: rem ∧ blank true rem = true) := by
  induction cs with
  | nil => exact ⟨[], [], rfl, by simp, Or.inl rfl⟩
  | cons c cs ih =>
    by_cases hc : c = 35
    · subst hc
      refine ⟨[], 35 :: cs, rfl, by simp, Or.inr ⟨cs, rfl, ?_⟩⟩
      simpa [blank] using h
    · simp only [blank, hc, if_false, Bool.and_eq_true] at h
      obtain ⟨ws, rest, h1, h2, h3⟩ := ih h.2
      refine ⟨c :: ws, rest, by rw [h1]; rfl, ?_, h3⟩
      intro x hx
      rcases List.mem_cons.mp hx with rfl | hx
      · exact h.1
      · exact h2 x hx

/-- Splitting the text after a `#` at the character where the comment loop
stops: an end-of-file code, or a newline or carriage return followed by
blank input. -/
theorem blank_comment_decomp (rem : List Int) (h : blank true rem = true) :
    ∃ t, (∀ c ∈ t, c ≠ EOF ∧ c ≠ 10 ∧ c ≠ 13) ∧
      ((∃ tail, rem ++ [EOF] = t ++ EOF :: tail) ∨
        (∃ e rem1, (e = 10 ∨ e = 13) ∧ rem = t ++ e :: rem1 ∧ blank false rem1 = true)) := by
  induction rem with
  | nil => exact ⟨[], by simp, Or.inl ⟨[], rfl⟩⟩
  | cons c rem ih =>
    by_cases hE : c = EOF
    · subst hE
      exact ⟨[], by simp, Or.inl ⟨rem ++ [EOF], rfl⟩⟩
    · by_cases hN : c = 10 ∨ c = 13
      · refine ⟨[], by simp, Or.inr ⟨c, rem, hN, rfl, ?_⟩⟩
        simpa [blank, hN] using h
      · simp only [blank, hN, if_false] at h
        obtain ⟨t, ht, hrest⟩ := ih h
        refine ⟨c :: t, ?_, ?_⟩
        · intro x hx
          rcases List.mem_cons.mp hx with rfl | hx
          · exact ⟨hE, fun e => hN (Or.inl e), fun e => hN (Or.inr e)⟩
          · exact ht x hx
        · rcases hrest with ⟨tail, htail⟩ | ⟨e, rem1, he, hr, hb⟩
          · exact Or.inl ⟨tail, by rw [List.cons_append, htail]; rfl⟩
          · exact Or.inr ⟨e, rem1, he, by rw [hr]; rfl, hb⟩

theorem eofOrChar_eof (L : Lexer σ) (h : L.lastChar = EOF) :
    eofOrChar rd L = (tok_eof, L) := by
  simp [eofOrChar, h]

/-- On blank input followed by the end-of-file code, `getTok` returns `tok_eof`
and leaves the end-of-file code in the lookahead. -/
theorem getTok_blank (k : Nat) : ∀ (cs : List Int) (L : Lexer σ) (n : Nat),
    cs.length ≤ k → blank false cs = true → input rd cs.length L = cs ++ [EOF] →
    cs.length < n → ∃ L1, getTok rd n L = some (tok_eof, L1) ∧ L1.lastChar = EOF := by
  induction k with
  | zero =>
    intro cs L n hk _ hin hn
    obtain ⟨n, rfl⟩ : ∃ m, n = m + 1 := ⟨n - 1, by omega⟩
    have hcs : cs = [] := List.length_eq_zero.mp (Nat.le_zero.mp hk)
    subst hcs
    have hl : L.lastChar = EOF := input_head rd EOF [] 0 L hin
    have hskip : skipSpace rd (n + 1) L = some L :=
      skipSpace_stop rd n L (by rw [hl]; decide)
    rw [getTok_other rd n L L hskip (by rw [hl]; decide) (by rw [hl]; decide)
      (by rw [hl]; decide)]
    exact ⟨_, congrArg some (eofOrChar_eof rd _ hl), hl⟩
  | succ k ih =>
    intro cs L n hk hb hin hn
    obtain ⟨n, rfl⟩ : ∃ m, n = m + 1 := ⟨n - 1, by omega⟩
    obtain ⟨ws, rest, rfl, hws, hrest⟩ := blank_space_decomp cs hb
    rcases hrest with rfl | ⟨rem, rfl, hrem⟩
    · -- only whitespace is left
      simp only [List.append_nil] at hin hn
      have hin2 : input rd (ws.length + 0) L = ws ++ EOF :: [] := by simpa using hin
      have hskip := skipSpace_then rd ws [] EOF 0 (n + 1) L hws (by decide) hin2 hn
      have hl := input_head rd EOF [] 0 _ (input_split rd ws _ 0 L hin2)
      rw [getTok_other rd n L _ hskip (by rw [hl]; decide) (by rw [hl]; decide)
        (by rw [hl]; decide)]
      exact ⟨_, congrArg some (eofOrChar_eof rd _ hl), hl⟩
    · -- a comment starts
      simp only [List.length_append, List.length_cons] at hk hn
      have hin2 : input rd (ws.length + (rem.length + 1)) L = ws ++ 35 :: (rem ++ [EOF]) := by
        simpa [Nat.add_assoc] using hin
      have hskip := skipSpace_then rd ws (rem ++ [EOF]) 35 _ (n + 1) L hws (by decide) hin2
        (by omega)
      have hM := input_split rd ws _ _ L hin2
      have hl := input_head rd 35 _ _ _ hM
      have hup : upcoming rd (rem.length + 1) (advanceN rd ws.length L) = rem ++ [EOF] := by
        simp only [input, List.cons.injEq] at hM
        exact hM.2
      rw [getTok_hash rd n L _ hskip hl]
      obtain ⟨t, ht, hcase⟩ := blank_comment_decomp rem hrem
      rcases hcase with ⟨tail, htail⟩ | ⟨e, rem1, he, hr, hb1⟩
      · -- the comment runs into an end-of-file code
        have hlen : rem.length + 1 = (t.length + 1) + tail.length := by
          have := congrArg List.length htail
          simp only [List.length_append, List.length_cons, List.length_nil] at this
          omega
        have hup2 : upcoming rd (t.length + 1) (advanceN rd ws.length L) = t ++ [EOF] := by
          apply upcoming_take rd (t.length + 1) tail.length _ (t ++ [EOF]) tail
          · rw [← hlen, hup, htail]; simp
          · simp
        have hrun := commentLoop_run rd t EOF (n + 1)
          { advanceN rd ws.length L with lastLocation := startLocation (advanceN rd ws.length L) }
          ht (Or.inl rfl) (by rw [upcoming_lastLocation]; exact hup2) (by omega)
        have hl2 : (advanceN rd (t.length + 1)
            { advanceN rd ws.length L with
              lastLocation := startLocation (advanceN rd ws.length L) }).lastChar = EOF := by
          apply lastChar_advanceN rd _ _ (35 :: t) EOF
          rw [upcoming_lastLocation, hup2]
          simp [hl]
        rw [hrun]
        simp only [hl2, ne_eq, not_true_eq_false, if_false]
        exact ⟨_, congrArg some (eofOrChar_eof rd _ hl2), hl2⟩
      · -- the comment ends at a newline or carriage return
        subst hr
        have hlen : (t ++ e :: rem1).length = t.length + 1 + rem1.length := by
          simp only [List.length_append, List.length_cons]; omega
        have hup2 : upcoming rd (t.length + 1) (advanceN rd ws.length L) = t ++ [e] := by
          apply upcoming_take rd (t.length + 1) (rem1.length + 1) _ (t ++ [e]) (rem1 ++ [EOF])
          · have : (t ++ e :: rem1).length + 1 = t.length + 1 + (rem1.length + 1) := by
              simp only [List.length_append, List.length_cons]; omega
            rw [← this, hup]; simp
          · simp
        have hrun := commentLoop_run rd t e (n + 1)
          { advanceN rd ws.length L with lastLocation := startLocation (advanceN rd ws.length L) }
          ht (Or.inr he) (by rw [upcoming_lastLocation]; exact hup2) (by omega)
        have hin3 : input rd (e :: rem1).length (advanceN rd (t.length + 1)
            { advanceN rd ws.length L with
              lastLocation := startLocation (advanceN rd ws.length L) }) =
            (e :: rem1) ++ [EOF] := by
          rw [advanceN_lastLocation, input_lastLocation]
          have e1 : (35 :: t).length + (rem1.length + 1) = (t ++ e :: rem1).length + 1 := by
            rw [hlen, List.length_cons]; omega
          have := input_split rd (35 :: t) (e :: rem1 ++ [EOF]) (rem1.length + 1)
            (advanceN rd ws.length L) (by rw [e1, hM]; simp)
          simpa using this
        have hl2 := input_head rd e _ _ _ hin3
        have hne : e ≠ EOF := by rcases he with h | h <;> (rw [h]; decide)
        have hbe : blank false (e :: rem1) = true := by
          rcases he with h | h <;> (subst h; simp [blank, hb1]; decide)
        rw [hrun]
        simp only [hl2, ne_eq, hne, not_false_eq_true, if_true]
        apply ih (e :: rem1) _ n _ hbe hin3
        · simp only [List.length_append, List.length_cons] at hn ⊢; omega
        · simp only [List.length_append, List.length_cons] at hk ⊢; omega

/-- A comment is skipped: recognition that starts at `#` continues as
recognition from the newline or carriage return `e` that ends the comment. -/
theorem getTok_comment (t : List Int) (e : Int) (n : Nat) (L : Lexer σ)
    (hl : L.lastChar = 35) (ht : ∀ c ∈ t, c ≠ EOF ∧ c ≠ 10 ∧ c ≠ 13) (he : e = 10 ∨ e = 13)
    (hin : upcoming rd (t.length + 1) L = t ++ [e]) (hn : t.length < n) :
    getTok rd (n + 1) L = getTok rd n (advanceN rd (t.length + 1) L) := by
  have hskip : skipSpace rd (n + 1) L = some L :=
    skipSpace_stop rd n L (by rw [hl]; decide)
  rw [getTok_hash rd n L L hskip hl]
  rw [commentLoop_run rd t e (n + 1) _ ht (Or.inr he)
    (by rw [upcoming_lastLocation]; exact hin) (by omega)]
  have hl2 : (advanceN rd (t.length + 1) L).lastChar = e :=
    lastChar_advanceN rd _ L (35 :: t) e (by rw [hin, hl]; rfl)
  have hne : (advanceN rd (t.length + 1) L).lastChar ≠ EOF := by
    rw [hl2]; rcases he with h | h <;> (rw [h]; decide)
  rw [advanceN_lastLocation]
  simp only [ne_eq, hne, not_false_eq_true, if_true]
  exact getTok_lastLocation rd n _ (startLocation L)
    (congrArg Location.file (advanceN_loc rd (t.length + 1) L)).symm

end Comments

/-! ## A comment line in front of the input of a `LexerBuffer` -/

section CommentLine

/-- The run over a first line "#t": after two cursor steps a fresh lexer over
"#t\n" ++ r looks at `#`; after the comment and its newline it is in the state
a fresh lexer over "\n" ++ r reaches after two cursor steps, up to the bytes
"#t" in front of the buffer. -/
theorem comment_line_states (t r : List Int) (f : String)
    (ht : ∀ c ∈ t, c ≠ 0 ∧ c ≠ 10) :
    (advanceN LexerBuffer.readNextLine 2 (LexerBuffer.new (35 :: (t ++ 10 :: r)) f)).lastChar
      = 35 ∧
    upcoming LexerBuffer.readNextLine (t.length + 1)
      (advanceN LexerBuffer.readNextLine 2 (LexerBuffer.new (35 :: (t ++ 10 :: r)) f)) =
      t ++ [10] ∧
    advanceN LexerBuffer.readNextLine (t.length + 1)
      (advanceN LexerBuffer.readNextLine 2 (LexerBuffer.new (35 :: (t ++ 10 :: r)) f)) =
      mapSrc (LexerBuffer.shift (35 :: t))
        (advanceN LexerBuffer.readNextLine 2 (LexerBuffer.new (10 :: r) f)) := by
  have hp : ∀ c ∈ 35 :: t, c ≠ 0 ∧ c ≠ 10 := by
    intro c hc
    rcases List.mem_cons.mp hc with rfl | hc
    · decide
    · exact ht c hc
  have hline := LexerBuffer.readNextLine_line (35 :: t) r hp
  have hline2 := LexerBuffer.readNextLine_line [] r (by simp)
  simp only [List.cons_append, List.length_cons, List.nil_append, List.length_nil,
    Nat.zero_add] at hline hline2
  -- the first cursor step of both lexers reads the seeded newline
  have h1 : advanceChar LexerBuffer.readNextLine (LexerBuffer.new (35 :: (t ++ 10 :: r)) f) =
      { LexerBuffer.new (35 :: (t ++ 10 :: r)) f with
        lastChar := 10, curLineNum := 1, curCol := 0, curLineBuffer := 35 :: (t ++ [10]),
        src := { contents := 35 :: (t ++ 10 :: r), current := t.length + 1 + 1 } } := by
    rw [advanceChar_newline _ _ rfl]
    simp only [LexerBuffer.new, Lexer.new, hline]
    rfl
  have h2 : advanceChar LexerBuffer.readNextLine (LexerBuffer.new (10 :: r) f) =
      { LexerBuffer.new (10 :: r) f with
        lastChar := 10, curLineNum := 1, curCol := 0, curLineBuffer := [10],
        src := { contents := 10 :: r, current := 1 } } := by
    rw [advanceChar_newline _ _ rfl]
    simp only [LexerBuffer.new, Lexer.new, hline2]
    rfl
  -- the second step of the first lexer reads `#`
  have h3 := advanceChar_front LexerBuffer.readNextLine
    (advanceChar LexerBuffer.readNextLine (LexerBuffer.new (35 :: (t ++ 10 :: r)) f))
    35 (t ++ [10]) (by rw [h1])
  have hbuf := h3.2 (by simp)
  have hup := upcoming_buffer LexerBuffer.readNextLine (t ++ [10]) [] _
    (by simpa using hbuf)
  rw [List.length_append, List.length_singleton] at hup
  refine ⟨h3.1, hup, ?_⟩
  -- the cursor walks to the newline of the comment line and reads the next line
  have h4 := advanceN_inside LexerBuffer.readNextLine (35 :: t) 10 []
    (advanceChar LexerBuffer.readNextLine (LexerBuffer.new (35 :: (t ++ 10 :: r)) f))
    (fun c hc => (hp c hc).2) (by rw [h1]; simp)
  have e1 : advanceN LexerBuffer.readNextLine (t.length + 1)
      (advanceN LexerBuffer.readNextLine 2 (LexerBuffer.new (35 :: (t ++ 10 :: r)) f)) =
      advanceChar LexerBuffer.readNextLine
        (advanceN LexerBuffer.readNextLine (35 :: t).length
          (advanceChar LexerBuffer.readNextLine
            (LexerBuffer.new (35 :: (t ++ 10 :: r)) f))) := by
    rw [← advanceN_succ, List.length_cons]
    simp only [advanceN]
  have hR : advanceN LexerBuffer.readNextLine 2 (LexerBuffer.new (10 :: r) f) =
      { LexerBuffer.new (10 :: r) f with
        lastChar := 10, curLineNum := 2, curCol := 0,
        curLineBuffer :=
          (LexerBuffer.readNextLine { contents := 10 :: r, current := 1 }).1,
        src := (LexerBuffer.readNextLine { contents := 10 :: r, current := 1 }).2 } := by
    simp only [advanceN]
    rw [h2, advanceChar_newline _ _ rfl]
    simp
  have hs := LexerBuffer.readNextLine_shift (35 :: t) { contents := 10 :: r, current := 1 }
  have hshift : LexerBuffer.shift (35 :: t) { contents := 10 :: r, current := 1 } =
      { contents := 35 :: (t ++ 10 :: r), current := t.length + 1 + 1 } := by
    simp only [LexerBuffer.shift, List.cons_append, List.length_cons]
    congr 1
    omega
  rw [hshift] at hs
  rw [e1, h4, advanceChar_newline _ _ rfl, hR]
  simp only [h1]
  simp only [mapSrc, hs, LexerBuffer.new, Lexer.new]
  norm_num

/-- The first token behind a comment line is the first token without it. -/
theorem comment_line_getTok (t r : List Int) (f : String)
    (ht : ∀ c ∈ t, c ≠ 10 ∧ c ≠ 13 ∧ c ≠ EOF ∧ c ≠ 0)
    (r1 : Token × Lexer LexerBuffer) :
    (∃ n, getTok LexerBuffer.readNextLine n (LexerBuffer.new (35 :: (t ++ 10 :: r)) f) =
      some r1) ↔
    ∃ r2, r1 = (r2.1, mapSrc (LexerBuffer.shift (35 :: t)) r2.2) ∧
      ∃ n, getTok LexerBuffer.readNextLine n (LexerBuffer.new (10 :: r) f) = some r2 := by
  obtain ⟨hl, hup, hE⟩ := comment_line_states t r f (fun c hc => ⟨(ht c hc).2.2.2, (ht c hc).1⟩)
  have hs1 : isspace (LexerBuffer.new (35 :: (t ++ 10 :: r)) f).lastChar = true := rfl
  have hs2 : isspace (advanceChar LexerBuffer.readNextLine
      (LexerBuffer.new (35 :: (t ++ 10 :: r)) f)).lastChar = true := by
    rw [(advanceChar_front LexerBuffer.readNextLine _ 10 [] rfl).1]; rfl
  have hs3 : isspace (LexerBuffer.new (10 :: r) f).lastChar = true := rfl
  have hs4 : isspace (advanceChar LexerBuffer.readNextLine
      (LexerBuffer.new (10 :: r) f)).lastChar = true := by
    rw [(advanceChar_front LexerBuffer.readNextLine _ 10 [] rfl).1]; rfl
  have hcom : ∀ N, t.length < N →
      getTok LexerBuffer.readNextLine (N + 1)
        (advanceN LexerBuffer.readNextLine 2 (LexerBuffer.new (35 :: (t ++ 10 :: r)) f)) =
      (getTok LexerBuffer.readNextLine N
        (advanceN LexerBuffer.readNextLine 2 (LexerBuffer.new (10 :: r) f))).map
        (fun x => (x.1, mapSrc (LexerBuffer.shift (35 :: t)) x.2)) := by
    intro N hN
    rw [getTok_comment LexerBuffer.readNextLine t 10 N _ hl
      (fun c hc => ⟨(ht c hc).2.2.1, (ht c hc).1, (ht c hc).2.1⟩) (Or.inl rfl) hup hN, hE]
    exact getTok_mapSrc LexerBuffer.readNextLine LexerBuffer.readNextLine _
      (LexerBuffer.readNextLine_shift (35 :: t)) N _
  constructor
  · rintro ⟨n, h⟩
    have h1 := getTok_space_fwd _ n _ r1 hs2 (getTok_space_fwd _ n _ r1 hs1 h)
    have h2 := getTok_mono_le _ n (max n (t.length + 1) + 1) (by omega) _ r1 h1
    have h3 := hcom (max n (t.length + 1)) (by omega)
    simp only [advanceN] at h3
    rw [h3, Option.map_eq_some'] at h2
    obtain ⟨r2, h4, h5⟩ := h2
    exact ⟨r2, h5.symm, _, getTok_space_bwd _ _ _ r2 hs3 (getTok_space_bwd _ _ _ r2 hs4 h4)⟩
  · rintro ⟨r2, rfl, n, h⟩
    have h1 := getTok_space_fwd _ n _ r2 hs4 (getTok_space_fwd _ n _ r2 hs3 h)
    have h2 := getTok_mono_le _ n (max n (t.length + 1)) (by omega) _ r2 h1
    have h3 := hcom (max n (t.length + 1)) (by omega)
    simp only [advanceN] at h3
    rw [h2] at h3
    exact ⟨_, getTok_space_bwd _ _ _ _ hs1 (getTok_space_bwd _ _ _ _ hs2 h3)⟩

end CommentLine

/-! ## The lexeme sequence of an input -/

section YieldsLemmas

variable {σ τ : Type} (rd : σ → List Int × σ) (rd2 : τ → List Int × τ) (g : σ → τ)

/-- The lexeme sequence is the first token followed by the lexeme sequence
of the state behind it. -/
theorem Yields_iff (L : Lexer σ) (toks : List Lexeme) :
    Yields rd L toks ↔
      ∃ r, (∃ n, getNextToken rd n L = some r) ∧
        ((r.1 = tok_eof ∧ toks = [lexeme r.2]) ∨
          (r.1 ≠ tok_eof ∧ ∃ rest, toks = lexeme r.2 :: rest ∧ Yields rd r.2 rest)) := by
  constructor
  · rintro ⟨n, k, h⟩
    cases k with
    | zero => simp [lexAll] at h
    | succ k =>
      rw [lexAll] at h
      cases hg : getNextToken rd n L with
      | none => simp [hg] at h
      | some r =>
        rw [hg] at h
        refine ⟨r, ⟨n, hg⟩, ?_⟩
        simp only at h
        split_ifs at h with he
        · left
          simp only [Option.some.injEq] at h
          exact ⟨he, h.symm⟩
        · right
          cases hl : lexAll rd n k r.2 with
          | none => simp [hl] at h
          | some ls =>
            rw [hl] at h
            simp only [Option.some.injEq] at h
            exact ⟨he, ls, h.symm, n, k, hl⟩
  · rintro ⟨r, ⟨n, hg⟩, h⟩
    rcases h with ⟨he, rfl⟩ | ⟨he, rest, rfl, n2, k, hl⟩
    · refine ⟨n, 1, ?_⟩
      simp [lexAll, hg, he]
    · refine ⟨max n n2, k + 1, ?_⟩
      rw [lexAll, getNextToken_mono_le rd n _ (Nat.le_max_left _ _) L r hg]
      simp only [he, if_false]
      rw [lexAll_mono_fuel rd n2 _ (Nat.le_max_right _ _) k _ _ hl]

theorem Yields_mapSrc (hg : ∀ s, rd2 (g s) = ((rd s).1, g (rd s).2)) (L : Lexer σ)
    (toks : List Lexeme) : Yields rd2 (mapSrc g L) toks ↔ Yields rd L toks := by
  simp only [Yields, lexAll_mapSrc rd rd2 g hg]

theorem getNextToken_eq_some (n : Nat) (L : Lexer σ) (r : Token × Lexer σ) :
    getNextToken rd n L = some r ↔
      ∃ q, getTok rd n L = some q ∧ r = (q.1, { q.2 with curTok := q.1 }) := by
  unfold getNextToken
  cases getTok rd n L with
  | none => simp
  | some q =>
    simp only [Option.some.injEq, exists_eq_left']
    exact eq_comm

/-- Two states whose first tokens agree, the states behind them being the
same up to the line source, yield the same lexeme sequences. -/
theorem Yields_of_first (hg : ∀ s, rd2 (g s) = ((rd s).1, g (rd s).2))
    (L1 : Lexer τ) (L2 : Lexer σ)
    (h : ∀ q1, (∃ n, getTok rd2 n L1 = some q1) ↔
      ∃ q2, q1 = (q2.1, mapSrc g q2.2) ∧ ∃ n, getTok rd n L2 = some q2)
    (toks : List Lexeme) : Yields rd2 L1 toks ↔ Yields rd L2 toks := by
  rw [Yields_iff, Yields_iff]
  constructor
  · rintro ⟨r, ⟨n, hn⟩, hcase⟩
    obtain ⟨q1, hq1, rfl⟩ := (getNextToken_eq_some rd2 n L1 r).mp hn
    obtain ⟨q2, rfl, n2, hq2⟩ := (h q1).mp ⟨n, hq1⟩
    refine ⟨(q2.1, { q2.2 with curTok := q2.1 }),
      ⟨n2, (getNextToken_eq_some rd n2 L2 _).mpr ⟨q2, hq2, rfl⟩⟩, ?_⟩
    have hm : ({ mapSrc g q2.2 with curTok := q2.1 } : Lexer τ) =
        mapSrc g { q2.2 with curTok := q2.1 } := rfl
    simp only [hm, lexeme_mapSrc, Yields_mapSrc rd rd2 g hg] at hcase
    exact hcase
  · rintro ⟨r, ⟨n, hn⟩, hcase⟩
    obtain ⟨q2, hq2, rfl⟩ := (getNextToken_eq_some rd n L2 r).mp hn
    obtain ⟨n1, hq1⟩ := (h (q2.1, mapSrc g q2.2)).mpr ⟨q2, rfl, n, hq2⟩
    refine ⟨(q2.1, { mapSrc g q2.2 with curTok := q2.1 }),
      ⟨n1, (getNextToken_eq_some rd2 n1 L1 _).mpr ⟨_, hq1, rfl⟩⟩, ?_⟩
    have hm : ({ mapSrc g q2.2 with curTok := q2.1 } : Lexer τ) =
        mapSrc g { q2.2 with curTok := q2.1 } := rfl
    simp only [hm, lexeme_mapSrc, Yields_mapSrc rd rd2 g hg]
    exact hcase

end YieldsLemmas

/-- C6 (amended): comments are transparent. For every comment text `t` that
holds no newline, no carriage return, no byte that reads as the end-of-file
code and no NUL, and every remaining input `r`, lexing "#" ++ t ++ "\n" ++ r
yields the same sequence of tokens with their payloads as lexing "\n" ++ r; in
particular "# full line comment\n42\n" yields number 42 and end-of-file. -/
theorem C6_comment_transparent (t r : List Int) (f : String) (toks : List Lexeme)
    (ht : ∀ c ∈ t, c ≠ 10 ∧ c ≠ 13 ∧ c ≠ EOF ∧ c ≠ 0) :
    (Yields LexerBuffer.readNextLine (LexerBuffer.new (35 :: (t ++ 10 :: r)) f) toks ↔
      Yields LexerBuffer.readNextLine (LexerBuffer.new (10 :: r) f) toks) ∧
    lexAll LexerBuffer.readNextLine 30 3
        (LexerBuffer.new (codes "# full line comment\n42\n") "input") =
      some [Lexeme.number "42", Lexeme.plain tok_eof] :=
  ⟨Yields_of_first LexerBuffer.readNextLine LexerBuffer.readNextLine
      (LexerBuffer.shift (35 :: t)) (LexerBuffer.readNextLine_shift (35 :: t)) _ _
      (comment_line_getTok t r f ht) toks,
    by decide⟩

/-- C6 for the comment text " note" in front of "x;": the two inputs yield
the same sequences, and the input without the comment does yield the
identifier x, the semicolon and end-of-file. -/
theorem C6_comment_transparent_witness :
    (∀ c ∈ codes " note", c ≠ 10 ∧ c ≠ 13 ∧ c ≠ EOF ∧ c ≠ 0) ∧
    ((Yields LexerBuffer.readNextLine
        (LexerBuffer.new (35 :: (codes " note" ++ 10 :: codes "x;")) "input")
        [Lexeme.ident "x", Lexeme.plain tok_semicolon, Lexeme.plain tok_eof] ↔
      Yields LexerBuffer.readNextLine (LexerBuffer.new (10 :: codes "x;") "input")
        [Lexeme.ident "x", Lexeme.plain tok_semicolon, Lexeme.plain tok_eof]) ∧
    lexAll LexerBuffer.readNextLine 30 3
        (LexerBuffer.new (codes "# full line comment\n42\n") "input") =
      some [Lexeme.number "42", Lexeme.plain tok_eof]) ∧
    Yields LexerBuffer.readNextLine (LexerBuffer.new (10 :: codes "x;") "input")
      [Lexeme.ident "x", Lexeme.plain tok_semicolon, Lexeme.plain tok_eof] :=
  ⟨by decide,
    C6_comment_transparent (codes " note") (codes "x;") "input"
      [Lexeme.ident "x", Lexeme.plain tok_semicolon, Lexeme.plain tok_eof] (by decide),
    ⟨10, 3, by decide⟩⟩

/-- C6 as stated fails when the comment text holds a carriage return: lexing
"#a\rb\n7\n" yields the identifier b before the number, while lexing "\n7\n"
yields the number and end-of-file only. -/
theorem C6_carriage_return_in_comment :
    (10 : Int) ∉ codes "a\rb" ∧
    lexAll LexerBuffer.readNextLine 20 5
        (LexerBuffer.new (35 :: (codes "a\rb" ++ 10 :: codes "7\n")) "input") =
      some [Lexeme.ident "b", Lexeme.number "7", Lexeme.plain tok_eof] ∧
    lexAll LexerBuffer.readNextLine 20 5 (LexerBuffer.new (10 :: codes "7\n") "input") =
      some [Lexeme.number "7", Lexeme.plain tok_eof] := by
  decide

section Comments

variable {σ : Type} (rd : σ → List Int × σ)

/-- On blank input followed by the end of the stream the first token is
`tok_eof` and the lexeme sequence is the end-of-file lexeme alone. -/
theorem blank_stream_eof (L : Lexer σ) (cs : List Int) (n k : Nat)
    (hb : blank false cs = true) (hin : input rd cs.length L = cs ++ [EOF])
    (hn : cs.length < n) :
    (∃ L1, getNextToken rd n L = some (tok_eof, L1)) ∧
      lexAll rd n (k + 1) L = some [Lexeme.plain tok_eof] := by
  obtain ⟨L1, h1, _⟩ := getTok_blank rd cs.length cs L n (Nat.le_refl _) hb hin hn
  have h2 : getNextToken rd n L = some (tok_eof, { L1 with curTok := tok_eof }) := by
    simp [getNextToken, h1]
  refine ⟨⟨_, h2⟩, ?_⟩
  simp only [lexAll, h2, if_true]
  rfl

theorem blank_of_append (b : Bool) (xs ys : List Int) (h : blank b (xs ++ ys) = true) :
    blank b xs = true := by
  induction xs generalizing b with
  | nil => cases b <;> rfl
  | cons x xs ih =>
    cases b with
    | false =>
      simp only [List.cons_append, blank] at h ⊢
      split_ifs at h ⊢
      · exact ih _ h
      · simp only [Bool.and_eq_true] at h ⊢
        exact ⟨h.1, ih _ h.2⟩
    | true =>
      simp only [List.cons_append, blank] at h ⊢
      split_ifs at h ⊢
      · exact ih _ h
      · exact ih _ h

end Comments

/-- C7 (amended): input that consists only of whitespace and comments, a
comment being a `#` and everything up to the next newline or carriage
return. For every such `text` in a `LexerBuffer` (the empty text and a text
ending inside a comment included) the first `getNextToken` returns `tok_eof`
and the token stream is exactly the end-of-file token; the same holds for
every line source and every lexer state whose unconsumed input `cs`, from the
lookahead on, is such input followed by the end of the stream. -/
theorem C7_blank_input_is_eof (text : List Int) (f : String) (k : Nat)
    (hb : blank false text = true) :
    ((∃ L1, getNextToken LexerBuffer.readNextLine (text.length + 3)
        (LexerBuffer.new text f) = some (tok_eof, L1)) ∧
      lexAll LexerBuffer.readNextLine (text.length + 3) (k + 1) (LexerBuffer.new text f) =
        some [Lexeme.plain tok_eof]) ∧
    ∀ (σ : Type) (rd : σ → List Int × σ) (L : Lexer σ) (cs : List Int) (n : Nat),
      blank false cs = true → input rd cs.length L = cs ++ [EOF] → cs.length < n →
      (∃ L1, getNextToken rd n L = some (tok_eof, L1)) ∧
        lexAll rd n (k + 1) L = some [Lexeme.plain tok_eof] := by
  refine ⟨?_, fun σ rd L cs n h1 h2 h3 => blank_stream_eof rd L cs n k h1 h2 h3⟩
  have hpre : blank false (beforeNul text) = true := by
    apply blank_of_append false (beforeNul text) (text.dropWhile (fun c => c ≠ 0))
    rw [beforeNul, List.takeWhile_append_dropWhile]
    exact hb
  have hb2 : blank false (32 :: 10 :: beforeNul text) = true := by
    simp [blank, hpre, isspace]
  have hlen : (32 :: 10 :: beforeNul text).length < text.length + 3 := by
    have := (List.takeWhile_sublist (l := text) (fun c => decide (c ≠ 0))).length_le
    simp only [List.length_cons, beforeNul]
    omega
  exact blank_stream_eof LexerBuffer.readNextLine (LexerBuffer.new text f)
    (32 :: 10 :: beforeNul text) (text.length + 3) k hb2 (LexerBuffer.input_new text f) hlen

/-- C7 on a fresh `LexerBuffer` lexer over "  \t# only a comment": the input
ends inside the comment, without a newline. The second part is the general
statement at the empty input of the same kind of lexer. -/
theorem C7_blank_input_is_eof_witness :
    blank false (codes "  \t# only a comment") = true ∧
    (((∃ L1, getNextToken LexerBuffer.readNextLine ((codes "  \t# only a comment").length + 3)
        (LexerBuffer.new (codes "  \t# only a comment") "input") = some (tok_eof, L1)) ∧
      lexAll LexerBuffer.readNextLine ((codes "  \t# only a comment").length + 3) (0 + 1)
        (LexerBuffer.new (codes "  \t# only a comment") "input") =
        some [Lexeme.plain tok_eof]) ∧
    ((∃ L1, getNextToken LexerBuffer.readNextLine 3 (LexerBuffer.new [] "input") =
        some (tok_eof, L1)) ∧
      lexAll LexerBuffer.readNextLine 3 (0 + 1) (LexerBuffer.new [] "input") =
        some [Lexeme.plain tok_eof])) :=
  ⟨by decide,
    (C7_blank_input_is_eof (codes "  \t# only a comment") "input" 0 (by decide)).1,
    (C7_blank_input_is_eof (codes "  \t# only a comment") "input" 0 (by decide)).2
      LexerBuffer LexerBuffer.readNextLine (LexerBuffer.new [] "input") [32, 10] 3
      (by decide) (by decide) (by decide)⟩

/-- C7 as stated fails when a comment holds a carriage return: "#\rx\n" is a
single comment line up to its newline, yet lexing it yields the identifier x
before end-of-file. -/
theorem C7_carriage_return_ends_comment :
    specBlank false (codes "#\rx\n") = true ∧
    lexAll LexerBuffer.readNextLine 10 5 (LexerBuffer.new (codes "#\rx\n") "input") =
      some [Lexeme.ident "x", Lexeme.plain tok_eof] := by
  decide

/-! ## Claims about identifiers and keywords -/

section IdentifierClaims

variable {σ : Type} (rd : σ → List Int × σ)

theorem letters_bool (ls : List Int) (h : ∀ x ∈ ls, isalpha x = true ∨ x = 95) :
    ∀ x ∈ ls, (isalpha x || x == 95) = true := by
  intro x hx
  rcases h x hx with h1 | h1
  · simp [h1]
  · simp [h1]

theorem delimiter_bool (c : Int) (h : isalpha c = false ∧ isdigit c = false ∧ c ≠ 95) :
    (isalnum c || c == 95) = false := by
  simp [isalnum, h.1, h.2.1, h.2.2]

theorem getNextToken_of_getTok (n : Nat) (L L1 : Lexer σ) (t : Token)
    (h : getTok rd n L = some (t, L1)) :
    getNextToken rd n L = some (t, { L1 with curTok := t }) := by
  simp [getNextToken, h]

theorem keywordOrIdentifier_cases (s : List Int) :
    (s = codes "return" → keywordOrIdentifier s = tok_return) ∧
    (s = codes "def" → keywordOrIdentifier s = tok_def) ∧
    (s = codes "var" → keywordOrIdentifier s = tok_var) ∧
    (s ≠ codes "return" → s ≠ codes "def" → s ≠ codes "var" →
      keywordOrIdentifier s = tok_identifier) := by
  refine ⟨?_, ?_, ?_, ?_⟩
  · rintro rfl; decide
  · rintro rfl; decide
  · rintro rfl; decide
  · intro h1 h2 h3; simp [keywordOrIdentifier, h1, h2, h3]

theorem keywordOrIdentifier_mem (s : List Int) :
    keywordOrIdentifier s = tok_identifier ∨
      (s ∈ specKeywords ∧ keywordOrIdentifier s ∈ [tok_return, tok_var, tok_def, tok_struct]) := by
  unfold keywordOrIdentifier specKeywords
  split_ifs with h1 h2 h3
  · right; simp [h1]
  · right; simp [h2]
  · right; simp [h3]
  · left; rfl

/-- C3 (amended): a word `s0 :: ls ++ ds` of the shape letter
(letter|underscore)* digit* at the lookahead, followed by a character `c` that
is no letter, digit or underscore (`c` is `EOF` at the end of the input): one
`getNextToken` returns a single token, which is `tok_return`, `tok_def` or
`tok_var` when the word is return, def or var, and `tok_identifier` for every
other word, struct included; the cursor has made exactly one step per
character of the word, the lookahead is `c` with the same input behind it,
and after `tok_identifier` the text `getId` returns is the word. -/
theorem C3_identifier_consumes_word (L : Lexer σ) (s0 c : Int) (ls ds rest : List Int)
    (j n : Nat)
    (h0 : isalpha s0 = true)
    (hls : ∀ x ∈ ls, isalpha x = true ∨ x = 95)
    (hds : ∀ x ∈ ds, isdigit x = true)
    (hc : isalpha c = false ∧ isdigit c = false ∧ c ≠ 95)
    (hin : input rd (1 + (ls.length + (ds.length + j))) L = s0 :: (ls ++ (ds ++ c :: rest)))
    (hn : ls.length + ds.length + 1 < n) :
    ∃ t L1, getNextToken rd n L = some (t, L1) ∧
      ((s0 :: (ls ++ ds) = codes "return" → t = tok_return) ∧
        (s0 :: (ls ++ ds) = codes "def" → t = tok_def) ∧
        (s0 :: (ls ++ ds) = codes "var" → t = tok_var) ∧
        (s0 :: (ls ++ ds) ≠ codes "return" → s0 :: (ls ++ ds) ≠ codes "def" →
          s0 :: (ls ++ ds) ≠ codes "var" → t = tok_identifier)) ∧
      (s0 :: (ls ++ ds) = codes "struct" → t = tok_identifier) ∧ t ≠ tok_struct ∧
      L1 = { advanceN rd (1 + (ls.length + ds.length)) L with
        curTok := t
        lastLocation := startLocation L
        identifierStr := s0 :: (ls ++ ds) } ∧
      L1.lastChar = c ∧ input rd j L1 = c :: rest ∧
      (t = tok_identifier → getId L1 = Outcome.ok (s0 :: (ls ++ ds)) L1) := by
  have hg := getTok_identifier rd [] ls ds rest s0 c j n L (by simp) h0 (letters_bool ls hls)
    hds (delimiter_bool c hc) (by simpa using hin) (by simpa using hn)
  have hsplit := input_split rd (s0 :: (ls ++ ds)) (c :: rest) j L
    (by simpa [Nat.add_assoc, Nat.add_comm 1] using hin)
  simp only [List.length_nil, Nat.zero_add, advanceN] at hg
  simp only [List.length_cons, List.length_append, Nat.add_comm _ 1] at hsplit
  have hl := input_head rd c rest j _ hsplit
  refine ⟨_, _, getNextToken_of_getTok rd n L _ _ hg, keywordOrIdentifier_cases _, ?_, ?_,
    rfl, hl, ?_, ?_⟩
  · intro hs
    rw [hs]
    decide
  · unfold keywordOrIdentifier
    split_ifs <;> decide
  · rw [← hsplit]
    exact input_congr rd j _ _ rfl rfl rfl
  · intro ht
    simp [getId, ht]

/-- The run of `getTok` on a word made of one letter followed by letters. -/
theorem getTok_letters (ws rest : List Int) (s0 c : Int) (ls : List Int) (j n : Nat)
    (L : Lexer σ)
    (hws : ∀ x ∈ ws, isspace x = true) (h0 : isalpha s0 = true)
    (hls : ∀ x ∈ ls, (isalpha x || x == 95) = true)
    (hc : isalpha c = false ∧ isdigit c = false ∧ c ≠ 95)
    (hin : input rd (ws.length + ((s0 :: ls).length + j)) L = ws ++ (s0 :: ls ++ c :: rest))
    (hn : ws.length + (s0 :: ls).length + 1 < n) :
    getNextToken rd n L = some (keywordOrIdentifier (s0 :: ls),
      { advanceN rd (ws.length + (s0 :: ls).length) L with
        curTok := keywordOrIdentifier (s0 :: ls)
        lastLocation := startLocation (advanceN rd ws.length L)
        identifierStr := s0 :: ls }) := by
  have hg := getTok_identifier rd ws ls [] rest s0 c j n L hws h0 hls (by simp)
    (delimiter_bool c hc)
    (by simpa [Nat.add_assoc, Nat.add_comm 1] using hin)
    (by simp only [List.length_cons] at hn; simp only [List.length_nil]; omega)
  simp only [List.length_nil, Nat.add_zero, List.append_nil] at hg
  rw [getNextToken_of_getTok rd n L _ _ hg]
  simp only [List.length_cons, Nat.add_comm 1]

/-- C2 (amended): each of the words return, def and var, after any whitespace
and delimited by a character that is no letter, digit or underscore, makes
`getNextToken` return that word's keyword token and not `tok_identifier`;
the word struct is not compared against and returns `tok_identifier` with the
text "struct" available from `getId`. -/
theorem C2_keywords (L : Lexer σ) (ws w rest : List Int) (c : Int) (j n : Nat)
    (hws : ∀ x ∈ ws, isspace x = true)
    (hw : w ∈ specKeywords)
    (hc : isalpha c = false ∧ isdigit c = false ∧ c ≠ 95)
    (hin : input rd (ws.length + (w.length + j)) L = ws ++ (w ++ c :: rest))
    (hn : ws.length + w.length + 1 < n) :
    ∃ t L1, getNextToken rd n L = some (t, L1) ∧
      (w = codes "return" → t = tok_return) ∧
      (w = codes "def" → t = tok_def) ∧
      (w = codes "var" → t = tok_var) ∧
      (w ≠ codes "struct" → t ≠ tok_identifier) ∧
      (w = codes "struct" → t = tok_identifier ∧ getId L1 = Outcome.ok (codes "struct") L1) := by
  obtain ⟨s0, ls, rfl, h0, hls⟩ : ∃ s0 ls, w = s0 :: ls ∧ isalpha s0 = true ∧
      ∀ x ∈ ls, (isalpha x || x == 95) = true := by
    simp only [specKeywords, List.mem_cons, List.mem_singleton, List.not_mem_nil,
      or_false] at hw
    rcases hw with rfl | rfl | rfl | rfl
    · exact ⟨114, [101, 116, 117, 114, 110], by decide, by decide, by decide⟩
    · exact ⟨100, [101, 102], by decide, by decide, by decide⟩
    · exact ⟨118, [97, 114], by decide, by decide, by decide⟩
    · exact ⟨115, [116, 114, 117, 99, 116], by decide, by decide, by decide⟩
  refine ⟨_, _, getTok_letters rd ws rest s0 c ls j n L hws h0 hls hc hin hn, ?_, ?_, ?_, ?_,
    ?_⟩
  · intro h; rw [h]; decide
  · intro h; rw [h]; decide
  · intro h; rw [h]; decide
  · intro h
    simp only [specKeywords, List.mem_cons, List.mem_singleton, List.not_mem_nil,
      or_false] at hw
    rcases hw with h1 | h1 | h1 | h1
    · rw [h1]; decide
    · rw [h1]; decide
    · rw [h1]; decide
    · exact absurd h1 h
  · intro h
    rw [h]
    exact ⟨by decide, by simp [getId]; decide⟩

/-- C4: after any whitespace, a letter, letters and underscores `ls`, one or
more digits `ds` and then a letter or underscore `c`: `getNextToken` returns
the token whose code is `c`, which is not `tok_identifier`; the current token
afterwards is `c`, so `getId` fails its assertion, and `c` is still the lookahead. -/
theorem C4_digit_then_letter (L : Lexer σ) (ws ls ds rest : List Int) (s0 c : Int)
    (j n : Nat)
    (hws : ∀ x ∈ ws, isspace x = true) (h0 : isalpha s0 = true)
    (hls : ∀ x ∈ ls, isalpha x = true ∨ x = 95)
    (hds : ∀ x ∈ ds, isdigit x = true) (hne : ds ≠ [])
    (hc : isalpha c = true ∨ c = 95)
    (hin : input rd (ws.length + (1 + (ls.length + (ds.length + j)))) L =
      ws ++ s0 :: (ls ++ (ds ++ c :: rest)))
    (hn : ws.length + ls.length + ds.length + 1 < n) :
    ∃ L1, getNextToken rd n L = some (c, L1) ∧ c ≠ tok_identifier ∧
      getCurToken L1 = c ∧ getCurToken L1 ≠ tok_identifier ∧
      getId L1 = Outcome.abort L1 ∧ L1.lastChar = c := by
  have hcb : (isalpha c || c == 95) = true := by
    rcases hc with h | h
    · simp [h]
    · simp [h]
  have hg := getTok_violation rd ws ls ds rest s0 c j n L hws h0 (letters_bool ls hls) hds hne
    hcb hin hn
  have hcne : c ≠ tok_identifier := by
    intro h
    rw [h] at hcb
    revert hcb
    decide
  have hl : (advanceN rd (ws.length + (1 + (ls.length + ds.length))) L).lastChar = c := by
    have h1 := input_split rd ws _ _ L hin
    rw [Nat.add_comm 1, input_succ] at h1
    simp only [List.cons.injEq] at h1
    have h2 := input_split rd ls _ _ _ h1.2
    have h3 := input_split rd ds _ _ _ h2
    have h4 := input_head rd c rest j _ h3
    simpa only [advanceN_add, advanceN] using h4
  refine ⟨_, getNextToken_of_getTok rd n L _ _ hg, hcne, rfl, hcne, ?_, hl⟩
  simp [getId, hcne]

end IdentifierClaims

/-- C2 at the input "return;" on a fresh `LexerBuffer` lexer, whose lookahead
starts with the initial blank and the seeded newline. -/
theorem C2_keywords_witness :
    ((∀ x ∈ [(32 : Int), 10], isspace x = true) ∧ codes "return" ∈ specKeywords ∧
      (isalpha 59 = false ∧ isdigit 59 = false ∧ (59 : Int) ≠ 95) ∧
      input LexerBuffer.readNextLine 8 (LexerBuffer.new (codes "return;") "input") =
        [32, 10] ++ (codes "return" ++ [59])) ∧
    ∃ t L1, getNextToken LexerBuffer.readNextLine 10
        (LexerBuffer.new (codes "return;") "input") = some (t, L1) ∧
      (codes "return" = codes "return" → t = tok_return) ∧
      (codes "return" = codes "def" → t = tok_def) ∧
      (codes "return" = codes "var" → t = tok_var) ∧
      (codes "return" ≠ codes "struct" → t ≠ tok_identifier) ∧
      (codes "return" = codes "struct" →
        t = tok_identifier ∧ getId L1 = Outcome.ok (codes "struct") L1) :=
  ⟨by decide,
    C2_keywords LexerBuffer.readNextLine (LexerBuffer.new (codes "return;") "input")
      [32, 10] (codes "return") [] 59 0 10 (by decide) (by decide) (by decide) (by decide)
      (by decide)⟩

/-- C2 as stated fails for struct: on the input "struct " the first
`getNextToken` returns `tok_identifier`, not `tok_struct`, and `getId` gives "struct". -/
theorem C2_struct_is_identifier :
    (getNextToken LexerBuffer.readNextLine 10
        (LexerBuffer.new (codes "struct ") "input")).map (fun r => lexeme r.2) =
      some (Lexeme.ident "struct") ∧
    tok_identifier ≠ tok_struct := by
  decide

/-- C4 at the input "a1b" on a fresh `LexerBuffer` lexer. -/
theorem C4_digit_then_letter_witness :
    ((∀ x ∈ [(32 : Int), 10], isspace x = true) ∧ isalpha 97 = true ∧
      (∀ x ∈ ([] : List Int), isalpha x = true ∨ x = 95) ∧
      (∀ x ∈ [(49 : Int)], isdigit x = true) ∧ [(49 : Int)] ≠ [] ∧
      (isalpha 98 = true ∨ (98 : Int) = 95) ∧
      input LexerBuffer.readNextLine 4 (LexerBuffer.new (codes "a1b") "input") =
        [32, 10] ++ codes "a1b") ∧
    ∃ L1, getNextToken LexerBuffer.readNextLine 5 (LexerBuffer.new (codes "a1b") "input") =
        some (98, L1) ∧ (98 : Int) ≠ tok_identifier ∧
      getCurToken L1 = 98 ∧ getCurToken L1 ≠ tok_identifier ∧
      getId L1 = Outcome.abort L1 ∧ L1.lastChar = 98 :=
  ⟨by decide,
    C4_digit_then_letter LexerBuffer.readNextLine (LexerBuffer.new (codes "a1b") "input")
      [32, 10] [] [49] [] 97 98 0 5 (by decide) (by decide) (by decide) (by decide) (by decide)
      (by decide) (by decide) (by decide)⟩

/-- C3 as stated fails: on "struct;" the word struct has the shape of the
claim, is in the keyword set the specification names and is followed by `;`,
yet the one token `getNextToken` returns for it is `tok_identifier`, which is
none of the keyword tokens; the word is consumed whole and `getId` returns it. -/
theorem C3_struct_word_is_identifier :
    codes "struct" ∈ specKeywords ∧
    input LexerBuffer.readNextLine 6
      (advanceN LexerBuffer.readNextLine 2 (LexerBuffer.new (codes "struct;") "input")) =
      codes "struct;" ∧
    (getNextToken LexerBuffer.readNextLine 10
      (advanceN LexerBuffer.readNextLine 2 (LexerBuffer.new (codes "struct;") "input"))).map
      (fun r => (r.1, r.2.lastChar, lexeme r.2)) =
      some (tok_identifier, 59, Lexeme.ident "struct") ∧
    tok_identifier ∉ [tok_return, tok_var, tok_def, tok_struct] := by
  decide

/-- C3 at the input "b_4;": the lookahead is at `b` after the two cursor steps
over the initial blank and the seeded newline. -/
theorem C3_identifier_consumes_word_witness :
    (isalpha 98 = true ∧ (∀ x ∈ [(95 : Int)], isalpha x = true ∨ x = 95) ∧
      (∀ x ∈ [(52 : Int)], isdigit x = true) ∧
      (isalpha 59 = false ∧ isdigit 59 = false ∧ (59 : Int) ≠ 95) ∧
      input LexerBuffer.readNextLine 3
        (advanceN LexerBuffer.readNextLine 2 (LexerBuffer.new (codes "b_4;") "input")) =
        codes "b_4;") ∧
    ∃ t L1, getNextToken LexerBuffer.readNextLine 4
        (advanceN LexerBuffer.readNextLine 2 (LexerBuffer.new (codes "b_4;") "input")) =
          some (t, L1) ∧
      ((codes "b_4" = codes "return" → t = tok_return) ∧
        (codes "b_4" = codes "def" → t = tok_def) ∧
        (codes "b_4" = codes "var" → t = tok_var) ∧
        (codes "b_4" ≠ codes "return" → codes "b_4" ≠ codes "def" →
          codes "b_4" ≠ codes "var" → t = tok_identifier)) ∧
      (codes "b_4" = codes "struct" → t = tok_identifier) ∧ t ≠ tok_struct ∧
      L1 = { advanceN LexerBuffer.readNextLine 3
          (advanceN LexerBuffer.readNextLine 2 (LexerBuffer.new (codes "b_4;") "input")) with
        curTok := t
        lastLocation := startLocation
          (advanceN LexerBuffer.readNextLine 2 (LexerBuffer.new (codes "b_4;") "input"))
        identifierStr := codes "b_4" } ∧
      L1.lastChar = 59 ∧ input LexerBuffer.readNextLine 0 L1 = [59] ∧
      (t = tok_identifier → getId L1 = Outcome.ok (codes "b_4") L1) :=
  ⟨by decide,
    C3_identifier_consumes_word LexerBuffer.readNextLine _ 98 59 [95] [52] [] 0 4
      (by decide) (by decide) (by decide) (by decide) (by decide) (by decide)⟩

/-! ## The number branch on the texts of the specification -/

/-- On "3.14" and on "42" the first token is `tok_number` and the text handed
to `strtod` is the whole input text; `getValue` returns the result of `strtod`
on it. -/
theorem number_text_examples :
    lexAll LexerBuffer.readNextLine 10 2 (LexerBuffer.new (codes "3.14") "input") =
      some [Lexeme.number "3.14", Lexeme.plain tok_eof] ∧
    lexAll LexerBuffer.readNextLine 10 2 (LexerBuffer.new (codes "42") "input") =
      some [Lexeme.number "42", Lexeme.plain tok_eof] := by
  decide

/-! ## Claims about locations and the accessors -/

/-- C8 as stated fails: on "  def\nvar x;\n" the location recorded for the
def token is line 1, column 3, not line 0, column 2. -/
theorem C8_def_location_is_not_0_2 :
    (getNextToken LexerBuffer.readNextLine 10
        (LexerBuffer.new (codes "  def\nvar x;\n") "input")).map
      (fun r => (r.1, (getLastLocation r.2).line, (getLastLocation r.2).col)) =
      some (tok_def, 1, 3) ∧
    (getNextToken LexerBuffer.readNextLine 10
        (LexerBuffer.new (codes "  def\nvar x;\n") "input")).map
      (fun r => (r.1, (getLastLocation r.2).line, (getLastLocation r.2).col)) ≠
      some (tok_def, 0, 2) := by
  decide

/-- C8 (amended): locations are 1-based and mark the start of the token. On
"  def\nvar x;\n" the first `getNextToken` returns def and `getLastLocation`
is line 1, column 3; the second returns var and `getLastLocation` is line 2,
column 1. -/
theorem C8_locations_one_based :
    (getNextToken LexerBuffer.readNextLine 10
        (LexerBuffer.new (codes "  def\nvar x;\n") "input")).map
      (fun r => (r.1, getLastLocation r.2)) =
      some (tok_def, { file := "input", line := 1, col := 3 }) ∧
    ((getNextToken LexerBuffer.readNextLine 10
        (LexerBuffer.new (codes "  def\nvar x;\n") "input")).bind
      (fun r => getNextToken LexerBuffer.readNextLine 10 r.2)).map
      (fun r => (r.1, getLastLocation r.2)) =
      some (tok_var, { file := "input", line := 2, col := 1 }) := by
  decide

section Accessors

variable {σ : Type} (rd : σ → List Int × σ)

/-- C9: `consume tok` fails its assertion exactly when `tok` differs from the
current token, and then the state at the failure is the state before the
call; when `tok` is the current token, `consume` ends in exactly the state
one `getNextToken` produces. -/
theorem C9_consume (tok : Token) (n : Nat) (L : Lexer σ) :
    ((∃ M, consume rd tok n L = Outcome.abort M) ↔ tok ≠ getCurToken L) ∧
    (tok ≠ getCurToken L → consume rd tok n L = Outcome.abort L) ∧
    (tok = getCurToken L →
      (∀ t L1, getNextToken rd n L = some (t, L1) → consume rd tok n L = Outcome.ok () L1) ∧
      (getNextToken rd n L = none → consume rd tok n L = Outcome.outOfFuel)) := by
  unfold getCurToken
  refine ⟨⟨?_, ?_⟩, ?_, ?_⟩
  · rintro ⟨M, hM⟩ heq
    simp only [consume, heq, if_true] at hM
    split at hM <;> simp at hM
  · intro hne
    exact ⟨L, by simp [consume, hne]⟩
  · intro hne
    simp [consume, hne]
  · intro heq
    refine ⟨?_, ?_⟩
    · intro t L1 h
      simp [consume, heq, h]
    · intro h
      simp [consume, heq, h]

/-- C10: `getId` succeeds exactly when the current token is `tok_identifier`
and `getValue` exactly when it is `tok_number`; otherwise the call fails its
assertion; in both cases the state is the state before the call. A freshly
constructed lexer and a lexer whose current token is end-of-file, a keyword
or a punctuation mark are among the failing states. -/
theorem C10_accessors (L : Lexer σ) :
    ((∃ s M, getId L = Outcome.ok s M) ↔ getCurToken L = tok_identifier) ∧
    ((∃ v M, getValue L = Outcome.ok v M) ↔ getCurToken L = tok_number) ∧
    (getCurToken L = tok_identifier → getId L = Outcome.ok L.identifierStr L) ∧
    (getCurToken L ≠ tok_identifier → getId L = Outcome.abort L) ∧
    (getCurToken L = tok_number → getValue L = Outcome.ok L.numVal L) ∧
    (getCurToken L ≠ tok_number → getValue L = Outcome.abort L) ∧
    (getCurToken L ∈ [tok_eof, tok_return, tok_var, tok_def, tok_struct, tok_semicolon,
        tok_parenthese_open, tok_parenthese_close, tok_bracket_open, tok_bracket_close,
        tok_sbracket_open, tok_sbracket_close] →
      getId L = Outcome.abort L ∧ getValue L = Outcome.abort L) ∧
    (∀ (f : String) (s : σ), getId (Lexer.new f s) = Outcome.abort (Lexer.new f s) ∧
      getValue (Lexer.new f s) = Outcome.abort (Lexer.new f s)) := by
  unfold getCurToken
  refine ⟨⟨?_, ?_⟩, ⟨?_, ?_⟩, ?_, ?_, ?_, ?_, ?_, ?_⟩
  · rintro ⟨s, M, h⟩
    by_contra hne
    simp [getId, hne] at h
  · intro h
    exact ⟨L.identifierStr, L, by simp [getId, h]⟩
  · rintro ⟨s, M, h⟩
    by_contra hne
    simp [getValue, hne] at h
  · intro h
    exact ⟨L.numVal, L, by simp [getValue, h]⟩
  · intro h; simp [getId, h]
  · intro h; simp [getId, h]
  · intro h; simp [getValue, h]
  · intro h; simp [getValue, h]
  · intro h
    have h1 : L.curTok ≠ tok_identifier := by
      intro e; rw [e] at h; revert h; decide
    have h2 : L.curTok ≠ tok_number := by
      intro e; rw [e] at h; revert h; decide
    simp [getId, getValue, h1, h2]
  · intro f s
    constructor
    · simp only [getId, Lexer.new]; rfl
    · simp only [getValue, Lexer.new]; rfl

end Accessors

/-- C9 on a fresh `LexerBuffer` lexer over "def;", whose current token is the
initial `tok_eof`: `consume tok_def` fails without touching the state and
`consume tok_eof` ends where `getNextToken` ends. -/
theorem C9_consume_witness :
    (tok_def ≠ getCurToken (LexerBuffer.new (codes "def;") "input") ∧
      tok_eof = getCurToken (LexerBuffer.new (codes "def;") "input")) ∧
    consume LexerBuffer.readNextLine tok_def 10 (LexerBuffer.new (codes "def;") "input") =
      Outcome.abort (LexerBuffer.new (codes "def;") "input") ∧
    (∀ t L1, getNextToken LexerBuffer.readNextLine 10
        (LexerBuffer.new (codes "def;") "input") = some (t, L1) →
      consume LexerBuffer.readNextLine tok_eof 10 (LexerBuffer.new (codes "def;") "input") =
        Outcome.ok () L1) ∧
    (getNextToken LexerBuffer.readNextLine 10 (LexerBuffer.new (codes "def;") "input")).map
      Prod.fst = some tok_def :=
  ⟨by decide,
    (C9_consume LexerBuffer.readNextLine tok_def 10
      (LexerBuffer.new (codes "def;") "input")).2.1 (by decide),
    ((C9_consume LexerBuffer.readNextLine tok_eof 10
      (LexerBuffer.new (codes "def;") "input")).2.2 (by decide)).1,
    by decide⟩

/-- C10 on the state after the first token of "x 1": the current token is
`tok_identifier`, `getId` returns "x" and `getValue` fails. -/
theorem C10_accessors_witness :
    (getNextToken LexerBuffer.readNextLine 10 (LexerBuffer.new (codes "x 1") "input")).map
      (fun r => (getCurToken r.2, r.2.identifierStr)) = some (tok_identifier, codes "x") ∧
    ∀ L1, getNextToken LexerBuffer.readNextLine 10 (LexerBuffer.new (codes "x 1") "input") =
        some (tok_identifier, L1) →
      getCurToken L1 = tok_identifier →
      getId L1 = Outcome.ok L1.identifierStr L1 ∧ getValue L1 = Outcome.abort L1 :=
  ⟨by decide, fun L1 _ h =>
    ⟨(C10_accessors L1).2.2.1 h,
      (C10_accessors L1).2.2.2.2.2.1 (by rw [h]; decide)⟩⟩

/-- C1: lexing "def f(x) { return x; }\n" by repeated `getNextToken` on a fresh
`LexerBuffer` yields def, identifier f, '(', identifier x, ')', '{', return,
identifier x, ';', '}', eof, the identifier texts being what `getId` returns
right after the token. -/
theorem C1_round_trip :
    lexAll LexerBuffer.readNextLine 12 11
        (LexerBuffer.new (codes "def f(x) \x7b return x; \x7d\n") "input") =
      some [Lexeme.plain tok_def, Lexeme.ident "f",
        Lexeme.plain tok_parenthese_open, Lexeme.ident "x",
        Lexeme.plain tok_parenthese_close, Lexeme.plain tok_bracket_open,
        Lexeme.plain tok_return, Lexeme.ident "x",
        Lexeme.plain tok_semicolon, Lexeme.plain tok_bracket_close,
        Lexeme.plain tok_eof] := by
  decide

/-! ## The number branch, the fallback and one cursor step -/

section NumberAndFallback

variable {σ : Type} (rd : σ → List Int × σ)

/-- The number loop appends the lookahead and every following digit or
decimal point, and stops in front of the first character that is neither. -/
theorem numLoop_run (xs : List Int) (c x0 : Int) (acc : List Int) (n : Nat) (L : Lexer σ)
    (hl : L.lastChar = x0)
    (hxs : ∀ x ∈ xs, (isdigit x || x == 46) = true)
    (hc : (isdigit c || c == 46) = false)
    (hin : upcoming rd (xs.length + 1) L = xs ++ [c]) (hn : xs.length < n) :
    numLoop rd n acc L = some (acc ++ x0 :: xs, advanceN rd (xs.length + 1) L) := by
  induction xs generalizing L acc x0 n with
  | nil =>
    obtain ⟨m, rfl⟩ : ∃ m, n = m + 1 := ⟨n - 1, by omega⟩
    simp only [List.length_nil, Nat.zero_add, upcoming, List.nil_append, List.cons.injEq,
      and_true] at hin
    rw [numLoop]
    simp only [hin, hc, hl, Bool.false_eq_true, if_false, advanceN, List.length_nil]
  | cons x xs ih =>
    obtain ⟨m, rfl⟩ : ∃ m, n = m + 1 := ⟨n - 1, by omega⟩
    rw [List.length_cons, upcoming] at hin
    simp only [List.cons_append, List.cons.injEq] at hin
    have hx := hxs x (List.mem_cons_self _ _)
    rw [← hin.1] at hx
    rw [numLoop]
    simp only [hx, if_true, hl]
    rw [ih _ (acc ++ [x0]) m (advanceChar rd L) hin.1
      (fun y hy => hxs y (List.mem_cons_of_mem _ hy)) hin.2 (by simpa using hn)]
    simp [advanceN]

/-- The number branch of `getTok` when the lookahead is a digit. -/
theorem getTok_digit (n : Nat) (L : Lexer σ) (hd : isdigit L.lastChar = true) :
    getTok rd (n + 1) L =
      match numLoop rd (n + 1) [] { L with lastLocation := startLocation L } with
      | none => none
      | some (numStr, L2) =>
        some (tok_number, { L2 with numVal := NumVal.strtod numStr }) := by
  have hs : isspace L.lastChar = false := by
    simp only [isdigit, Bool.and_eq_true, decide_eq_true_eq] at hd
    simp only [isspace, Bool.or_eq_false_iff, Bool.and_eq_false_iff, decide_eq_false_iff_not,
      beq_eq_false_iff_ne]
    omega
  have ha : isalpha L.lastChar = false := by
    simp only [isdigit, Bool.and_eq_true, decide_eq_true_eq] at hd
    simp only [isalpha, Bool.or_eq_false_iff, Bool.and_eq_false_iff, decide_eq_false_iff_not]
    omega
  simp only [getTok, skipSpace, hs, ha, hd, startLocation, Bool.false_eq_true, if_false,
    if_true]

theorem eofOrChar_char (L : Lexer σ) (h : L.lastChar ≠ EOF) :
    eofOrChar rd L = (L.lastChar, advanceChar rd L) := by
  simp [eofOrChar, h]

/-- C15: when the lookahead is a digit `d0`, followed by digits and decimal
points `xs` and then a character `c` that is neither, `getNextToken` returns
`tok_number`, the text handed to `strtod` is `d0 :: xs` whatever its shape,
and the lookahead afterwards is `c`; in particular "1.2.3\n" lexes to the
number token and end-of-file. -/
theorem C15_number_maximal_munch (L : Lexer σ) (d0 c : Int) (xs rest : List Int) (j n : Nat)
    (hd0 : isdigit d0 = true)
    (hxs : ∀ x ∈ xs, isdigit x = true ∨ x = 46)
    (hc : isdigit c = false ∧ c ≠ 46)
    (hin : input rd (xs.length + 1 + j) L = d0 :: (xs ++ c :: rest))
    (hn : xs.length + 1 < n) :
    (∃ L1, getNextToken rd n L = some (tok_number, L1) ∧
      L1 = { advanceN rd (xs.length + 1) L with
        curTok := tok_number
        lastLocation := startLocation L
        numVal := NumVal.strtod (d0 :: xs) } ∧
      getValue L1 = Outcome.ok (NumVal.strtod (d0 :: xs)) L1 ∧
      L1.lastChar = c ∧ input rd j L1 = c :: rest) ∧
    lexAll LexerBuffer.readNextLine 10 2 (LexerBuffer.new (codes "1.2.3\n") "input") =
      some [Lexeme.number "1.2.3", Lexeme.plain tok_eof] := by
  refine ⟨?_, by decide⟩
  obtain ⟨n, rfl⟩ : ∃ m, n = m + 1 := ⟨n - 1, by omega⟩
  have hl : L.lastChar = d0 := input_head rd d0 _ _ L hin
  have hup : upcoming rd (xs.length + 1) L = xs ++ [c] := by
    have h1 : upcoming rd (xs.length + 1 + j) L = (xs ++ [c]) ++ rest := by
      simp only [input, List.cons.injEq] at hin
      rw [hin.2]; simp
    exact upcoming_take rd (xs.length + 1) j L (xs ++ [c]) rest h1 (by simp)
  have hxb : ∀ x ∈ xs, (isdigit x || x == 46) = true := by
    intro x hx
    rcases hxs x hx with h | h <;> simp [h]
  have hcb : (isdigit c || c == 46) = false := by simp [hc.1, hc.2]
  have hrun := numLoop_run rd xs c d0 [] (n + 1) { L with lastLocation := startLocation L }
    hl hxb hcb (by rw [upcoming_lastLocation]; exact hup) (by omega)
  have hg : getTok rd (n + 1) L = some (tok_number,
      { advanceN rd (xs.length + 1) L with
        lastLocation := startLocation L
        numVal := NumVal.strtod (d0 :: xs) }) := by
    rw [getTok_digit rd n L (by rw [hl]; exact hd0), hrun, advanceN_lastLocation]
    rfl
  have hsplit := input_split rd (d0 :: xs) (c :: rest) j L
    (by rw [List.length_cons]; simpa using hin)
  rw [List.length_cons] at hsplit
  have hlc : (advanceN rd (xs.length + 1) L).lastChar = c := input_head rd c rest j _ hsplit
  refine ⟨_, getNextToken_of_getTok rd (n + 1) L _ _ hg, rfl, ?_, hlc, ?_⟩
  · simp [getValue, tok_number]
  · rw [← hsplit]
    exact input_congr rd j _ _ rfl rfl rfl

/-- C16: when the lookahead `c` is no whitespace, letter, digit, `#` or
end-of-file code, `getNextToken` returns the token whose code is `c` and the
cursor makes exactly one step; the seven punctuation marks are the codes of
the tokens named after them. -/
theorem C16_fallback (L : Lexer σ) (c : Int) (n : Nat)
    (hl : L.lastChar = c) (h1 : isspace c = false) (h2 : isalpha c = false)
    (h3 : isdigit c = false) (h4 : c ≠ 35) (h5 : c ≠ EOF) :
    getNextToken rd (n + 1) L =
      some (c, { advanceChar rd L with curTok := c, lastLocation := startLocation L }) ∧
    codes ";()\x7b\x7d[]" = [tok_semicolon, tok_parenthese_open, tok_parenthese_close,
      tok_bracket_open, tok_bracket_close, tok_sbracket_open, tok_sbracket_close] ∧
    lexAll LexerBuffer.readNextLine 10 8 (LexerBuffer.new (codes ";()\x7b\x7d[]") "input") =
      some [Lexeme.plain tok_semicolon, Lexeme.plain tok_parenthese_open,
        Lexeme.plain tok_parenthese_close, Lexeme.plain tok_bracket_open,
        Lexeme.plain tok_bracket_close, Lexeme.plain tok_sbracket_open,
        Lexeme.plain tok_sbracket_close, Lexeme.plain tok_eof] := by
  refine ⟨?_, by decide, by decide⟩
  subst hl
  have hskip : skipSpace rd (n + 1) L = some L := skipSpace_stop rd n L h1
  have hg := getTok_other rd n L L hskip h2 h3 h4
  rw [eofOrChar_char rd { L with lastLocation := startLocation L } h5,
    advanceChar_lastLocation] at hg
  rw [getNextToken_of_getTok rd (n + 1) L _ _ hg]

end NumberAndFallback

/-- C15 on the state of a fresh `LexerBuffer` lexer over "1.2.3;" after the
two cursor steps over the initial blank and the seeded newline. -/
theorem C15_number_maximal_munch_witness :
    (isdigit 49 = true ∧ (∀ x ∈ codes ".2.3", isdigit x = true ∨ x = 46) ∧
      (isdigit 59 = false ∧ (59 : Int) ≠ 46) ∧
      input LexerBuffer.readNextLine ((codes ".2.3").length + 1 + 0)
        (advanceN LexerBuffer.readNextLine 2 (LexerBuffer.new (codes "1.2.3;") "input")) =
        49 :: (codes ".2.3" ++ 59 :: [])) ∧
    ((∃ L1, getNextToken LexerBuffer.readNextLine 6
        (advanceN LexerBuffer.readNextLine 2 (LexerBuffer.new (codes "1.2.3;") "input")) =
          some (tok_number, L1) ∧
      L1 = { advanceN LexerBuffer.readNextLine ((codes ".2.3").length + 1)
          (advanceN LexerBuffer.readNextLine 2 (LexerBuffer.new (codes "1.2.3;") "input")) with
        curTok := tok_number
        lastLocation := startLocation
          (advanceN LexerBuffer.readNextLine 2 (LexerBuffer.new (codes "1.2.3;") "input"))
        numVal := NumVal.strtod (49 :: codes ".2.3") } ∧
      getValue L1 = Outcome.ok (NumVal.strtod (49 :: codes ".2.3")) L1 ∧
      L1.lastChar = 59 ∧ input LexerBuffer.readNextLine 0 L1 = 59 :: []) ∧
    lexAll LexerBuffer.readNextLine 10 2 (LexerBuffer.new (codes "1.2.3\n") "input") =
      some [Lexeme.number "1.2.3", Lexeme.plain tok_eof]) :=
  ⟨by decide,
    C15_number_maximal_munch LexerBuffer.readNextLine _ 49 59 (codes ".2.3") [] 0 6
      (by decide) (by decide) (by decide) (by decide) (by decide)⟩

/-- C16 on the state of a fresh `LexerBuffer` lexer over "+x" after the two
cursor steps that bring `+` into the lookahead. -/
theorem C16_fallback_witness :
    ((advanceN LexerBuffer.readNextLine 2 (LexerBuffer.new (codes "+x") "input")).lastChar
        = 43 ∧
      isspace 43 = false ∧ isalpha 43 = false ∧ isdigit 43 = false ∧ (43 : Int) ≠ 35 ∧
      (43 : Int) ≠ EOF) ∧
    (getNextToken LexerBuffer.readNextLine (3 + 1)
        (advanceN LexerBuffer.readNextLine 2 (LexerBuffer.new (codes "+x") "input")) =
      some (43, { advanceChar LexerBuffer.readNextLine
          (advanceN LexerBuffer.readNextLine 2 (LexerBuffer.new (codes "+x") "input")) with
        curTok := 43
        lastLocation := startLocation
          (advanceN LexerBuffer.readNextLine 2 (LexerBuffer.new (codes "+x") "input")) }) ∧
    codes ";()\x7b\x7d[]" = [tok_semicolon, tok_parenthese_open, tok_parenthese_close,
      tok_bracket_open, tok_bracket_close, tok_sbracket_open, tok_sbracket_close] ∧
    lexAll LexerBuffer.readNextLine 10 8 (LexerBuffer.new (codes ";()\x7b\x7d[]") "input") =
      some [Lexeme.plain tok_semicolon, Lexeme.plain tok_parenthese_open,
        Lexeme.plain tok_parenthese_close, Lexeme.plain tok_bracket_open,
        Lexeme.plain tok_bracket_close, Lexeme.plain tok_sbracket_open,
        Lexeme.plain tok_sbracket_close, Lexeme.plain tok_eof]) :=
  ⟨by decide,
    C16_fallback LexerBuffer.readNextLine _ 43 3 (by decide) (by decide) (by decide)
      (by decide) (by decide) (by decide)⟩

/-! ## One step of the character cursor -/

/-- C17: one call of `getNextChar`. With an empty line buffer it returns the
end-of-file code and the state, source included, is unchanged. Otherwise it
returns the front character `c`; the buffer loses it; the next line is pulled
from the line source when the buffer became empty, and only then (the call
counter of a counted source goes up by one, or stays); the counters become
(line + 1, 0) when `c` is a newline and (line, column + 1) otherwise; no
other field changes. -/
theorem C17_getNextChar {σ : Type} (rd : σ → List Int × σ) (L : Lexer σ) :
    (L.curLineBuffer = [] → getNextChar rd L = (EOF, L)) ∧
    (∀ c rest, L.curLineBuffer = c :: rest →
      (getNextChar rd L).1 = c ∧
      (rest ≠ [] → (getNextChar rd L).2.curLineBuffer = rest ∧
        (getNextChar rd L).2.src = L.src) ∧
      (rest = [] → (getNextChar rd L).2.curLineBuffer = (rd L.src).1 ∧
        (getNextChar rd L).2.src = (rd L.src).2) ∧
      (c = 10 → (getNextChar rd L).2.curLineNum = L.curLineNum + 1 ∧
        (getNextChar rd L).2.curCol = 0) ∧
      (c ≠ 10 → (getNextChar rd L).2.curLineNum = L.curLineNum ∧
        (getNextChar rd L).2.curCol = L.curCol + 1) ∧
      (getNextChar rd L).2.lastChar = L.lastChar ∧
      (getNextChar rd L).2.curTok = L.curTok ∧
      (getNextChar rd L).2.lastLocation = L.lastLocation ∧
      (getNextChar rd L).2.identifierStr = L.identifierStr ∧
      (getNextChar rd L).2.numVal = L.numVal) ∧
    (∀ (M : Lexer (σ × Nat)),
      (M.curLineBuffer = [] → (getNextChar (counted rd) M).2.src.2 = M.src.2) ∧
      (∀ c rest, M.curLineBuffer = c :: rest →
        (rest = [] → (getNextChar (counted rd) M).2.src.2 = M.src.2 + 1) ∧
        (rest ≠ [] → (getNextChar (counted rd) M).2.src.2 = M.src.2))) := by
  refine ⟨?_, ?_, ?_⟩
  · intro h
    cases L
    simp only at h
    subst h
    rfl
  · intro c rest h
    cases L with
    | mk ct ll ids nv lc ln cc buf src =>
      simp only at h
      subst h
      cases rest with
      | nil =>
        simp only [getNextChar, List.isEmpty_nil, if_true]
        split_ifs <;> simp [*]
      | cons z zs =>
        simp only [getNextChar, List.isEmpty_cons, Bool.false_eq_true, if_false]
        split_ifs <;> simp [*]
  · intro M
    cases M with
    | mk ct ll ids nv lc ln cc buf src =>
      refine ⟨?_, ?_⟩
      · intro h
        simp only at h
        subst h
        rfl
      · intro c rest h
        simp only at h
        subst h
        cases rest with
        | nil =>
          simp only [getNextChar, List.isEmpty_nil, if_true, counted]
          split_ifs <;> simp
        | cons z zs =>
          simp only [getNextChar, List.isEmpty_cons, Bool.false_eq_true, if_false]
          split_ifs <;> simp

/-- C17 on a fresh `LexerBuffer` lexer over "ab" with a counted source: the
first call returns the seeded newline, pulls the line "ab" and moves to line
1, column 0; the second returns `a` without a pull at column 1. -/
theorem C17_getNextChar_witness :
    (getNextChar (counted LexerBuffer.readNextLine)
      (Lexer.new "input" (({ contents := codes "ab", current := 0 } : LexerBuffer), 0))).1
        = 10 ∧
    ((getNextChar (counted LexerBuffer.readNextLine)
      (Lexer.new "input" (({ contents := codes "ab", current := 0 } : LexerBuffer), 0))).2.src.2
        = 0 + 1) ∧
    ((getNextChar (counted LexerBuffer.readNextLine)
      (Lexer.new "input"
        (({ contents := codes "ab", current := 0 } : LexerBuffer), 0))).2.curLineNum
        = 0 + 1) :=
  ⟨((C17_getNextChar (counted LexerBuffer.readNextLine)
      (Lexer.new "input" (({ contents := codes "ab", current := 0 } : LexerBuffer), 0))).2.1
        10 [] rfl).1,
    (((C17_getNextChar LexerBuffer.readNextLine (LexerBuffer.new [] "input")).2.2
      (Lexer.new "input" (({ contents := codes "ab", current := 0 } : LexerBuffer), 0))).2
        10 [] rfl).1 rfl,
    (((C17_getNextChar (counted LexerBuffer.readNextLine)
      (Lexer.new "input" (({ contents := codes "ab", current := 0 } : LexerBuffer), 0))).2.1
        10 [] rfl).2.2.2.1 rfl).1⟩


/-! ## The lines of a `LexerBuffer` -/

section BufferLines

/-- Successive calls of `readNextLine` cut the bytes from `current` on. -/
theorem LexerBuffer.readLines_eq (k : Nat) : ∀ b : LexerBuffer,
    LexerBuffer.readLines k b = linesOf k (b.contents.drop b.current) := by
  induction k with
  | zero => intro b; rfl
  | succ k ih =>
    intro b
    rw [LexerBuffer.readLines, LexerBuffer.readNextLine_eq, ih, linesOf]
    simp only [List.drop_drop, Nat.add_comm]

/-- The shape of one line cut from bytes without a NUL. -/
theorem line_shape (d : List Int) (h0 : ∀ c ∈ d, c ≠ 0) :
    10 ∉ (d.take (lineLen d)).dropLast ∧
    (d.drop (lineLen d) ≠ [] → (d.take (lineLen d)).getLast? = some 10) ∧
    (d.take (lineLen d) = [] → d = []) := by
  induction d with
  | nil => simp [lineLen_nil]
  | cons c d ih =>
    have hc : c ≠ 0 := h0 c (List.mem_cons_self _ _)
    obtain ⟨i1, i2, i3⟩ := ih (fun x hx => h0 x (List.mem_cons_of_mem _ hx))
    by_cases h10 : c = 10
    · subst h10
      rw [lineLen_newline]
      simp
    · rw [lineLen_other c d ⟨hc, h10⟩]
      simp only [List.take_succ_cons, List.drop_succ_cons]
      cases hl : d.take (lineLen d) with
      | nil =>
        have hd := i3 hl
        subst hd
        simp
      | cons y ys =>
        rw [hl] at i1 i2
        refine ⟨?_, ?_, by simp⟩
        · simp only [List.dropLast, List.mem_cons, not_or]
          exact ⟨fun h => h10 h.symm, by simpa [List.dropLast] using i1⟩
        · intro hne
          rw [List.getLast?_cons_cons]
          exact i2 hne

theorem linesOf_nil (k : Nat) : ∀ line ∈ linesOf k [], line = [] := by
  induction k with
  | zero => intro line h; simp [linesOf] at h
  | succ k ih =>
    intro line h
    simp only [linesOf, lineLen_nil, List.take_nil, List.drop_nil, List.mem_cons] at h
    rcases h with h | h
    · exact h
    · exact ih line h

theorem getD_of_all_nil (xs : List (List Int)) (h : ∀ l ∈ xs, l = []) (j : Nat) :
    xs.getD j [] = [] := by
  induction xs generalizing j with
  | nil => rfl
  | cons x xs ih =>
    cases j with
    | zero => simpa using h x (List.mem_cons_self _ _)
    | succ j => simpa using ih (fun l hl => h l (List.mem_cons_of_mem _ hl)) j

theorem linesOf_newline_last (k : Nat) : ∀ d : List Int, (∀ c ∈ d, c ≠ 0) →
    ∀ line ∈ linesOf k d, 10 ∉ line.dropLast := by
  induction k with
  | zero => intro d _ line h; simp [linesOf] at h
  | succ k ih =>
    intro d h0 line h
    simp only [linesOf, List.mem_cons] at h
    rcases h with h | h
    · rw [h]
      exact (line_shape d h0).1
    · exact ih _ (fun c hc => h0 c (List.mem_of_mem_drop hc)) line h

theorem linesOf_ends (k : Nat) : ∀ d : List Int, (∀ c ∈ d, c ≠ 0) →
    ∀ i, (linesOf k d).getD (i + 1) [] ≠ [] →
      ((linesOf k d).getD i []).getLast? = some 10 := by
  induction k with
  | zero => intro d _ i h; simp [linesOf] at h
  | succ k ih =>
    intro d h0 i h
    cases i with
    | zero =>
      simp only [linesOf, List.getD_cons_succ, List.getD_cons_zero, Nat.zero_add] at h ⊢
      refine (line_shape d h0).2.1 ?_
      intro hnil
      rw [hnil] at h
      exact h (getD_of_all_nil _ (linesOf_nil k) 0)
    | succ i =>
      simp only [linesOf, List.getD_cons_succ] at h ⊢
      exact ih _ (fun c hc => h0 c (List.mem_of_mem_drop hc)) i h

theorem linesOf_join (k : Nat) : ∀ d : List Int, (∀ c ∈ d, c ≠ 0) → d.length ≤ k →
    (linesOf k d).flatten = d := by
  induction k with
  | zero =>
    intro d _ h
    have : d = [] := List.length_eq_zero.mp (Nat.le_zero.mp h)
    subst this
    rfl
  | succ k ih =>
    intro d h0 h
    simp only [linesOf, List.flatten_cons]
    have hlen : (d.drop (lineLen d)).length ≤ k := by
      by_cases hd : d.take (lineLen d) = []
      · have := (line_shape d h0).2.2 hd
        subst this
        simp
      · have hpos : 0 < lineLen d := by
          rcases Nat.eq_zero_or_pos (lineLen d) with hz | hp
          · rw [hz] at hd
            exact absurd rfl hd
          · exact hp
        rw [List.length_drop]
        omega
    rw [ih _ (fun c hc => h0 c (List.mem_of_mem_drop hc)) hlen, List.take_append_drop]

theorem linesOf_absorbing (k : Nat) : ∀ d : List Int, (∀ c ∈ d, c ≠ 0) →
    ∀ i j, i ≤ j → (linesOf k d).getD i [] = [] → (linesOf k d).getD j [] = [] := by
  induction k with
  | zero => intro d _ i j _ _; rfl
  | succ k ih =>
    intro d h0 i j hij h
    cases i with
    | zero =>
      simp only [linesOf, List.getD_cons_zero] at h
      have hd := (line_shape d h0).2.2 h
      subst hd
      exact getD_of_all_nil _ (linesOf_nil (k + 1)) j
    | succ i =>
      cases j with
      | zero => omega
      | succ j =>
        simp only [linesOf, List.getD_cons_succ] at h ⊢
        exact ih _ (fun c hc => h0 c (List.mem_of_mem_drop hc)) i j (by omega) h

end BufferLines

/-- C11: for a buffer whose contents hold no NUL byte, the first `k` calls of
`readNextLine` return the contents split after each newline: a newline occurs
in a returned line only as its last character, a line that is followed by a
non-empty line ends in a newline, the lines returned by at least as many
calls as the buffer has bytes concatenate to the contents, and after an empty
line every later line is empty. -/
theorem C11_readNextLine_splits_buffer (contents : List Int) (k : Nat)
    (h0 : ∀ c ∈ contents, c ≠ 0) :
    (∀ line ∈ LexerBuffer.readLines k { contents := contents, current := 0 },
      10 ∉ line.dropLast) ∧
    (∀ i, (LexerBuffer.readLines k { contents := contents, current := 0 }).getD (i + 1) [] ≠ [] →
      ((LexerBuffer.readLines k { contents := contents, current := 0 }).getD i []).getLast?
        = some 10) ∧
    (contents.length ≤ k →
      (LexerBuffer.readLines k { contents := contents, current := 0 }).flatten = contents) ∧
    (∀ i j, i ≤ j →
      (LexerBuffer.readLines k { contents := contents, current := 0 }).getD i [] = [] →
      (LexerBuffer.readLines k { contents := contents, current := 0 }).getD j [] = []) := by
  rw [LexerBuffer.readLines_eq]
  exact ⟨linesOf_newline_last k contents h0, linesOf_ends k contents h0,
    linesOf_join k contents h0, linesOf_absorbing k contents h0⟩

/-- C11 on the buffer "ab\ncd": the calls return "ab\n", "cd" and then the
empty line. -/
theorem C11_readNextLine_splits_buffer_witness :
    (∀ c ∈ codes "ab\ncd", c ≠ 0) ∧
    LexerBuffer.readLines 5 { contents := codes "ab\ncd", current := 0 } =
      [codes "ab\n", codes "cd", [], [], []] ∧
    ((codes "ab\ncd").length ≤ 5 →
      (LexerBuffer.readLines 5 { contents := codes "ab\ncd", current := 0 }).flatten
        = codes "ab\ncd") :=
  ⟨by decide, by decide,
    (C11_readNextLine_splits_buffer (codes "ab\ncd") 5 (by decide)).2.2.1⟩


/-! ## End of file -/

section EndOfFile

variable {σ : Type} (rd : σ → List Int × σ)

/-- The early return of the identifier loop hands back the lookahead, a letter
or an underscore. -/
theorem identLoop_early (n : Nat) : ∀ (ld : Bool) (L L2 : Lexer σ) (t : Token),
    identLoop rd n ld L = some (some t, L2) →
      t = L2.lastChar ∧ (isalnum t || t == 95) = true ∧ isdigit t = false := by
  induction n with
  | zero => intro ld L L2 t h; simp [identLoop] at h
  | succ n ih =>
    intro ld L L2 t h
    rw [identLoop] at h
    split_ifs at h with h1 h2 h3
    · exact ih _ _ _ _ h
    · simp only [Option.some.injEq, Prod.mk.injEq] at h
      obtain ⟨rfl, rfl⟩ := h
      exact ⟨rfl, h1, by simpa using h2⟩
    · exact ih _ _ _ _ h
    · simp at h

theorem keywordOrIdentifier_ne_eof (s : List Int) : keywordOrIdentifier s ≠ tok_eof := by
  unfold keywordOrIdentifier
  split_ifs <;> decide

theorem eofOrChar_eq_eof (L L1 : Lexer σ) (h : eofOrChar rd L = (tok_eof, L1)) :
    L1 = L ∧ L.lastChar = EOF := by
  unfold eofOrChar at h
  split_ifs at h with he
  · simp only [Prod.mk.injEq, true_and] at h
    exact ⟨h.symm, he⟩
  · simp only [Prod.mk.injEq] at h
    exact absurd h.1 he

/-- When `getTok` returns `tok_eof` the lookahead is the end-of-file code. -/
theorem getTok_eof_lookahead (n : Nat) : ∀ (L L1 : Lexer σ),
    getTok rd n L = some (tok_eof, L1) → L1.lastChar = EOF := by
  induction n with
  | zero => intro L L1 h; simp [getTok] at h
  | succ n ih =>
    intro L L1 h
    rw [getTok_succ] at h
    cases hs : skipSpace rd (n + 1) L with
    | none => simp [hs] at h
    | some L0 =>
      rw [hs] at h
      simp only [Option.bind] at h
      unfold getTokBody at h
      simp only at h
      split_ifs at h with h1 h2 h3
      · split at h
        · simp at h
        · rename_i t L2 heq
          simp only [Option.some.injEq, Prod.mk.injEq] at h
          obtain ⟨rfl, rfl⟩ := h
          have := (identLoop_early rd _ _ _ _ _ heq).2.1
          exact absurd this (by decide)
        · rename_i L2 heq
          simp only [Option.some.injEq, Prod.mk.injEq] at h
          exact absurd h.1 (keywordOrIdentifier_ne_eof _)
      · split at h
        · simp at h
        · simp only [Option.some.injEq, Prod.mk.injEq] at h
          exact absurd h.1 (by decide)
      · split at h
        · simp at h
        · rename_i L2 heq
          split_ifs at h with h4
          · exact ih _ _ h
          · simp only [Option.some.injEq] at h
            obtain ⟨rfl, he⟩ := eofOrChar_eq_eof rd _ _ h
            exact he
      · simp only [Option.some.injEq] at h
        obtain ⟨rfl, he⟩ := eofOrChar_eq_eof rd _ _ h
        exact he

/-- With the end-of-file code in the lookahead `getTok` returns `tok_eof` and
only records the location. -/
theorem getTok_at_eof (m : Nat) (L : Lexer σ) (h : L.lastChar = EOF) :
    getTok rd (m + 1) L = some (tok_eof, { L with lastLocation := startLocation L }) := by
  have hs : skipSpace rd (m + 1) L = some L := skipSpace_stop rd m L (by rw [h]; decide)
  rw [getTok_other rd m L L hs (by rw [h]; decide) (by rw [h]; decide) (by rw [h]; decide)]
  exact congrArg some (eofOrChar_eof rd { L with lastLocation := startLocation L } h)

theorem getNextToken_at_eof (m : Nat) (L : Lexer σ) (h : L.lastChar = EOF)
    (hc : L.curTok = tok_eof) :
    getNextToken rd (m + 1) L = some (tok_eof, { L with lastLocation := startLocation L }) := by
  unfold getNextToken
  rw [getTok_at_eof rd m L h]
  cases L
  simp only at hc
  subst hc
  rfl

/-- C13 (amended): when `getNextToken` returns `tok_eof` the lookahead is the
end-of-file code; every later `getNextToken` returns `tok_eof` again and
changes no field except the recorded location, which it sets to the current
line and column counters; from the second `tok_eof` on the state does not
change at all. The line source, part of the state, is not pulled. -/
theorem C13_eof_absorbing (n m : Nat) (L L1 : Lexer σ)
    (h : getNextToken rd n L = some (tok_eof, L1)) :
    L1.lastChar = EOF ∧
    getNextToken rd (m + 1) L1 =
      some (tok_eof, { L1 with lastLocation := startLocation L1 }) ∧
    getNextToken rd (m + 1) { L1 with lastLocation := startLocation L1 } =
      some (tok_eof, { L1 with lastLocation := startLocation L1 }) := by
  obtain ⟨q, hq, hr⟩ := (getNextToken_eq_some rd n L _).1 h
  obtain ⟨t, M⟩ := q
  simp only [Prod.mk.injEq] at hr
  obtain ⟨rfl, rfl⟩ := hr
  have hM : M.lastChar = EOF := getTok_eof_lookahead rd n L M hq
  refine ⟨hM, ?_, ?_⟩
  · exact getNextToken_at_eof rd m { M with curTok := tok_eof } hM rfl
  · exact getNextToken_at_eof rd m
      { { M with curTok := tok_eof } with
          lastLocation := startLocation { M with curTok := tok_eof } } hM rfl

end EndOfFile

/-- C13 as stated fails: on "#x" the end of the input is reached inside a
comment; the first `getNextToken` returns `tok_eof` with the location of the
comment start, line 1 column 1, recorded, and the second `getNextToken`
changes the recorded location to line 1 column 2. -/
theorem C13_location_changes_at_eof :
    (getNextToken LexerBuffer.readNextLine 10 (LexerBuffer.new (codes "#x") "input")).map
      (fun r => (r.1, getLastLocation r.2)) =
      some (tok_eof, { file := "input", line := 1, col := 1 }) ∧
    ((getNextToken LexerBuffer.readNextLine 10 (LexerBuffer.new (codes "#x") "input")).bind
      (fun r => getNextToken LexerBuffer.readNextLine 10 r.2)).map
      (fun r => (r.1, getLastLocation r.2)) =
      some (tok_eof, { file := "input", line := 1, col := 2 }) ∧
    ((getNextToken LexerBuffer.readNextLine 10 (LexerBuffer.new (codes "#x") "input")).bind
      (fun r => (getNextToken LexerBuffer.readNextLine 10 r.2).map
        (fun r2 => decide (r2.2 = r.2)))) = some false := by
  decide

/-- C13 on the input "#x": the state after the first `tok_eof` has the
end-of-file code in the lookahead, and the next `getNextToken` returns
`tok_eof` and only sets the recorded location. -/
theorem C13_eof_absorbing_witness :
    getNextToken LexerBuffer.readNextLine 10 (LexerBuffer.new (codes "#x") "input") =
      some (tok_eof,
        { curTok := tok_eof, lastLocation := { file := "input", line := 1, col := 1 }
          identifierStr := [], numVal := NumVal.zero, lastChar := EOF, curLineNum := 1
          curCol := 2, curLineBuffer := [], src := { contents := codes "#x", current := 2 } }) ∧
    getNextToken LexerBuffer.readNextLine (0 + 1)
      { curTok := tok_eof, lastLocation := { file := "input", line := 1, col := 1 }
        identifierStr := [], numVal := NumVal.zero, lastChar := EOF, curLineNum := 1
        curCol := 2, curLineBuffer := [], src := { contents := codes "#x", current := 2 } } =
      some (tok_eof,
        { curTok := tok_eof, lastLocation := { file := "input", line := 1, col := 2 }
          identifierStr := [], numVal := NumVal.zero, lastChar := EOF, curLineNum := 1
          curCol := 2, curLineBuffer := [], src := { contents := codes "#x", current := 2 } }) :=
  ⟨by decide,
    (C13_eof_absorbing LexerBuffer.readNextLine 10 0
      (LexerBuffer.new (codes "#x") "input") _ (by decide)).2.1⟩


/-! ## The character behind a rejected identifier -/

section Violation

variable {σ : Type} (rd : σ → List Int × σ)

/-- The identifier loop only appends to the identifier text. -/
theorem identLoop_prefix (n : Nat) : ∀ (ld : Bool) (L L2 : Lexer σ) (r : Option Token),
    identLoop rd n ld L = some (r, L2) →
      ∃ suf, L2.identifierStr = L.identifierStr ++ suf := by
  induction n with
  | zero => intro ld L L2 r h; simp [identLoop] at h
  | succ n ih =>
    intro ld L L2 r h
    rw [identLoop] at h
    split_ifs at h with h1 h2 h3
    · obtain ⟨suf, hs⟩ := ih _ _ _ _ h
      rw [advanceChar_idStr] at hs
      exact ⟨L.lastChar :: suf, by rw [hs]; simp⟩
    · simp only [Option.some.injEq, Prod.mk.injEq] at h
      obtain ⟨_, rfl⟩ := h
      exact ⟨[], by simp⟩
    · obtain ⟨suf, hs⟩ := ih _ _ _ _ h
      rw [advanceChar_idStr] at hs
      exact ⟨L.lastChar :: suf, by rw [hs]; simp⟩
    · simp only [Option.some.injEq, Prod.mk.injEq] at h
      obtain ⟨_, rfl⟩ := h
      exact ⟨[], by simp⟩

/-- The single-character fallback of `getNextToken`. -/
theorem getNextToken_single (n : Nat) (L : Lexer σ)
    (h1 : isspace L.lastChar = false) (h2 : isalpha L.lastChar = false)
    (h3 : isdigit L.lastChar = false) (h4 : L.lastChar ≠ 35) (h5 : L.lastChar ≠ EOF) :
    getNextToken rd (n + 1) L =
      some (L.lastChar,
        { advanceChar rd L with curTok := L.lastChar, lastLocation := startLocation L }) := by
  have hskip : skipSpace rd (n + 1) L = some L := skipSpace_stop rd n L h1
  have hg := getTok_other rd n L L hskip h2 h3 h4
  rw [eofOrChar_char rd { L with lastLocation := startLocation L } h5,
    advanceChar_lastLocation] at hg
  rw [getNextToken_of_getTok rd (n + 1) L _ _ hg]

/-- A token of the identifier branch started at a letter carries an
identifier text that begins with that letter. -/
theorem getNextToken_letter (n : Nat) (L L2 : Lexer σ) (t : Token)
    (ha : isalpha L.lastChar = true) (h : getNextToken rd (n + 1) L = some (t, L2)) :
    ∃ suf, L2.identifierStr = L.lastChar :: suf := by
  have hskip : skipSpace rd (n + 1) L = some L :=
    skipSpace_stop rd n L (isspace_of_isalpha _ ha)
  obtain ⟨q, hq, hr⟩ := (getNextToken_eq_some rd (n + 1) L _).1 h
  simp only [Prod.mk.injEq] at hr
  rw [getTok_alpha rd n L L hskip ha] at hq
  have key : ∀ (r : Option Token) (M : Lexer σ),
      identLoop rd (n + 1) false (advanceChar rd
        { L with lastLocation := startLocation L, identifierStr := [L.lastChar] }) =
        some (r, M) → ∃ suf, M.identifierStr = L.lastChar :: suf := by
    intro r M hM
    obtain ⟨suf, hs⟩ := identLoop_prefix rd _ _ _ _ _ hM
    rw [advanceChar_idStr] at hs
    exact ⟨suf, hs⟩
  split at hq
  · simp at hq
  · rename_i t1 M heq
    simp only [Option.some.injEq] at hq
    obtain ⟨suf, hs⟩ := key _ _ heq
    refine ⟨suf, ?_⟩
    rw [hr.2, ← hq]
    exact hs
  · rename_i M heq
    simp only [Option.some.injEq] at hq
    obtain ⟨suf, hs⟩ := key _ _ heq
    refine ⟨suf, ?_⟩
    rw [hr.2, ← hq]
    exact hs

/-- C20: after any whitespace, a letter, letters and underscores `ls`, one or
more digits `ds` and then a letter or underscore `c`, `getNextToken` returns
the raw token `c` and leaves `c` in the lookahead with the same input behind
it; the next `getNextToken` skips nothing and dispatches on `c`: an
underscore is returned as the raw token once more, and a letter starts the
text of an identifier-branch token. The input "a1b\n" yields the raw token
`b`, the identifier "b" and end-of-file; "a1_\n" yields the raw token `_`
twice and end-of-file. -/
theorem C20_offending_char_lexed_twice (L : Lexer σ) (ws ls ds rest : List Int) (s0 c : Int)
    (j n m : Nat)
    (hws : ∀ x ∈ ws, isspace x = true) (h0 : isalpha s0 = true)
    (hls : ∀ x ∈ ls, isalpha x = true ∨ x = 95)
    (hds : ∀ x ∈ ds, isdigit x = true) (hne : ds ≠ [])
    (hc : isalpha c = true ∨ c = 95)
    (hin : input rd (ws.length + (1 + (ls.length + (ds.length + j)))) L =
      ws ++ s0 :: (ls ++ (ds ++ c :: rest)))
    (hn : ws.length + ls.length + ds.length + 1 < n) :
    (∃ L1, getNextToken rd n L = some (c, L1) ∧ L1.lastChar = c ∧
      input rd j L1 = c :: rest ∧
      getTok rd (m + 1) L1 = getTokBody rd (getTok rd m) (m + 1) L1 ∧
      (c = 95 → getNextToken rd (m + 1) L1 =
        some (c, { advanceChar rd L1 with curTok := c, lastLocation := startLocation L1 })) ∧
      (isalpha c = true → ∀ t L2, getNextToken rd (m + 1) L1 = some (t, L2) →
        ∃ suf, L2.identifierStr = c :: suf)) ∧
    lexAll LexerBuffer.readNextLine 10 3 (LexerBuffer.new (codes "a1b\n") "input") =
      some [Lexeme.plain 98, Lexeme.ident "b", Lexeme.plain tok_eof] ∧
    lexAll LexerBuffer.readNextLine 10 3 (LexerBuffer.new (codes "a1_\n") "input") =
      some [Lexeme.plain 95, Lexeme.plain 95, Lexeme.plain tok_eof] := by
  refine ⟨?_, by decide, by decide⟩
  have hcb : (isalpha c || c == 95) = true := by
    rcases hc with h | h
    · simp [h]
    · simp [h]
  have hg := getTok_violation rd ws ls ds rest s0 c j n L hws h0 (letters_bool ls hls) hds hne
    hcb hin hn
  have hsplit : input rd j (advanceN rd (ws.length + (1 + (ls.length + ds.length))) L) =
      c :: rest := by
    have h1 := input_split rd ws _ _ L hin
    rw [Nat.add_comm 1, input_succ] at h1
    simp only [List.cons.injEq] at h1
    have h2 := input_split rd ls _ _ _ h1.2
    have h3 := input_split rd ds _ _ _ h2
    simpa only [advanceN_add, advanceN] using h3
  have hl : (advanceN rd (ws.length + (1 + (ls.length + ds.length))) L).lastChar = c :=
    input_head rd c rest j _ hsplit
  have hsp : isspace c = false := by
    rcases hc with h | h
    · exact isspace_of_isalpha c h
    · rw [h]; decide
  subst hl
  refine ⟨_, getNextToken_of_getTok rd n L _ _ hg, rfl, ?_, ?_, ?_, ?_⟩
  · rw [← hsplit]
    exact input_congr rd j _ _ rfl rfl rfl
  · rw [getTok_succ]
    exact congrArg (fun o => Option.bind o (getTokBody rd (getTok rd m) (m + 1)))
      (skipSpace_stop rd m
        { advanceN rd (ws.length + (1 + (ls.length + ds.length))) L with
          lastLocation := startLocation (advanceN rd ws.length L)
          identifierStr := s0 :: (ls ++ ds)
          curTok := (advanceN rd (ws.length + (1 + (ls.length + ds.length))) L).lastChar } hsp)
  · intro h95
    exact getNextToken_single rd m
      { advanceN rd (ws.length + (1 + (ls.length + ds.length))) L with
        lastLocation := startLocation (advanceN rd ws.length L)
        identifierStr := s0 :: (ls ++ ds)
        curTok := (advanceN rd (ws.length + (1 + (ls.length + ds.length))) L).lastChar }
      hsp (by simp only [h95]; decide) (by simp only [h95]; decide)
      (by simp only [h95]; decide) (by simp only [h95]; decide)
  · intro ha t L2 h2
    exact getNextToken_letter rd m
      { advanceN rd (ws.length + (1 + (ls.length + ds.length))) L with
        lastLocation := startLocation (advanceN rd ws.length L)
        identifierStr := s0 :: (ls ++ ds)
        curTok := (advanceN rd (ws.length + (1 + (ls.length + ds.length))) L).lastChar }
      L2 t ha h2

end Violation

/-- C20 at the input "x9y;" on a fresh `LexerBuffer` lexer: the raw token `y`
is returned with `y` still in the lookahead and ";" behind it. -/
theorem C20_offending_char_lexed_twice_witness :
    ((∀ x ∈ [(32 : Int), 10], isspace x = true) ∧ isalpha 120 = true ∧
      (∀ x ∈ ([] : List Int), isalpha x = true ∨ x = 95) ∧
      (∀ x ∈ [(57 : Int)], isdigit x = true) ∧ [(57 : Int)] ≠ [] ∧
      (isalpha 121 = true ∨ (121 : Int) = 95) ∧
      input LexerBuffer.readNextLine 5 (LexerBuffer.new (codes "x9y;") "input") =
        [32, 10] ++ codes "x9y;") ∧
    ∃ L1, getNextToken LexerBuffer.readNextLine 5 (LexerBuffer.new (codes "x9y;") "input") =
        some (121, L1) ∧ L1.lastChar = 121 ∧
      input LexerBuffer.readNextLine 1 L1 = 121 :: [59] :=
  ⟨by decide,
    (C20_offending_char_lexed_twice LexerBuffer.readNextLine
      (LexerBuffer.new (codes "x9y;") "input")
      [32, 10] [] [57] [59] 120 121 1 5 0 (by decide) (by decide) (by decide) (by decide)
      (by decide) (by decide) (by decide) (by decide)).1.imp
      (fun _ h => ⟨h.1, h.2.1, h.2.2.1⟩)⟩


/-- C14 at the input "ab12cd;": the identifier branch returns at `c`, the
letter after the digits, with the raw token `c` and without consuming it, so
the lookahead after the token is `c` itself and not the `d` that follows it;
the next `getNextToken` classifies the same `c` again, as the first letter of
the identifier "cd". The single-character fallback, which also returns a
character as its own token, consumes it: after the raw token `;` on ";x" the
lookahead is `x`. -/
theorem C14_violation_keeps_lookahead :
    (getNextToken LexerBuffer.readNextLine 10
        (LexerBuffer.new (codes "ab12cd;") "input")).map
      (fun r => (r.1, r.2.lastChar, LexerBuffer.remaining r.2)) =
      some (99, 99, codes "d;") ∧
    lexAll LexerBuffer.readNextLine 10 4 (LexerBuffer.new (codes "ab12cd;") "input") =
      some [Lexeme.plain 99, Lexeme.ident "cd", Lexeme.plain tok_semicolon,
        Lexeme.plain tok_eof] ∧
    (getNextToken LexerBuffer.readNextLine 10
        (LexerBuffer.new (codes ";x") "input")).map
      (fun r => (r.1, r.2.lastChar, LexerBuffer.remaining r.2)) =
      some (tok_semicolon, 120, []) := by
  decide


/-! ## The character stream of a line source -/

section Stream

variable {σ : Type} (rd : σ → List Int × σ)

theorem advanceChar_step (L : Lexer σ) (c : Int) (rest : List Int)
    (hb : L.curLineBuffer = c :: rest) :
    (advanceChar rd L).lastChar = c ∧
    (advanceChar rd L).curLineBuffer = (if rest.isEmpty then (rd L.src).1 else rest) ∧
    (advanceChar rd L).src = (if rest.isEmpty then (rd L.src).2 else L.src) := by
  cases L with
  | mk ct ll ids nv lc ln cc buf src =>
    simp only at hb
    subst hb
    cases rest with
    | nil =>
      simp only [advanceChar, getNextChar, List.isEmpty_nil, if_true]
      split_ifs <;> simp
    | cons z zs =>
      simp only [advanceChar, getNextChar, List.isEmpty_cons, Bool.false_eq_true, if_false]
      split_ifs <;> simp

theorem advanceChar_empty (L : Lexer σ) (hb : L.curLineBuffer = []) :
    advanceChar rd L = { L with lastChar := EOF } := by
  cases L with
  | mk ct ll ids nv lc ln cc buf src =>
    simp only at hb
    subst hb
    rfl

theorem advanceN_empty (k : Nat) : ∀ L : Lexer σ, L.curLineBuffer = [] →
    (advanceN rd k L).curLineBuffer = [] ∧ (advanceN rd k L).src = L.src ∧
    (advanceN rd k L).curLineNum = L.curLineNum ∧ (advanceN rd k L).curCol = L.curCol ∧
    (0 < k → (advanceN rd k L).lastChar = EOF) := by
  induction k with
  | zero => intro L hb; exact ⟨hb, rfl, rfl, rfl, fun h => absurd h (Nat.lt_irrefl 0)⟩
  | succ k ih =>
    intro L hb
    rw [advanceN_succ]
    obtain ⟨h1, h2, h3, h4, _⟩ := ih L hb
    rw [advanceChar_empty rd _ h1]
    exact ⟨h1, h2, h3, h4, fun _ => rfl⟩

/-- One cursor step delivers the first pending character. -/
theorem pending_step (c : Int) (cs : List Int) (L : Lexer σ)
    (h : pending rd (c :: cs) L.curLineBuffer L.src = true) :
    (advanceChar rd L).lastChar = c ∧
    pending rd cs (advanceChar rd L).curLineBuffer (advanceChar rd L).src = true := by
  cases hb : L.curLineBuffer with
  | nil => rw [hb] at h; simp [pending] at h
  | cons b rest =>
    rw [hb] at h
    simp only [pending, Bool.and_eq_true, decide_eq_true_eq] at h
    obtain ⟨h1, h2, h3⟩ := advanceChar_step rd L b rest hb
    rw [h1, h2, h3]
    refine ⟨h.1, ?_⟩
    have h4 := h.2
    split_ifs at h4 ⊢
    · exact h4
    · exact h4

theorem pending_nil (L : Lexer σ) (h : pending rd [] L.curLineBuffer L.src = true) :
    L.curLineBuffer = [] := by
  simpa [pending] using h

/-- The cursor delivers the pending characters and then the end-of-file code
on every later call. -/
theorem upcoming_pending (cs : List Int) (k : Nat) : ∀ L : Lexer σ,
    pending rd cs L.curLineBuffer L.src = true →
    upcoming rd (cs.length + k) L = cs ++ List.replicate k EOF := by
  induction cs with
  | nil =>
    intro L h
    have hb := pending_nil rd L h
    simp only [List.length_nil, Nat.zero_add, List.nil_append]
    clear h
    induction k generalizing L with
    | zero => rfl
    | succ k ih =>
      rw [upcoming, advanceChar_empty rd L hb, List.replicate_succ]
      rw [ih { L with lastChar := EOF } hb]
  | cons c cs ih =>
    intro L h
    obtain ⟨h1, h2⟩ := pending_step rd c cs L h
    rw [List.length_cons, Nat.succ_add, upcoming, h1, ih _ h2]
    rfl

theorem pending_cons (c b : Int) (cs rest : List Int) (s : σ) :
    pending rd (c :: cs) (b :: rest) s =
      (decide (b = c) &&
        (if rest.isEmpty then pending rd cs (rd s).1 (rd s).2 else pending rd cs rest s)) := by
  rw [pending]

/-- The buffer followed by the lines the source yields is what is pending. -/
theorem pending_of_sourceYields (ls : List (List Int)) : ∀ (s : σ) (buf : List Int),
    sourceYields rd ls s = true → buf ≠ [] →
    pending rd (buf ++ ls.flatten) buf s = true := by
  induction ls with
  | nil =>
    intro s buf h hne
    simp only [sourceYields] at h
    simp only [List.flatten_nil, List.append_nil]
    induction buf with
    | nil => exact absurd rfl hne
    | cons b rest ihb =>
      cases rest with
      | nil => simp [pending, h]
      | cons z zs =>
        rw [pending_cons]
        simp only [decide_True, Bool.true_and, List.isEmpty_cons, Bool.false_eq_true, if_false]
        exact ihb (by simp)
  | cons l ls ih =>
    intro s buf h hne
    simp only [sourceYields, Bool.and_eq_true, decide_eq_true_eq, Bool.not_eq_true',
      List.isEmpty_eq_false_iff_exists_mem] at h
    obtain ⟨⟨h1, x, hx⟩, h3⟩ := h
    have hl : l ≠ [] := List.ne_nil_of_mem hx
    induction buf with
    | nil => exact absurd rfl hne
    | cons b rest ihb =>
      cases rest with
      | nil =>
        simp only [List.flatten_cons, List.singleton_append, pending, decide_True, Bool.true_and,
          List.isEmpty_nil, if_true, h1]
        exact ih _ l h3 hl
      | cons z zs =>
        rw [List.cons_append, pending_cons]
        simp only [decide_True, Bool.true_and, List.isEmpty_cons, Bool.false_eq_true, if_false]
        exact ihb (by simp)

/-- The cursor empties the buffer and the lines of the source with one call
of `readNextLine` per line and one more for the empty line. -/
theorem drain (ls : List (List Int)) : ∀ (s : σ) (buf : List Int) (L : Lexer σ),
    sourceYields rd ls s = true → buf ≠ [] → L.curLineBuffer = buf → L.src = s →
    (advanceN rd (buf.length + ls.flatten.length) L).curLineBuffer = [] ∧
    (advanceN rd (buf.length + ls.flatten.length) L).src = pulls rd (ls.length + 1) s := by
  induction ls with
  | nil =>
    intro s buf
    induction buf with
    | nil => intro L _ hne; exact absurd rfl hne
    | cons b rest ihb =>
      intro L h hne hb hs
      simp only [sourceYields, List.isEmpty_iff] at h
      obtain ⟨_, h2, h3⟩ := advanceChar_step rd L b rest hb
      simp only [List.flatten_nil, List.length_nil, Nat.add_zero, List.length_cons]
      rw [advanceN]
      cases rest with
      | nil =>
        simp only [List.isEmpty_nil, if_true, hs, h] at h2 h3
        simp only [List.length_nil, advanceN, h2, h3, pulls, and_self]
      | cons z zs =>
        simp only [List.isEmpty_cons, Bool.false_eq_true, if_false] at h2 h3
        have := ihb (advanceChar rd L) (by simp [sourceYields, h]) (by simp) h2 (h3.trans hs)
        simpa using this
  | cons l ls ih =>
    intro s buf
    induction buf with
    | nil => intro L _ hne; exact absurd rfl hne
    | cons b rest ihb =>
      intro L h hne hb hs
      have h0 := h
      simp only [sourceYields, Bool.and_eq_true, decide_eq_true_eq, Bool.not_eq_true',
        List.isEmpty_eq_false_iff_exists_mem] at h
      obtain ⟨⟨h1, x, hx⟩, h3⟩ := h
      have hl : l ≠ [] := List.ne_nil_of_mem hx
      obtain ⟨_, hb2, hs2⟩ := advanceChar_step rd L b rest hb
      rw [List.length_cons, Nat.succ_add, advanceN]
      cases rest with
      | nil =>
        simp only [List.isEmpty_nil, if_true, hs, h1] at hb2 hs2
        have := ih _ l (advanceChar rd L) h3 hl hb2 hs2
        simp only [List.length_nil, Nat.zero_add, List.flatten_cons, List.length_append,
          List.length_cons]
        rw [this.1, this.2]
        exact ⟨rfl, rfl⟩
      | cons z zs =>
        simp only [List.isEmpty_cons, Bool.false_eq_true, if_false] at hb2 hs2
        exact ihb (advanceChar rd L) h0 (by simp) hb2 (hs2.trans hs)

theorem sourceYields_counted (ls : List (List Int)) : ∀ (s : σ) (c : Nat),
    sourceYields (counted rd) ls (s, c) = sourceYields rd ls s := by
  induction ls with
  | nil => intro s c; rfl
  | cons l ls ih =>
    intro s c
    simp only [sourceYields, counted, ih]

theorem pulls_counted (k : Nat) : ∀ (s : σ) (c : Nat),
    (pulls (counted rd) k (s, c)).2 = c + k := by
  induction k with
  | zero => intro s c; rfl
  | succ k ih =>
    intro s c
    simp only [pulls, counted, ih]
    omega

/-- The call counter of a counted source never goes down. -/
theorem count_mono (k : Nat) : ∀ M : Lexer (σ × Nat),
    M.src.2 ≤ (advanceN (counted rd) k M).src.2 := by
  induction k with
  | zero => intro M; exact Nat.le_refl _
  | succ k ih =>
    intro M
    rw [advanceN]
    refine Nat.le_trans ?_ (ih _)
    cases hb : M.curLineBuffer with
    | nil => rw [advanceChar_empty _ M hb]
    | cons b rest =>
      obtain ⟨_, _, h3⟩ := advanceChar_step (counted rd) M b rest hb
      rw [h3]
      split_ifs
      · simp [counted]
      · exact Nat.le_refl _

end Stream


/-- C18: for a line source that yields the non-empty lines `ls` and then the
empty line, the calls of `getNextChar` on a fresh lexer return the seeded
newline, then every character of the lines in order, then the end-of-file
code on every later call; when all characters are delivered the source has
been called once per line and once more for the empty line, and the call
counter of the source never exceeds that number. -/
theorem C18_cursor_crosses_lines {σ : Type} (rd : σ → List Int × σ) (s : σ)
    (ls : List (List Int)) (f : String) (h : sourceYields rd ls s = true) (k : Nat) :
    upcoming rd (ls.flatten.length + 1 + k) (Lexer.new f s) =
      10 :: ls.flatten ++ List.replicate k EOF ∧
    (advanceN rd (ls.flatten.length + 1 + k) (Lexer.new f s)).src = pulls rd (ls.length + 1) s ∧
    (advanceN (counted rd) (ls.flatten.length + 1 + k) (Lexer.new f (s, 0))).src.2
      = ls.length + 1 ∧
    (∀ m, (advanceN (counted rd) m (Lexer.new f (s, 0))).src.2 ≤ ls.length + 1) := by
  have hfin : ∀ {τ : Type} (rd2 : τ → List Int × τ) (s2 : τ) (j : Nat),
      sourceYields rd2 ls s2 = true →
      (advanceN rd2 (ls.flatten.length + 1 + j) (Lexer.new f s2)).src
        = pulls rd2 (ls.length + 1) s2 := by
    intro τ rd2 s2 j h2
    obtain ⟨d1, d2⟩ := drain rd2 ls s2 [10] (Lexer.new f s2) h2 (by simp) rfl rfl
    simp only [List.length_singleton] at d1 d2
    rw [Nat.add_comm ls.flatten.length 1, advanceN_add, (advanceN_empty rd2 j _ d1).2.1]
    exact d2
  have hc : ∀ j, (advanceN (counted rd) (ls.flatten.length + 1 + j) (Lexer.new f (s, 0))).src.2
      = ls.length + 1 := by
    intro j
    rw [hfin (counted rd) (s, 0) j (by rw [sourceYields_counted]; exact h), pulls_counted]
    omega
  refine ⟨?_, hfin rd s k h, hc k, ?_⟩
  · have hp := pending_of_sourceYields rd ls s [10] h (by simp)
    have := upcoming_pending rd (10 :: ls.flatten) k (Lexer.new f s) hp
    rw [List.length_cons] at this
    exact this
  · intro m
    have h1 := count_mono rd (ls.flatten.length + 1) (advanceN (counted rd) m (Lexer.new f (s, 0)))
    rw [← advanceN_add, Nat.add_comm m, hc m] at h1
    exact h1

/-- C18 on a `LexerBuffer` over "ab\ncd", whose lines are "ab\n" and "cd":
eight calls of `getNextChar` return the seeded newline, the six characters
and the end-of-file code twice, with three calls of `readNextLine`. -/
theorem C18_cursor_crosses_lines_witness :
    sourceYields LexerBuffer.readNextLine [codes "ab\n", codes "cd"]
      { contents := codes "ab\ncd", current := 0 } = true ∧
    upcoming LexerBuffer.readNextLine ([codes "ab\n", codes "cd"].flatten.length + 1 + 2)
      (Lexer.new "input" { contents := codes "ab\ncd", current := 0 }) =
      10 :: [codes "ab\n", codes "cd"].flatten ++ List.replicate 2 EOF ∧
    (advanceN (counted LexerBuffer.readNextLine)
      ([codes "ab\n", codes "cd"].flatten.length + 1 + 2)
      (Lexer.new "input" (({ contents := codes "ab\ncd", current := 0 } : LexerBuffer), 0))).src.2
      = [codes "ab\n", codes "cd"].length + 1 :=
  ⟨by decide,
    (C18_cursor_crosses_lines LexerBuffer.readNextLine
      { contents := codes "ab\ncd", current := 0 } [codes "ab\n", codes "cd"] "input"
      (by decide) 2).1,
    (C18_cursor_crosses_lines LexerBuffer.readNextLine
      { contents := codes "ab\ncd", current := 0 } [codes "ab\n", codes "cd"] "input"
      (by decide) 2).2.2.1⟩


/-! ## Termination -/

section Termination

variable {σ : Type} (rd : σ → List Int × σ)

theorem Bounded.mono {p q : Nat} {L : Lexer σ} (h : Bounded rd p L) (hpq : p ≤ q) :
    Bounded rd q L := by
  obtain ⟨cs, h1, h2⟩ := h
  exact ⟨cs, h1, Nat.le_trans h2 hpq⟩

theorem Bounded.frame {p : Nat} {L M : Lexer σ} (h : Bounded rd p L)
    (hc : M.lastChar = L.lastChar) (hb : M.curLineBuffer = L.curLineBuffer)
    (hs : M.src = L.src) : Bounded rd p M := by
  obtain ⟨cs, h1, h2⟩ := h
  exact ⟨cs, by rw [hb, hs]; exact h1, by rw [hc]; exact h2⟩

theorem Bounded.zero {L : Lexer σ} (h : Bounded rd 0 L) : L.lastChar = EOF := by
  obtain ⟨cs, _, h2⟩ := h
  by_contra hne
  rw [if_neg hne] at h2
  omega

/-- A cursor step does not raise the number of unconsumed characters. -/
theorem Bounded.after_step {p : Nat} {L : Lexer σ} (h : Bounded rd p L) :
    Bounded rd p (advanceChar rd L) := by
  obtain ⟨cs, h1, h2⟩ := h
  cases cs with
  | nil =>
    have hb := pending_nil rd L h1
    rw [advanceChar_empty rd L hb]
    exact ⟨[], h1, by simp⟩
  | cons c cs =>
    obtain ⟨_, h4⟩ := pending_step rd c cs L h1
    refine ⟨cs, h4, ?_⟩
    rw [List.length_cons] at h2
    split_ifs <;> omega

/-- A cursor step from a lookahead that is a character lowers the number of
unconsumed characters. -/
theorem Bounded.consume {p : Nat} {L : Lexer σ} (h : Bounded rd p L) (hne : L.lastChar ≠ EOF) :
    ∃ q, p = q + 1 ∧ Bounded rd q (advanceChar rd L) := by
  obtain ⟨cs, h1, h2⟩ := h
  rw [if_neg hne] at h2
  obtain ⟨q, rfl⟩ : ∃ q, p = q + 1 := ⟨p - 1, by omega⟩
  refine ⟨q, rfl, ?_⟩
  cases cs with
  | nil =>
    have hb := pending_nil rd L h1
    rw [advanceChar_empty rd L hb]
    exact ⟨[], h1, by simp⟩
  | cons c cs =>
    obtain ⟨_, h4⟩ := pending_step rd c cs L h1
    refine ⟨cs, h4, ?_⟩
    rw [List.length_cons] at h2
    split_ifs <;> omega

/-- The whitespace loop terminates. -/
theorem skipSpace_total (p : Nat) : ∀ L : Lexer σ, Bounded rd p L →
    ∃ L1, skipSpace rd (p + 1) L = some L1 ∧ Bounded rd p L1 := by
  induction p with
  | zero =>
    intro L h
    refine ⟨L, ?_, h⟩
    exact skipSpace_stop rd 0 L (by rw [Bounded.zero rd h]; decide)
  | succ q ih =>
    intro L h
    by_cases hs : isspace L.lastChar = true
    · have hne : L.lastChar ≠ EOF := by
        intro he
        rw [he] at hs
        exact absurd hs (by decide)
      obtain ⟨q2, hq, hb⟩ := Bounded.consume rd h hne
      obtain rfl : q2 = q := by omega
      obtain ⟨L1, h1, h2⟩ := ih _ hb
      refine ⟨L1, ?_, Bounded.mono rd h2 (Nat.le_succ _)⟩
      rw [skipSpace]
      simp only [hs, if_true]
      exact h1
    · exact ⟨L, skipSpace_stop rd (q + 1) L (by simpa using hs), h⟩

/-- The identifier loop terminates. -/
theorem identLoop_total (p : Nat) : ∀ (ld : Bool) (L : Lexer σ), Bounded rd p L →
    ∃ r L2, identLoop rd (p + 1) ld L = some (r, L2) ∧ Bounded rd p L2 := by
  induction p with
  | zero =>
    intro ld L h
    refine ⟨none, L, ?_, h⟩
    exact identLoop_exit rd 0 ld L (by rw [Bounded.zero rd h]; decide)
  | succ q ih =>
    intro ld L h
    by_cases hc : (isalnum L.lastChar || L.lastChar == 95) = true
    · have hne : L.lastChar ≠ EOF := by
        intro he
        rw [he] at hc
        exact absurd hc (by decide)
      have hX : Bounded rd (q + 1)
          { L with identifierStr := L.identifierStr ++ [L.lastChar] } :=
        Bounded.frame rd h rfl rfl rfl
      obtain ⟨q2, hq, hb⟩ := Bounded.consume rd hX hne
      obtain rfl : q2 = q := by omega
      rw [identLoop]
      simp only [hc, if_true]
      by_cases hd : isdigit L.lastChar = true
      · simp only [hd, if_true]
        obtain ⟨r, L2, h1, h2⟩ := ih true _ hb
        exact ⟨r, L2, h1, Bounded.mono rd h2 (Nat.le_succ _)⟩
      · simp only [hd, Bool.false_eq_true, if_false]
        cases ld with
        | true =>
          simp only [if_true]
          exact ⟨_, _, rfl, h⟩
        | false =>
          simp only [Bool.false_eq_true, if_false]
          obtain ⟨r, L2, h1, h2⟩ := ih false _ hb
          exact ⟨r, L2, h1, Bounded.mono rd h2 (Nat.le_succ _)⟩
    · exact ⟨none, L, identLoop_exit rd (q + 1) ld L (by simpa using hc), h⟩

/-- The number loop terminates. -/
theorem numLoop_total (p : Nat) : ∀ (acc : List Int) (L : Lexer σ), Bounded rd (p + 1) L →
    L.lastChar ≠ EOF →
    ∃ str L2, numLoop rd (p + 1) acc L = some (str, L2) ∧ Bounded rd p L2 := by
  induction p with
  | zero =>
    intro acc L h hne
    obtain ⟨q2, hq, hb⟩ := Bounded.consume rd h hne
    obtain rfl : q2 = 0 := by omega
    rw [numLoop]
    have he := Bounded.zero rd hb
    simp only [he]
    exact ⟨_, _, rfl, hb⟩
  | succ q ih =>
    intro acc L h hne
    obtain ⟨q2, hq, hb⟩ := Bounded.consume rd h hne
    obtain rfl : q2 = q + 1 := by omega
    rw [numLoop]
    by_cases hc : (isdigit (advanceChar rd L).lastChar || (advanceChar rd L).lastChar == 46) = true
    · have hne2 : (advanceChar rd L).lastChar ≠ EOF := by
        intro he
        rw [he] at hc
        exact absurd hc (by decide)
      simp only [hc, if_true]
      obtain ⟨str, L2, h1, h2⟩ := ih (acc ++ [L.lastChar]) _ hb hne2
      exact ⟨str, L2, h1, Bounded.mono rd h2 (Nat.le_succ _)⟩
    · simp only [hc, Bool.false_eq_true, if_false]
      exact ⟨_, _, rfl, hb⟩

/-- The comment loop terminates. -/
theorem commentLoop_total (p : Nat) : ∀ (L : Lexer σ), Bounded rd (p + 1) L →
    L.lastChar ≠ EOF →
    ∃ L2, commentLoop rd (p + 1) L = some L2 ∧ Bounded rd p L2 := by
  induction p with
  | zero =>
    intro L h hne
    obtain ⟨q2, hq, hb⟩ := Bounded.consume rd h hne
    obtain rfl : q2 = 0 := by omega
    rw [commentLoop]
    have he := Bounded.zero rd hb
    simp only [he]
    exact ⟨_, rfl, hb⟩
  | succ q ih =>
    intro L h hne
    obtain ⟨q2, hq, hb⟩ := Bounded.consume rd h hne
    obtain rfl : q2 = q + 1 := by omega
    rw [commentLoop]
    by_cases hc : ((advanceChar rd L).lastChar != EOF && (advanceChar rd L).lastChar != 10 &&
        (advanceChar rd L).lastChar != 13) = true
    · have hne2 : (advanceChar rd L).lastChar ≠ EOF := by
        intro he
        rw [he] at hc
        exact absurd hc (by decide)
      simp only [hc, if_true]
      obtain ⟨L2, h1, h2⟩ := ih _ hb hne2
      exact ⟨L2, h1, Bounded.mono rd h2 (Nat.le_succ _)⟩
    · simp only [hc, Bool.false_eq_true, if_false]
      exact ⟨_, rfl, hb⟩

end Termination


section TerminationTokens

variable {σ : Type} (rd : σ → List Int × σ)

/-- The part of `getTok` behind the whitespace loop terminates, and a token
other than end-of-file costs at least one unconsumed character. -/
theorem getTokBody_total (self : Lexer σ → Option (Token × Lexer σ)) (q : Nat) (L0 : Lexer σ)
    (hB : Bounded rd (q + 1) L0)
    (hself : ∀ L2, Bounded rd q L2 → ∃ t L1, self L2 = some (t, L1) ∧ Bounded rd q L1) :
    ∃ t L1, getTokBody rd self (q + 1 + 1) L0 = some (t, L1) ∧ Bounded rd (q + 1) L1 ∧
      (t ≠ tok_eof → Bounded rd q L1) := by
  unfold getTokBody
  simp only
  split_ifs with h1 h2 h3
  · have hne : L0.lastChar ≠ EOF := by
      intro he
      rw [he] at h1
      exact absurd h1 (by decide)
    have hX : Bounded rd (q + 1)
        { L0 with lastLocation := startLocation L0, identifierStr := [L0.lastChar] } :=
      Bounded.frame rd hB rfl rfl rfl
    obtain ⟨q2, hq, hb⟩ := Bounded.consume rd hX hne
    obtain rfl : q = q2 := by omega
    obtain ⟨r, L2, hi, hb2⟩ := identLoop_total rd q false _ hb
    have hi2 := identLoop_mono rd _ _ _ _ hi
    split
    · rename_i heq
      exact absurd (hi2.symm.trans heq) (by simp)
    · rename_i t M heq
      have := hi2.symm.trans heq
      simp only [Option.some.injEq, Prod.mk.injEq] at this
      obtain ⟨_, rfl⟩ := this
      exact ⟨_, _, rfl, Bounded.mono rd hb2 (Nat.le_succ _), fun _ => hb2⟩
    · rename_i M heq
      have := hi2.symm.trans heq
      simp only [Option.some.injEq, Prod.mk.injEq] at this
      obtain ⟨_, rfl⟩ := this
      exact ⟨_, _, rfl, Bounded.mono rd hb2 (Nat.le_succ _), fun _ => hb2⟩
  · have hne : L0.lastChar ≠ EOF := by
      intro he
      rw [he] at h2
      exact absurd h2 (by decide)
    have hX : Bounded rd (q + 1) { L0 with lastLocation := startLocation L0 } :=
      Bounded.frame rd hB rfl rfl rfl
    obtain ⟨str, L2, hi, hb2⟩ := numLoop_total rd q [] _ hX hne
    have hi2 := numLoop_mono rd _ _ _ _ hi
    split
    · rename_i heq
      exact absurd (hi2.symm.trans heq) (by simp)
    · rename_i str2 M heq
      have := hi2.symm.trans heq
      simp only [Option.some.injEq, Prod.mk.injEq] at this
      obtain ⟨_, rfl⟩ := this
      have hb3 : Bounded rd q { L2 with numVal := NumVal.strtod str2 } :=
        Bounded.frame rd hb2 rfl rfl rfl
      exact ⟨_, _, rfl, Bounded.mono rd hb3 (Nat.le_succ _), fun _ => hb3⟩
  · have hne : L0.lastChar ≠ EOF := by
      intro he
      rw [he] at h3
      exact absurd h3 (by decide)
    have hX : Bounded rd (q + 1) { L0 with lastLocation := startLocation L0 } :=
      Bounded.frame rd hB rfl rfl rfl
    obtain ⟨L2, hi, hb2⟩ := commentLoop_total rd q _ hX hne
    have hi2 := commentLoop_mono rd _ _ _ hi
    split
    · rename_i heq
      exact absurd (hi2.symm.trans heq) (by simp)
    · rename_i M heq
      have := hi2.symm.trans heq
      simp only [Option.some.injEq] at this
      subst this
      split_ifs with h4
      · obtain ⟨t, L1, hs1, hs2⟩ := hself L2 hb2
        exact ⟨t, L1, hs1, Bounded.mono rd hs2 (Nat.le_succ _), fun _ => hs2⟩
      · have he : L2.lastChar = EOF := by simpa using h4
        rw [eofOrChar_eof rd L2 he]
        exact ⟨_, _, rfl, Bounded.mono rd hb2 (Nat.le_succ _), fun _ => hb2⟩
  · have hX : Bounded rd (q + 1) { L0 with lastLocation := startLocation L0 } :=
      Bounded.frame rd hB rfl rfl rfl
    by_cases he : L0.lastChar = EOF
    · rw [eofOrChar_eof rd { L0 with lastLocation := startLocation L0 } he]
      exact ⟨_, _, rfl, hX, fun hne => absurd rfl hne⟩
    · rw [eofOrChar_char rd { L0 with lastLocation := startLocation L0 } he]
      obtain ⟨q2, hq, hb⟩ := Bounded.consume rd hX he
      obtain rfl : q = q2 := by omega
      exact ⟨_, _, rfl, Bounded.mono rd hb (Nat.le_succ _), fun _ => hb⟩

/-- A call of `getTok` terminates when the fuel exceeds the number of
unconsumed characters, and a token other than end-of-file lowers that number. -/
theorem getTok_total (p : Nat) : ∀ L : Lexer σ, Bounded rd p L →
    ∃ t L1, getTok rd (p + 1) L = some (t, L1) ∧ Bounded rd p L1 ∧
      (t ≠ tok_eof → ∃ q, p = q + 1 ∧ Bounded rd q L1) := by
  induction p with
  | zero =>
    intro L h
    exact ⟨tok_eof, _, getTok_at_eof rd 0 L (Bounded.zero rd h), Bounded.frame rd h rfl rfl rfl,
      fun hne => absurd rfl hne⟩
  | succ q ih =>
    intro L h
    obtain ⟨L0, hs, hb0⟩ := skipSpace_total rd (q + 1) L h
    rw [getTok_succ, hs]
    obtain ⟨t, L1, h1, h2, h3⟩ := getTokBody_total rd (getTok rd (q + 1)) q L0 hb0
      (fun L2 hL2 => by
        obtain ⟨t, L1, g1, g2, _⟩ := ih L2 hL2
        exact ⟨t, L1, g1, g2⟩)
    exact ⟨t, L1, h1, h2, fun hne => ⟨q, rfl, h3 hne⟩⟩

theorem getNextToken_total (p n : Nat) (hn : p + 1 ≤ n) (L : Lexer σ) (h : Bounded rd p L) :
    ∃ t L1, getNextToken rd n L = some (t, L1) ∧ L1.curTok = t ∧ Bounded rd p L1 ∧
      (t ≠ tok_eof → ∃ q, p = q + 1 ∧ Bounded rd q L1) := by
  obtain ⟨t, L1, h1, h2, h3⟩ := getTok_total rd p L h
  refine ⟨t, { L1 with curTok := t },
    getNextToken_of_getTok rd n L L1 t (getTok_mono_le rd _ n hn L _ h1), rfl,
    Bounded.frame rd h2 rfl rfl rfl, fun hne => ?_⟩
  obtain ⟨q, hq, hb⟩ := h3 hne
  exact ⟨q, hq, Bounded.frame rd hb rfl rfl rfl⟩

/-- Any number of successive calls of `getNextToken` terminate. -/
theorem advances_total (n j : Nat) : ∀ (p : Nat) (L : Lexer σ), p + 1 ≤ n → Bounded rd p L →
    ∃ L1, advances rd n j L = some L1 := by
  induction j with
  | zero => intro p L _ _; exact ⟨L, rfl⟩
  | succ j ih =>
    intro p L hn h
    obtain ⟨t, L1, h1, _, h2, _⟩ := getNextToken_total rd p n hn L h
    rw [advances, h1]
    exact ih p L1 hn h2

/-- The driver loop reaches end-of-file after at most as many other tokens
as there are unconsumed characters. -/
theorem lexAll_total (n : Nat) (p : Nat) : ∀ (L : Lexer σ), p + 1 ≤ n → Bounded rd p L →
    ∃ init e, lexAll rd n (p + 1) L = some (init ++ [e]) ∧ e.tok = tok_eof ∧
      (∀ x ∈ init, x.tok ≠ tok_eof) ∧ init.length ≤ p := by
  induction p with
  | zero =>
    intro L hn h
    obtain ⟨t, L1, h1, h2, _, h4⟩ := getNextToken_total rd 0 n hn L h
    have ht : t = tok_eof := by
      by_contra hne
      obtain ⟨q, hq, _⟩ := h4 hne
      omega
    subst ht
    refine ⟨[], lexeme L1, ?_, h2, fun x hx => absurd hx (List.not_mem_nil x), Nat.le_refl 0⟩
    rw [lexAll, h1]
    simp
  | succ q ih =>
    intro L hn h
    obtain ⟨t, L1, h1, h2, h3, h4⟩ := getNextToken_total rd (q + 1) n hn L h
    by_cases ht : t = tok_eof
    · subst ht
      refine ⟨[], lexeme L1, ?_, h2, fun x hx => absurd hx (List.not_mem_nil x), Nat.zero_le _⟩
      rw [lexAll, h1]
      simp
    · obtain ⟨q2, hq, hb⟩ := h4 ht
      obtain rfl : q = q2 := by omega
      obtain ⟨init, e, g1, g2, g3, g4⟩ := ih L1 (by omega) hb
      refine ⟨lexeme L1 :: init, e, ?_, g2, ?_, by simp only [List.length_cons]; omega⟩
      · rw [lexAll, h1]
        simp only [ht, if_false, g1]
        rfl
      · intro x hx
        rcases List.mem_cons.1 hx with hx | hx
        · rw [hx]
          show L1.curTok ≠ tok_eof
          rw [h2]
          exact ht
        · exact g3 x hx

end TerminationTokens


section TerminationFresh

variable {σ : Type} (rd : σ → List Int × σ)

theorem bounded_after (c : Int) (cs : List Int) (L : Lexer σ)
    (h : pending rd (c :: cs) L.curLineBuffer L.src = true) :
    Bounded rd cs.length (advanceChar rd (advanceChar rd L)) := by
  obtain ⟨_, h1⟩ := pending_step rd c cs L h
  cases cs with
  | nil =>
    have hb := pending_nil rd _ h1
    rw [advanceChar_empty rd _ hb]
    exact ⟨[], h1, by simp⟩
  | cons d ds =>
    obtain ⟨_, h2⟩ := pending_step rd d ds _ h1
    refine ⟨ds, h2, ?_⟩
    rw [List.length_cons]
    split_ifs <;> omega

/-- The state of a fresh lexer after the cursor steps over the initial blank
and the seeded newline holds at most the characters of the lines. -/
theorem bounded_fresh (s : σ) (ls : List (List Int)) (f : String)
    (h : sourceYields rd ls s = true) :
    Bounded rd ls.flatten.length (advanceChar rd (advanceChar rd (Lexer.new f s))) :=
  bounded_after rd 10 ls.flatten (Lexer.new f s)
    (pending_of_sourceYields rd ls s [10] h (by simp))

/-- The first token of a fresh lexer is the first token behind the initial
blank and the seeded newline. -/
theorem getNextToken_fresh (s : σ) (f : String) (n : Nat) (r : Token × Lexer σ)
    (h : getNextToken rd n (advanceChar rd (advanceChar rd (Lexer.new f s))) = some r) :
    getNextToken rd (n + 2) (Lexer.new f s) = some r := by
  obtain ⟨q, hq, hr⟩ := (getNextToken_eq_some rd n _ r).1 h
  have h1 : (advanceChar rd (Lexer.new f s)).lastChar = 10 :=
    (advanceChar_step rd (Lexer.new f s) 10 [] rfl).1
  have h2 := getTok_space_bwd rd n (advanceChar rd (Lexer.new f s)) q (by rw [h1]; decide) hq
  have h32 : isspace (32 : Int) = true := by decide
  have h3 := getTok_space_bwd rd (n + 1) (Lexer.new f s) q h32 h2
  exact (getNextToken_eq_some rd (n + 2) _ r).2 ⟨q, h3, hr⟩

theorem lexAll_first (n k : Nat) (L M : Lexer σ)
    (h : getNextToken rd n L = getNextToken rd n M) :
    lexAll rd n (k + 1) L = lexAll rd n (k + 1) M := by
  rw [lexAll, lexAll, h]

theorem advances_first (n j : Nat) (L M : Lexer σ)
    (h : getNextToken rd n L = getNextToken rd n M) :
    advances rd n (j + 1) L = advances rd n (j + 1) M := by
  rw [advances, advances, h]

/-- C12: for a line source that yields lines with `N` characters in total and
then the empty line, and fuel above `N + 2`: any number of successive
`getNextToken` calls on a fresh lexer return; the driver loop returns a
token sequence that ends with end-of-file after at most `N` other tokens;
and a `getNextToken` that returns a token other than end-of-file lowers the
bound on the number of unconsumed characters by at least one. -/
theorem C12_lexing_bounded_by_input (s : σ) (ls : List (List Int)) (f : String) (n : Nat)
    (h : sourceYields rd ls s = true) (hn : ls.flatten.length + 3 ≤ n) :
    (∀ j, ∃ L, advances rd n j (Lexer.new f s) = some L) ∧
    (∃ init e, lexAll rd n (ls.flatten.length + 1) (Lexer.new f s) = some (init ++ [e]) ∧
      e.tok = tok_eof ∧ (∀ x ∈ init, x.tok ≠ tok_eof) ∧ init.length ≤ ls.flatten.length) ∧
    (∀ p L t L1, Bounded rd p L → getNextToken rd n L = some (t, L1) → t ≠ tok_eof →
      ∃ q, p = q + 1 ∧ Bounded rd q L1) := by
  have hb := bounded_fresh rd s ls f h
  have hfirst : getNextToken rd n (Lexer.new f s) =
      getNextToken rd n (advanceChar rd (advanceChar rd (Lexer.new f s))) := by
    obtain ⟨t, L1, h1, _⟩ := getNextToken_total rd _ (ls.flatten.length + 1) (Nat.le_refl _) _ hb
    rw [getNextToken_mono_le rd _ n (by omega) _ _ h1,
      getNextToken_mono_le rd _ n (by omega) _ _ (getNextToken_fresh rd s f _ _ h1)]
  refine ⟨?_, ?_, ?_⟩
  · intro j
    cases j with
    | zero => exact ⟨_, rfl⟩
    | succ j =>
      rw [advances_first rd n j _ _ hfirst]
      exact advances_total rd n (j + 1) _ _ (by omega) hb
  · rw [lexAll_first rd n _ _ _ hfirst]
    exact lexAll_total rd n _ _ (by omega) hb
  · intro p L t L1 hp hg hne
    obtain ⟨t2, L2, g1, _, _, g4⟩ := getNextToken_total rd p (p + 1) (Nat.le_refl _) L hp
    have e1 := getNextToken_mono_le rd _ (max n (p + 1)) (Nat.le_max_left _ _) _ _ hg
    have e2 := getNextToken_mono_le rd _ (max n (p + 1)) (Nat.le_max_right _ _) _ _ g1
    rw [e1] at e2
    simp only [Option.some.injEq, Prod.mk.injEq] at e2
    obtain ⟨rfl, rfl⟩ := e2
    exact g4 hne

end TerminationFresh

/-- C12 on a `LexerBuffer` over "a #c\nb1", whose lines "a #c\n" and "b1" hold
seven characters: the driver loop with fuel 10 ends with end-of-file after at
most seven other tokens. -/
theorem C12_lexing_bounded_by_input_witness :
    (sourceYields LexerBuffer.readNextLine [codes "a #c\n", codes "b1"]
      { contents := codes "a #c\nb1", current := 0 } = true ∧
      [codes "a #c\n", codes "b1"].flatten.length + 3 ≤ 10) ∧
    (∃ init e, lexAll LexerBuffer.readNextLine 10 ([codes "a #c\n", codes "b1"].flatten.length + 1)
        (Lexer.new "input" { contents := codes "a #c\nb1", current := 0 }) = some (init ++ [e]) ∧
      e.tok = tok_eof ∧ (∀ x ∈ init, x.tok ≠ tok_eof) ∧
      init.length ≤ [codes "a #c\n", codes "b1"].flatten.length) :=
  ⟨by decide,
    (C12_lexing_bounded_by_input LexerBuffer.readNextLine
      { contents := codes "a #c\nb1", current := 0 } [codes "a #c\n", codes "b1"] "input" 10
      (by decide) (by decide)).2.1⟩


/-! ## Where a token starts -/

section Inversion

variable {σ : Type} (rd : σ → List Int × σ)

theorem sameCursor.refl (L : Lexer σ) : sameCursor L L := ⟨rfl, rfl, rfl, rfl, rfl⟩

theorem sameCursor.symm {L M : Lexer σ} (h : sameCursor L M) : sameCursor M L :=
  ⟨h.1.symm, h.2.1.symm, h.2.2.1.symm, h.2.2.2.1.symm, h.2.2.2.2.symm⟩

theorem sameCursor.trans {L M N : Lexer σ} (h : sameCursor L M) (g : sameCursor M N) :
    sameCursor L N :=
  ⟨h.1.trans g.1, h.2.1.trans g.2.1, h.2.2.1.trans g.2.2.1, h.2.2.2.1.trans g.2.2.2.1,
    h.2.2.2.2.trans g.2.2.2.2⟩

theorem sameCursor.step {L M : Lexer σ} (h : sameCursor L M) :
    sameCursor (advanceChar rd L) (advanceChar rd M) := by
  cases L with
  | mk ct ll ids nv lc ln cc buf src =>
    cases M with
    | mk ct2 ll2 ids2 nv2 lc2 ln2 cc2 buf2 src2 =>
      obtain ⟨h1, h2, h3, h4, h5⟩ := h
      simp only at h1 h2 h3 h4 h5
      subst h1 h2 h3 h4 h5
      cases buf with
      | nil => exact ⟨rfl, rfl, rfl, rfl, rfl⟩
      | cons b bs =>
        simp only [advanceChar, getNextChar, sameCursor]
        split_ifs <;> simp

theorem sameCursor.steps (k : Nat) : ∀ {L M : Lexer σ}, sameCursor L M →
    sameCursor (advanceN rd k L) (advanceN rd k M) := by
  induction k with
  | zero => intro L M h; exact h
  | succ k ih => intro L M h; exact ih (sameCursor.step rd h)

/-- The whitespace loop only moves the cursor, up to the first character
that is no whitespace. -/
theorem skipSpace_inv (n : Nat) : ∀ (L L1 : Lexer σ), skipSpace rd n L = some L1 →
    ∃ m, L1 = advanceN rd m L ∧ isspace L1.lastChar = false := by
  induction n with
  | zero => intro L L1 h; simp [skipSpace] at h
  | succ n ih =>
    intro L L1 h
    rw [skipSpace] at h
    split_ifs at h with hs
    · obtain ⟨m, h1, h2⟩ := ih _ _ h
      exact ⟨m + 1, h1, h2⟩
    · simp only [Option.some.injEq] at h
      subst h
      exact ⟨0, rfl, by simpa using hs⟩

/-- The identifier loop moves the cursor by one step per character it
appends to the identifier text. -/
theorem identLoop_inv (n : Nat) : ∀ (ld : Bool) (L L2 : Lexer σ) (r : Option Token),
    identLoop rd n ld L = some (r, L2) →
    ∃ m suf, sameCursor L2 (advanceN rd m L) ∧
      L2.identifierStr = L.identifierStr ++ suf ∧ suf.length = m ∧
      L2.lastLocation = L.lastLocation ∧ (∀ t, r = some t → t = L2.lastChar) := by
  induction n with
  | zero => intro ld L L2 r h; simp [identLoop] at h
  | succ n ih =>
    intro ld L L2 r h
    have key : ∀ ld2, identLoop rd n ld2
        (advanceChar rd { L with identifierStr := L.identifierStr ++ [L.lastChar] }) =
          some (r, L2) →
        ∃ m suf, sameCursor L2 (advanceN rd m L) ∧
          L2.identifierStr = L.identifierStr ++ suf ∧ suf.length = m ∧
          L2.lastLocation = L.lastLocation ∧ (∀ t, r = some t → t = L2.lastChar) := by
      intro ld2 h2
      obtain ⟨m, suf, g1, g2, g3, g4, g5⟩ := ih _ _ _ _ h2
      rw [advanceChar_idStr] at g2
      rw [advanceChar_loc] at g4
      refine ⟨m + 1, L.lastChar :: suf, ?_, ?_, ?_, g4, g5⟩
      · refine g1.trans ?_
        exact sameCursor.steps rd m (sameCursor.step rd ⟨rfl, rfl, rfl, rfl, rfl⟩)
      · rw [g2]
        simp
      · simp [g3]
    rw [identLoop] at h
    split_ifs at h with h1 h2 h3
    · exact key _ h
    · simp only [Option.some.injEq, Prod.mk.injEq] at h
      obtain ⟨rfl, rfl⟩ := h
      exact ⟨0, [], sameCursor.refl _, by simp, rfl, rfl, fun t ht => by
        simp only [Option.some.injEq] at ht
        exact ht.symm⟩
    · exact key _ h
    · simp only [Option.some.injEq, Prod.mk.injEq] at h
      obtain ⟨rfl, rfl⟩ := h
      exact ⟨0, [], sameCursor.refl _, by simp, rfl, rfl, fun t ht => by simp at ht⟩

/-- The number loop only moves the cursor, by one step per character of the
number text. -/
theorem numLoop_inv (n : Nat) : ∀ (acc : List Int) (L L2 : Lexer σ) (str : List Int),
    numLoop rd n acc L = some (str, L2) →
    ∃ m suf, L2 = advanceN rd (m + 1) L ∧ str = acc ++ L.lastChar :: suf ∧
      suf.length = m := by
  induction n with
  | zero => intro acc L L2 str h; simp [numLoop] at h
  | succ n ih =>
    intro acc L L2 str h
    rw [numLoop] at h
    split_ifs at h with h1
    · obtain ⟨m, suf, g1, g2, g3⟩ := ih _ _ _ _ h
      refine ⟨m + 1, (advanceChar rd L).lastChar :: suf, g1, ?_, by simp [g3]⟩
      rw [g2]
      simp
    · simp only [Option.some.injEq, Prod.mk.injEq] at h
      obtain ⟨rfl, rfl⟩ := h
      exact ⟨0, [], rfl, rfl, rfl⟩

/-- The comment loop only moves the cursor, by at least one step. -/
theorem commentLoop_inv (n : Nat) : ∀ (L L2 : Lexer σ), commentLoop rd n L = some L2 →
    ∃ m, L2 = advanceN rd (m + 1) L := by
  induction n with
  | zero => intro L L2 h; simp [commentLoop] at h
  | succ n ih =>
    intro L L2 h
    rw [commentLoop] at h
    split_ifs at h with h1
    · obtain ⟨m, g1⟩ := ih _ _ h
      exact ⟨m + 1, g1⟩
    · simp only [Option.some.injEq] at h
      subst h
      exact ⟨0, rfl⟩

end Inversion


section InversionTokens

variable {σ : Type} (rd : σ → List Int × σ)

/-- A recognition that started `k` cursor steps behind `L` is a recognition
from `L`. -/
theorem recognisedFrom.shift {X L L1 : Lexer σ} {t : Token} (k : Nat)
    (hX : sameCursor X (advanceN rd k L)) (h : recognisedFrom rd X t L1) :
    recognisedFrom rd L t L1 := by
  have hk : ∀ j, sameCursor (advanceN rd j X) (advanceN rd (k + j) L) := by
    intro j
    rw [advanceN_add]
    exact sameCursor.steps rd j hX
  obtain ⟨M, h1, h2⟩ := h
  refine ⟨k + M, h1.trans (hk M), fun hne => ?_⟩
  obtain ⟨m, len, g1, g2, g3, g4, g5⟩ := h2 hne
  refine ⟨k + m, len, by omega, ?_, ?_, ?_, ?_⟩
  · rw [g2]; exact (hk m).2.1
  · rw [g3]; exact (hk m).2.2.1
  · rw [← (hk m).1]; exact g4
  · rw [← (hk m).1]; exact g5

/-- The part of `getTok` behind the whitespace loop records the counters at
the first character of the text it recognises. -/
theorem getTokBody_inv (self : Lexer σ → Option (Token × Lexer σ)) (n : Nat)
    (D L1 : Lexer σ) (t : Token)
    (hself : ∀ L2 L3 t2, self L2 = some (t2, L3) → recognisedFrom rd L2 t2 L3)
    (hsp : isspace D.lastChar = false)
    (h : getTokBody rd self n D = some (t, L1)) : recognisedFrom rd D t L1 := by
  unfold getTokBody at h
  simp only at h
  split_ifs at h with h1 h2 h3
  · have key : ∀ (r : Option Token) (L2 : Lexer σ),
        identLoop rd n false (advanceChar rd
          { D with lastLocation := startLocation D, identifierStr := [D.lastChar] }) =
          some (r, L2) →
        (∀ t2, r = some t2 → t = t2) → (r = none → t = keywordOrIdentifier L2.identifierStr) →
        recognisedFrom rd D t L2 := by
      intro r L2 heq hr1 hr2
      obtain ⟨m, suf, g1, g2, g3, g4, g5⟩ := identLoop_inv rd _ _ _ _ _ heq
      rw [advanceChar_idStr] at g2
      rw [advanceChar_loc] at g4
      refine ⟨m + 1, g1.trans
        (sameCursor.steps rd m (sameCursor.step rd ⟨rfl, rfl, rfl, rfl, rfl⟩)),
        fun _ => ⟨0, m + 1, by omega, by rw [g4]; rfl, by rw [g4]; rfl, hsp, Or.inl ⟨h1, ?_, ?_, ?_⟩⟩⟩
      · rw [g2]; rfl
      · rw [g2]; simp [g3]
      · cases r with
        | none => exact Or.inl (hr2 rfl)
        | some t2 => exact Or.inr ((hr1 t2 rfl).trans (g5 t2 rfl))
    split at h
    · simp at h
    · rename_i t2 L2 heq
      simp only [Option.some.injEq, Prod.mk.injEq] at h
      obtain ⟨rfl, rfl⟩ := h
      exact key _ _ heq (fun t3 ht3 => by
        simp only [Option.some.injEq] at ht3
        exact ht3) (fun hn => by simp at hn)
    · rename_i L2 heq
      simp only [Option.some.injEq, Prod.mk.injEq] at h
      obtain ⟨rfl, rfl⟩ := h
      exact key _ _ heq (fun t3 ht3 => by simp at ht3) (fun _ => rfl)
  · split at h
    · simp at h
    · rename_i str L2 heq
      simp only [Option.some.injEq, Prod.mk.injEq] at h
      obtain ⟨rfl, rfl⟩ := h
      obtain ⟨m, suf, g1, g2, g3⟩ := numLoop_inv rd _ _ _ _ _ heq
      have hc : sameCursor L2 (advanceN rd (m + 1) D) := by
        rw [g1]
        exact sameCursor.steps rd (m + 1) ⟨rfl, rfl, rfl, rfl, rfl⟩
      have hloc : L2.lastLocation = startLocation D := by
        rw [g1, advanceN_loc]
      refine ⟨m + 1, ⟨hc.1, hc.2.1, hc.2.2.1, hc.2.2.2.1, hc.2.2.2.2⟩,
        fun _ => ⟨0, m + 1, by omega, ?_, ?_, hsp, Or.inr (Or.inl ⟨h2, rfl, suf, ?_, ?_⟩)⟩⟩
      · show L2.lastLocation.line = D.curLineNum
        rw [hloc]; rfl
      · show L2.lastLocation.col = D.curCol
        rw [hloc]; rfl
      · show NumVal.strtod str = NumVal.strtod (D.lastChar :: suf)
        rw [g2]; rfl
      · omega
  · split at h
    · simp at h
    · rename_i L2 heq
      obtain ⟨m, g1⟩ := commentLoop_inv rd _ _ _ heq
      have hc : sameCursor L2 (advanceN rd (m + 1) D) := by
        rw [g1]
        exact sameCursor.steps rd (m + 1) ⟨rfl, rfl, rfl, rfl, rfl⟩
      split_ifs at h with h4
      · exact recognisedFrom.shift rd (m + 1) hc (hself _ _ _ h)
      · have he : L2.lastChar = EOF := by simpa using h4
        rw [eofOrChar_eof rd L2 he] at h
        simp only [Option.some.injEq, Prod.mk.injEq] at h
        obtain ⟨rfl, rfl⟩ := h
        exact ⟨m + 1, hc, fun hne => absurd rfl hne⟩
  · by_cases he : D.lastChar = EOF
    · rw [eofOrChar_eof rd { D with lastLocation := startLocation D } he] at h
      simp only [Option.some.injEq, Prod.mk.injEq] at h
      obtain ⟨rfl, rfl⟩ := h
      exact ⟨0, ⟨rfl, rfl, rfl, rfl, rfl⟩, fun hne => absurd rfl hne⟩
    · rw [eofOrChar_char rd { D with lastLocation := startLocation D } he] at h
      simp only [Option.some.injEq, Prod.mk.injEq] at h
      obtain ⟨rfl, rfl⟩ := h
      refine ⟨1, sameCursor.step rd ⟨rfl, rfl, rfl, rfl, rfl⟩,
        fun _ => ⟨0, 1, rfl, ?_, ?_, hsp,
          Or.inr (Or.inr ⟨by simpa using h1, by simpa using h2, rfl, rfl⟩)⟩⟩
      · rw [advanceChar_loc]; rfl
      · rw [advanceChar_loc]; rfl

/-- The location `getTok` records is the position of the first character of
the text it recognises. -/
theorem getTok_inv (n : Nat) : ∀ (L L1 : Lexer σ) (t : Token),
    getTok rd n L = some (t, L1) → recognisedFrom rd L t L1 := by
  induction n with
  | zero => intro L L1 t h; simp [getTok] at h
  | succ n ih =>
    intro L L1 t h
    rw [getTok_succ] at h
    cases hs : skipSpace rd (n + 1) L with
    | none => simp [hs] at h
    | some L0 =>
      rw [hs] at h
      simp only [Option.bind] at h
      obtain ⟨m0, h0, hsp⟩ := skipSpace_inv rd _ _ _ hs
      have hb := getTokBody_inv rd (getTok rd n) (n + 1) L0 L1 t ih hsp h
      exact recognisedFrom.shift rd m0 (by rw [h0]; exact sameCursor.refl _) hb

theorem getNextToken_inv (n : Nat) (L L1 : Lexer σ) (t : Token)
    (h : getNextToken rd n L = some (t, L1)) : recognisedFrom rd L t L1 := by
  obtain ⟨q, hq, hr⟩ := (getNextToken_eq_some rd n L _).1 h
  simp only [Prod.mk.injEq] at hr
  obtain ⟨M, h1, h2⟩ := getTok_inv rd n L q.2 q.1 hq
  rw [hr.1, hr.2]
  refine ⟨M, ⟨h1.1, h1.2.1, h1.2.2.1, h1.2.2.2.1, h1.2.2.2.2⟩, fun hne => ?_⟩
  obtain ⟨m, len, g1, g2, g3, g4, g5⟩ := h2 hne
  exact ⟨m, len, g1, g2, g3, g4, g5⟩

/-- Every state reached by successive calls of `getNextToken` has the cursor
of the starting state after some number of cursor steps. -/
theorem advances_cursor (n j : Nat) : ∀ (L L1 : Lexer σ), advances rd n j L = some L1 →
    ∃ k, sameCursor L1 (advanceN rd k L) := by
  induction j with
  | zero =>
    intro L L1 h
    simp only [advances, Option.some.injEq] at h
    subst h
    exact ⟨0, sameCursor.refl _⟩
  | succ j ih =>
    intro L L1 h
    rw [advances] at h
    cases hg : getNextToken rd n L with
    | none => simp [hg] at h
    | some r =>
      rw [hg] at h
      obtain ⟨M, h1, _⟩ := getNextToken_inv rd n L r.2 r.1 hg
      obtain ⟨k, h2⟩ := ih _ _ h
      refine ⟨M + k, h2.trans ?_⟩
      rw [advanceN_add]
      exact sameCursor.steps rd k h1

end InversionTokens


/-! ## The counters along the character stream -/

section Counters

variable {σ : Type} (rd : σ → List Int × σ)

theorem advanceChar_counters (L : Lexer σ) (c : Int) (rest : List Int)
    (hb : L.curLineBuffer = c :: rest) :
    ((advanceChar rd L).curLineNum, (advanceChar rd L).curCol) =
      (if c = 10 then (L.curLineNum + 1, 0) else (L.curLineNum, L.curCol + 1)) := by
  cases L with
  | mk ct ll ids nv lc ln cc buf src =>
    simp only at hb
    subst hb
    simp only [advanceChar, getNextChar]
    split_ifs <;> simp

/-- The lookahead after `j + 1` cursor steps is the `j`-th pending character,
or the end-of-file code behind the last one. -/
theorem lastChar_pending (cs : List Int) : ∀ (L : Lexer σ) (j : Nat),
    pending rd cs L.curLineBuffer L.src = true →
    (advanceN rd (j + 1) L).lastChar = cs.getD j EOF := by
  induction cs with
  | nil =>
    intro L j h
    exact (advanceN_empty rd (j + 1) L (pending_nil rd L h)).2.2.2.2 (Nat.succ_pos j)
  | cons c cs ih =>
    intro L j h
    obtain ⟨h1, h2⟩ := pending_step rd c cs L h
    cases j with
    | zero => exact h1
    | succ j =>
      rw [advanceN, ih _ j h2]
      rfl

/-- The counters after `j` cursor steps over pending characters. -/
theorem counters_pending (cs : List Int) : ∀ (L : Lexer σ) (j : Nat),
    pending rd cs L.curLineBuffer L.src = true → j ≤ cs.length →
    ((advanceN rd j L).curLineNum, (advanceN rd j L).curCol) =
      locAfter (L.curLineNum, L.curCol) (cs.take j) := by
  induction cs with
  | nil =>
    intro L j _ hj
    obtain rfl : j = 0 := by simpa using hj
    rfl
  | cons c cs ih =>
    intro L j h hj
    cases j with
    | zero => rfl
    | succ j =>
      obtain ⟨_, h2⟩ := pending_step rd c cs L h
      cases hb : L.curLineBuffer with
      | nil => rw [hb] at h; simp [pending] at h
      | cons b rest =>
        have hbc : b = c := by
          rw [hb, pending_cons] at h
          simp only [Bool.and_eq_true, decide_eq_true_eq] at h
          exact h.1
        subst hbc
        rw [advanceN, ih _ j h2 (by simpa using hj), advanceChar_counters rd L b rest hb,
          List.take_succ_cons, locAfter]

theorem locAfter_snoc (p : List Int) (x : Int) : ∀ lc : Int × Int,
    locAfter lc (p ++ [x]) =
      (if x = 10 then ((locAfter lc p).1 + 1, 0)
        else ((locAfter lc p).1, (locAfter lc p).2 + 1)) := by
  induction p with
  | nil => intro lc; rfl
  | cons c p ih => intro lc; exact ih _

/-- The counters after the seeded newline and the characters `pre`: one more
than the number of newlines in `pre`, and the number of characters behind the
last newline. -/
theorem locAfter_fresh (pre : List Int) :
    locAfter (0, 0) (10 :: pre) =
      (1 + ((pre.count 10 : Nat) : Int),
        (((pre.reverse.takeWhile (fun c => c ≠ 10)).length : Nat) : Int)) := by
  induction pre using List.reverseRecOn with
  | nil => rfl
  | append_singleton pre y ih =>
    rw [← List.cons_append, locAfter_snoc, ih]
    by_cases hy : y = 10
    · subst hy
      simp [List.count_append]
      omega
    · simp [hy, List.count_append, List.count_singleton]

end Counters


section TokenLocation

variable {σ : Type} (rd : σ → List Int × σ)

theorem locAfter_token (pre : List Int) (x : Int) (hx : x ≠ 10) :
    locAfter (0, 0) (10 :: (pre ++ [x])) =
      (1 + ((pre.count 10 : Nat) : Int),
        1 + (((pre.reverse.takeWhile (fun c => c ≠ 10)).length : Nat) : Int)) := by
  rw [← List.cons_append, locAfter_snoc, locAfter_fresh, if_neg hx]
  simp only [Prod.mk.injEq, true_and]
  omega

theorem tokenStart_ne_eof {x : Int} {len : Nat} {t : Token} {L1 : Lexer σ}
    (h : tokenStart x len t L1) (hne : t ≠ tok_eof) : x ≠ EOF := by
  intro he
  subst he
  rcases h with h | h | h
  · exact absurd h.1 (by decide)
  · exact absurd h.1 (by decide)
  · exact hne h.2.2.1

end TokenLocation


/-! ## A `LexerBuffer` as a line source -/

section BufferSource

/-- A `LexerBuffer` whose remaining bytes hold no NUL yields finitely many
non-empty lines, which concatenate to the remaining bytes, and then the
empty line. -/
theorem LexerBuffer.sourceYields_lines (fuel : Nat) : ∀ (b : LexerBuffer),
    (∀ c ∈ b.contents.drop b.current, c ≠ 0) → (b.contents.drop b.current).length ≤ fuel →
    ∃ ls, sourceYields LexerBuffer.readNextLine ls b = true ∧
      ls.flatten = b.contents.drop b.current := by
  induction fuel with
  | zero =>
    intro b _ hlen
    have hd : b.contents.drop b.current = [] := List.length_eq_zero.mp (Nat.le_zero.mp hlen)
    refine ⟨[], ?_, by rw [hd]; rfl⟩
    simp [sourceYields, LexerBuffer.readNextLine_eq, hd]
  | succ fuel ih =>
    intro b h0 hlen
    by_cases hd : b.contents.drop b.current = []
    · refine ⟨[], ?_, by rw [hd]; rfl⟩
      simp [sourceYields, LexerBuffer.readNextLine_eq, hd]
    · have hline : (b.contents.drop b.current).take (lineLen (b.contents.drop b.current)) ≠ [] :=
        fun hnil => hd ((line_shape _ h0).2.2 hnil)
      have hpos : 0 < lineLen (b.contents.drop b.current) := by
        rcases Nat.eq_zero_or_pos (lineLen (b.contents.drop b.current)) with hz | hp
        · rw [hz] at hline
          exact absurd rfl hline
        · exact hp
      have hdrop : b.contents.drop (b.current + lineLen (b.contents.drop b.current)) =
          (b.contents.drop b.current).drop (lineLen (b.contents.drop b.current)) := by
        rw [List.drop_drop, Nat.add_comm]
      obtain ⟨ls, h1, h2⟩ := ih
        { b with current := b.current + lineLen (b.contents.drop b.current) }
        (by
          intro c hc
          simp only [hdrop] at hc
          exact h0 c (List.mem_of_mem_drop hc))
        (by
          show (b.contents.drop (b.current + lineLen (b.contents.drop b.current))).length ≤ fuel
          rw [hdrop, List.length_drop]
          omega)
      refine ⟨(b.contents.drop b.current).take (lineLen (b.contents.drop b.current)) :: ls,
        ?_, ?_⟩
      · simp only [sourceYields, LexerBuffer.readNextLine_eq, decide_True, Bool.true_and,
          Bool.and_eq_true, Bool.not_eq_true', List.isEmpty_eq_false_iff_exists_mem]
        refine ⟨?_, h1⟩
        cases hl : (b.contents.drop b.current).take (lineLen (b.contents.drop b.current)) with
        | nil => exact absurd hl hline
        | cons y ys => exact ⟨y, List.mem_cons_self _ _⟩
      · simp only [List.flatten_cons, h2, hdrop, List.take_append_drop]

end BufferSource


/-! ## Stepping over whitespace and comments -/

section Skipping

variable {σ : Type} (rd : σ → List Int × σ)

/-- Splitting the text of a complete comment at the newline or carriage
return that ends it. -/
theorem skippable_comment_decomp (rem : List Int) (h : skippable true rem = true) :
    ∃ body e rem1, rem = body ++ e :: rem1 ∧ (∀ c ∈ body, c ≠ EOF ∧ c ≠ 10 ∧ c ≠ 13) ∧
      (e = 10 ∨ e = 13) ∧ skippable false rem1 = true := by
  induction rem with
  | nil => simp [skippable] at h
  | cons c rem ih =>
    by_cases hN : c = 10 ∨ c = 13
    · refine ⟨[], c, rem, rfl, by simp, hN, ?_⟩
      simpa [skippable, hN] using h
    · simp only [skippable, hN, if_false, Bool.and_eq_true, bne_iff_ne, ne_eq] at h
      obtain ⟨body, e, rem1, h1, h2, h3, h4⟩ := ih h.2
      refine ⟨c :: body, e, rem1, by rw [h1]; rfl, ?_, h3, h4⟩
      intro y hy
      rcases List.mem_cons.mp hy with rfl | hy
      · exact ⟨h.1, fun e => hN (Or.inl e), fun e => hN (Or.inr e)⟩
      · exact h2 y hy

/-- The token `getTok` returns is the token it returns from the state behind
leading whitespace and comments. -/
theorem getTok_skip (k : Nat) : ∀ (skip : List Int) (L : Lexer σ) (r : Token × Lexer σ)
    (j : Nat) (more : List Int),
    skip.length ≤ k → skippable false skip = true →
    input rd (skip.length + j) L = skip ++ more → more ≠ [] →
    (∃ n, getTok rd n L = some r) →
    ∃ n, getTok rd n (advanceN rd skip.length L) = some r := by
  induction k with
  | zero =>
    intro skip L r j more hk _ _ _ hex
    have : skip = [] := List.length_eq_zero.mp (Nat.le_zero.mp hk)
    subst this
    exact hex
  | succ k ih =>
    intro skip L r j more hk hsk hin hmore hex
    cases skip with
    | nil => exact hex
    | cons c skip =>
      have hin0 := hin
      rw [List.length_cons, Nat.succ_add, input_succ] at hin
      simp only [List.cons_append, List.cons.injEq] at hin
      obtain ⟨hl, hin1⟩ := hin
      obtain ⟨n, hn⟩ := hex
      by_cases hc : c = 35
      · subst hc
        have hsk2 : skippable true skip = true := by simpa [skippable] using hsk
        obtain ⟨body, e, rem1, h1, h2, h3, h4⟩ := skippable_comment_decomp skip hsk2
        subst h1
        have hup : upcoming rd (body.length + 1) L = body ++ [e] := by
          have hu : upcoming rd ((body.length + 1) + (rem1.length + j + 1)) L =
              (body ++ [e]) ++ (rem1 ++ more) := by
            have : input rd ((body ++ e :: rem1).length + j) (advanceChar rd L) =
                upcoming rd ((body.length + 1) + (rem1.length + j + 1)) L := by
              simp only [List.length_append, List.length_cons, input]
              rw [show body.length + 1 + (rem1.length + j + 1) =
                (body.length + (rem1.length + 1) + j) + 1 from by omega]
              rfl
            rw [← this, hin1]
            simp
          exact upcoming_take rd _ _ L _ _ hu (by simp)
        have hbig := getTok_mono_le rd n (max n (body.length + 2)) (Nat.le_max_left _ _) L r hn
        obtain ⟨n1, hn1⟩ : ∃ n1, max n (body.length + 2) = n1 + 1 :=
          ⟨max n (body.length + 2) - 1, by omega⟩
        rw [hn1] at hbig
        rw [getTok_comment rd body e n1 L hl h2 h3 hup (by omega)] at hbig
        have hsplit := input_split rd (35 :: body) (e :: (rem1 ++ more)) (rem1.length + 1 + j) L
          (by
            have e1 : (35 :: body).length + (rem1.length + 1 + j) =
                (35 :: (body ++ e :: rem1)).length + j := by
              simp only [List.length_cons, List.length_append]
              omega
            rw [e1, hin0]
            simp)
        rw [List.length_cons] at hsplit
        have he : (advanceN rd (body.length + 1) L).lastChar = e :=
          input_head rd e _ _ _ hsplit
        have hse : isspace (advanceN rd (body.length + 1) L).lastChar = true := by
          rw [he]
          rcases h3 with h | h <;> (rw [h]; decide)
        have hfwd := getTok_space_fwd rd n1 _ r hse hbig
        rw [← advanceN_succ] at hfwd
        have hsplit2 : input rd (rem1.length + j) (advanceN rd (body.length + 1 + 1) L) =
            rem1 ++ more := by
          rw [show rem1.length + 1 + j = (rem1.length + j) + 1 from by omega, input_succ] at hsplit
          simp only [List.cons.injEq] at hsplit
          rw [advanceN_succ]
          exact hsplit.2
        obtain ⟨n2, hn2⟩ := ih rem1 _ r j more
          (by simp only [List.length_cons, List.length_append] at hk; omega) h4 hsplit2 hmore
          ⟨n1, hfwd⟩
        refine ⟨n2, ?_⟩
        rw [← advanceN_add] at hn2
        rw [show (35 :: (body ++ e :: rem1)).length = body.length + 1 + 1 + rem1.length from by
          simp only [List.length_cons, List.length_append]; omega]
        exact hn2
      · simp only [skippable, hc, if_false, Bool.and_eq_true] at hsk
        have hfwd := getTok_space_fwd rd n L r (by rw [hl]; exact hsk.1) hn
        obtain ⟨n2, hn2⟩ := ih skip _ r j more
          (by simp only [List.length_cons] at hk; omega) hsk.2 hin1 hmore ⟨n, hfwd⟩
        exact ⟨n2, hn2⟩

/-- Started at a lookahead that is neither whitespace nor `#`, the part of
`getTok` behind the whitespace loop records the counters of that lookahead
and recognises a text that begins with it. -/
theorem getTokBody_dispatch (self : Lexer σ → Option (Token × Lexer σ)) (n : Nat)
    (D L1 : Lexer σ) (t : Token) (h35 : D.lastChar ≠ 35)
    (h : getTokBody rd self n D = some (t, L1)) :
    L1.lastLocation = startLocation D ∧
    ∃ len, sameCursor L1 (advanceN rd len D) ∧
      (D.lastChar ≠ EOF → t ≠ tok_eof ∧ tokenStart D.lastChar len t L1) := by
  unfold getTokBody at h
  simp only at h
  split_ifs at h with h1 h2
  · have key : ∀ (r : Option Token) (L2 : Lexer σ),
        identLoop rd n false (advanceChar rd
          { D with lastLocation := startLocation D, identifierStr := [D.lastChar] }) =
          some (r, L2) →
        (∀ t2, r = some t2 → t = t2) → (r = none → t = keywordOrIdentifier L2.identifierStr) →
        L2.lastLocation = startLocation D ∧
        ∃ len, sameCursor L2 (advanceN rd len D) ∧
          (D.lastChar ≠ EOF → t ≠ tok_eof ∧ tokenStart D.lastChar len t L2) := by
      intro r L2 heq hr1 hr2
      obtain ⟨m, suf, g1, g2, g3, g4, g5⟩ := identLoop_inv rd _ _ _ _ _ heq
      rw [advanceChar_idStr] at g2
      rw [advanceChar_loc] at g4
      refine ⟨g4, m + 1, g1.trans
        (sameCursor.steps rd m (sameCursor.step rd ⟨rfl, rfl, rfl, rfl, rfl⟩)),
        fun _ => ⟨?_, Or.inl ⟨h1, ?_, ?_, ?_⟩⟩⟩
      · cases r with
        | none =>
          rw [hr2 rfl]
          exact keywordOrIdentifier_ne_eof _
        | some t2 =>
          rw [hr1 t2 rfl]
          intro he
          have := (identLoop_early rd _ _ _ _ _ heq).2.1
          rw [he] at this
          exact absurd this (by decide)
      · rw [g2]; rfl
      · rw [g2]; simp [g3]
      · cases r with
        | none => exact Or.inl (hr2 rfl)
        | some t2 => exact Or.inr ((hr1 t2 rfl).trans (g5 t2 rfl))
    split at h
    · simp at h
    · rename_i t2 L2 heq
      simp only [Option.some.injEq, Prod.mk.injEq] at h
      obtain ⟨rfl, rfl⟩ := h
      exact key _ _ heq (fun t3 ht3 => by
        simp only [Option.some.injEq] at ht3
        exact ht3) (fun hn => by simp at hn)
    · rename_i L2 heq
      simp only [Option.some.injEq, Prod.mk.injEq] at h
      obtain ⟨rfl, rfl⟩ := h
      exact key _ _ heq (fun t3 ht3 => by simp at ht3) (fun _ => rfl)
  · split at h
    · simp at h
    · rename_i str L2 heq
      simp only [Option.some.injEq, Prod.mk.injEq] at h
      obtain ⟨rfl, rfl⟩ := h
      obtain ⟨m, suf, g1, g2, g3⟩ := numLoop_inv rd _ _ _ _ _ heq
      have hc : sameCursor L2 (advanceN rd (m + 1) D) := by
        rw [g1]
        exact sameCursor.steps rd (m + 1) ⟨rfl, rfl, rfl, rfl, rfl⟩
      have hloc : L2.lastLocation = startLocation D := by
        rw [g1, advanceN_loc]
      refine ⟨hloc, m + 1, ⟨hc.1, hc.2.1, hc.2.2.1, hc.2.2.2.1, hc.2.2.2.2⟩,
        fun _ => ⟨by decide, Or.inr (Or.inl ⟨h2, rfl, suf, ?_, ?_⟩)⟩⟩
      · show NumVal.strtod str = NumVal.strtod (D.lastChar :: suf)
        rw [g2]; rfl
      · omega
  · by_cases he : D.lastChar = EOF
    · rw [eofOrChar_eof rd { D with lastLocation := startLocation D } he] at h
      simp only [Option.some.injEq, Prod.mk.injEq] at h
      obtain ⟨rfl, rfl⟩ := h
      exact ⟨rfl, 0, ⟨rfl, rfl, rfl, rfl, rfl⟩, fun hne => absurd he hne⟩
    · rw [eofOrChar_char rd { D with lastLocation := startLocation D } he] at h
      simp only [Option.some.injEq, Prod.mk.injEq] at h
      obtain ⟨rfl, rfl⟩ := h
      refine ⟨by rw [advanceChar_loc], 1, sameCursor.step rd ⟨rfl, rfl, rfl, rfl, rfl⟩,
        fun _ => ⟨he, Or.inr (Or.inr ⟨by simpa using h1, by simpa using h2, rfl, rfl⟩)⟩⟩

theorem getTok_dispatch (n : Nat) (D L1 : Lexer σ) (t : Token)
    (hsp : isspace D.lastChar = false) (h35 : D.lastChar ≠ 35)
    (h : getTok rd n D = some (t, L1)) :
    L1.lastLocation = startLocation D ∧
    ∃ len, sameCursor L1 (advanceN rd len D) ∧
      (D.lastChar ≠ EOF → t ≠ tok_eof ∧ tokenStart D.lastChar len t L1) := by
  cases n with
  | zero => simp [getTok] at h
  | succ n =>
    rw [getTok_succ, skipSpace_stop rd n D hsp] at h
    exact getTokBody_dispatch rd _ _ D L1 t h35 h

end Skipping


/-! ## The location of a token -/

section TokenPosition

variable {σ : Type} (rd : σ → List Int × σ)

theorem input_take (a b : Nat) (L : Lexer σ) (xs ys : List Int)
    (h : input rd (a + b) L = xs ++ ys) (ha : xs.length = a + 1) :
    input rd a L = xs := by
  cases xs with
  | nil => simp at ha
  | cons y xs =>
    simp only [input, List.cons_append, List.cons.injEq] at h ⊢
    exact ⟨h.1, upcoming_take rd a b L xs ys h.2 (by simpa using ha)⟩

/-- The characters a fresh lexer sees: the initial blank, the seeded
newline, the characters of the lines, then the end-of-file code. -/
theorem input_fresh (s : σ) (ls : List (List Int)) (f : String)
    (hsrc : sourceYields rd ls s = true) (k : Nat) :
    input rd (ls.flatten.length + 1 + k) (Lexer.new f s) =
      32 :: 10 :: ls.flatten ++ List.replicate k EOF := by
  have hp := pending_of_sourceYields rd ls s [10] hsrc (by simp)
  have := upcoming_pending rd (10 :: ls.flatten) k (Lexer.new f s) hp
  rw [List.length_cons] at this
  simp only [input, this]
  rfl

/-- The characters seen after `K` cursor steps of a fresh lexer. -/
theorem input_at (s : σ) (ls : List (List Int)) (f : String)
    (hsrc : sourceYields rd ls s = true) (K : Nat) (hK : K ≤ ls.flatten.length + 2) :
    input rd ((32 :: 10 :: ls.flatten).drop K).length (advanceN rd K (Lexer.new f s)) =
      (32 :: 10 :: ls.flatten).drop K ++ [EOF] := by
  have h := input_fresh rd s ls f hsrc 1
  have hlen : ((32 :: 10 :: ls.flatten).take K).length = K := by
    rw [List.length_take]
    simp only [List.length_cons]
    omega
  have h2 : input rd (((32 :: 10 :: ls.flatten).take K).length +
      ((32 :: 10 :: ls.flatten).drop K).length) (Lexer.new f s) =
      (32 :: 10 :: ls.flatten).take K ++ ((32 :: 10 :: ls.flatten).drop K ++ [EOF]) := by
    rw [← List.append_assoc, List.take_append_drop, ← List.length_append,
      List.take_append_drop]
    simpa using h
  have h3 := input_split rd _ _ _ _ h2
  rw [hlen] at h3
  exact h3

/-- Every position of the character stream is followed by whitespace and
complete comments and then a character that starts a token, or by blank
input up to the end-of-file code. -/
theorem stream_decomp (rem : List Int) : ∀ b : Bool,
    (∃ skip x rest, rem = skip ++ x :: rest ∧ skippable b skip = true ∧
      isspace x = false ∧ x ≠ 35 ∧ x ≠ EOF) ∨
    (∃ cs tail, rem ++ [EOF] = cs ++ EOF :: tail ∧ blank b cs = true) := by
  induction rem with
  | nil => intro b; exact Or.inr ⟨[], [], rfl, by cases b <;> rfl⟩
  | cons c rem ih =>
    intro b
    by_cases hE : c = EOF
    · exact Or.inr ⟨[], rem ++ [EOF], by rw [hE]; rfl, by cases b <;> rfl⟩
    · cases b with
      | false =>
        by_cases h35 : c = 35
        · rcases ih true with ⟨skip, x, rest, h1, h2, h3⟩ | ⟨cs, tail, h1, h2⟩
          · exact Or.inl ⟨c :: skip, x, rest, by rw [h1]; rfl,
              by simpa [skippable, h35] using h2, h3⟩
          · exact Or.inr ⟨c :: cs, tail, by rw [List.cons_append, h1]; rfl,
              by simpa [blank, h35] using h2⟩
        · by_cases hs : isspace c = true
          · rcases ih false with ⟨skip, x, rest, h1, h2, h3⟩ | ⟨cs, tail, h1, h2⟩
            · exact Or.inl ⟨c :: skip, x, rest, by rw [h1]; rfl,
                by simpa [skippable, h35, hs] using h2, h3⟩
            · exact Or.inr ⟨c :: cs, tail, by rw [List.cons_append, h1]; rfl,
                by simpa [blank, h35, hs] using h2⟩
          · exact Or.inl ⟨[], c, rem, rfl, rfl, by simpa using hs, h35, hE⟩
      | true =>
        by_cases hN : c = 10 ∨ c = 13
        · rcases ih false with ⟨skip, x, rest, h1, h2, h3⟩ | ⟨cs, tail, h1, h2⟩
          · exact Or.inl ⟨c :: skip, x, rest, by rw [h1]; rfl,
              by simpa [skippable, hN] using h2, h3⟩
          · exact Or.inr ⟨c :: cs, tail, by rw [List.cons_append, h1]; rfl,
              by simpa [blank, hN] using h2⟩
        · rcases ih true with ⟨skip, x, rest, h1, h2, h3⟩ | ⟨cs, tail, h1, h2⟩
          · exact Or.inl ⟨c :: skip, x, rest, by rw [h1]; rfl,
              by simpa [skippable, hN, hE] using h2, h3⟩
          · exact Or.inr ⟨c :: cs, tail, by rw [List.cons_append, h1]; rfl,
              by simpa [blank, hN] using h2⟩

/-- The states of a fresh lexer behind the end of the input all have the
same cursor. -/
theorem cursor_at_end (s : σ) (ls : List (List Int)) (f : String)
    (hsrc : sourceYields rd ls s = true) (j : Nat) :
    sameCursor (advanceN rd (ls.flatten.length + 2 + j) (Lexer.new f s))
      (advanceN rd (ls.flatten.length + 2) (Lexer.new f s)) := by
  have hp := pending_of_sourceYields rd ls s [10] hsrc (by simp)
  obtain ⟨d1, _⟩ := drain rd ls s [10] (Lexer.new f s) hsrc (by simp) rfl rfl
  simp only [List.length_singleton] at d1
  have hb : (advanceN rd (ls.flatten.length + 2) (Lexer.new f s)).curLineBuffer = [] := by
    rw [show ls.flatten.length + 2 = (1 + ls.flatten.length) + 1 from by omega, advanceN_add]
    exact (advanceN_empty rd 1 _ d1).1
  have hl : (advanceN rd (ls.flatten.length + 2) (Lexer.new f s)).lastChar = EOF := by
    rw [show ls.flatten.length + 2 = (ls.flatten.length + 1) + 1 from by omega,
      lastChar_pending rd _ _ _ hp]
    rw [List.getD_eq_getElem?_getD, List.getElem?_eq_none (by simp)]
    rfl
  rw [advanceN_add]
  obtain ⟨e1, e2, e3, e4, e5⟩ := advanceN_empty rd j _ hb
  refine ⟨?_, e3, e4, e1.trans hb.symm, e2⟩
  cases j with
  | zero => rfl
  | succ j => rw [e5 (Nat.succ_pos j), hl]

end TokenPosition


section TokenLocationClaim

variable {σ : Type} (rd : σ → List Int × σ)

/-- C19: on a fresh lexer over a line source that yields the lines `ls`, the
cursor delivers the initial blank, the seeded newline and then the input.
First part: when the cursor of a state `L` has made `K` steps and the
characters from its lookahead on are whitespace and complete comments `skip`
followed by a character `x` that is no whitespace, `#` or end-of-file code,
the token `getNextToken` returns from `L` is not end-of-file, was recognised
from a text that begins with this `x`, which is the character at index
`i = K + skip.length - 2` of the input, and `getLastLocation` has as line one
more than the number of newlines among the first `i` characters of the input
and as column one more than the number of characters between the last of
these newlines, or the start of the input, and index `i`. Second part: every
token other than end-of-file that a call of `getNextToken` returns after any
number of earlier calls is returned in such a situation. -/
theorem C19_location_is_token_start (s : σ) (ls : List (List Int)) (f : String)
    (hsrc : sourceYields rd ls s = true) :
    (∀ (L L1 : Lexer σ) (K n : Nat) (skip rest : List Int) (x : Int) (t : Token),
      sameCursor L (advanceN rd K (Lexer.new f s)) →
      (32 :: 10 :: ls.flatten).drop K = skip ++ x :: rest →
      skippable false skip = true → isspace x = false → x ≠ 35 → x ≠ EOF →
      getNextToken rd n L = some (t, L1) →
      t ≠ tok_eof ∧
      ∃ i, K + skip.length = i + 2 ∧ ls.flatten[i]? = some x ∧
        (∃ len, tokenStart x len t L1 ∧
          sameCursor L1 (advanceN rd (i + 2 + len) (Lexer.new f s))) ∧
        (getLastLocation L1).line = 1 + (((ls.flatten.take i).count 10 : Nat) : Int) ∧
        (getLastLocation L1).col =
          1 + ((((ls.flatten.take i).reverse.takeWhile (fun c => c ≠ 10)).length : Nat) : Int)) ∧
    (∀ (L L1 : Lexer σ) (n j : Nat) (t : Token),
      advances rd n j (Lexer.new f s) = some L →
      getNextToken rd n L = some (t, L1) → t ≠ tok_eof →
      ∃ K skip x rest, sameCursor L (advanceN rd K (Lexer.new f s)) ∧
        (32 :: 10 :: ls.flatten).drop K = skip ++ x :: rest ∧
        skippable false skip = true ∧ isspace x = false ∧ x ≠ 35 ∧ x ≠ EOF) := by
  have hp : pending rd (10 :: ls.flatten) (Lexer.new f s).curLineBuffer (Lexer.new f s).src
      = true := pending_of_sourceYields rd ls s [10] hsrc (by simp)
  have h32 : isspace (32 : Int) = true := by decide
  have h10 : isspace (10 : Int) = true := by decide
  constructor
  · intro L L1 K n skip rest x t hL hS hsk hsp h35 hE h
    have hKlt : K < ls.flatten.length + 2 := by
      by_contra hge
      rw [List.drop_eq_nil_of_le (by simp only [List.length_cons]; omega)] at hS
      simp at hS
    have hin := input_at rd s ls f hsrc K (by omega)
    rw [hS] at hin
    have hinL : input rd (skip.length + (rest.length + 1)) L = skip ++ (x :: rest ++ [EOF]) := by
      rw [input_congr rd _ L _ hL.1 hL.2.2.2.1 hL.2.2.2.2]
      simpa using hin
    obtain ⟨q, hq, hr⟩ := (getNextToken_eq_some rd n L _).1 h
    simp only [Prod.mk.injEq] at hr
    obtain ⟨n2, hn2⟩ := getTok_skip rd skip.length skip L q (rest.length + 1)
      (x :: rest ++ [EOF]) (Nat.le_refl _) hsk hinL (by simp) ⟨n, hq⟩
    have hD := input_split rd skip _ _ L hinL
    have hlx : (advanceN rd skip.length L).lastChar = x := input_head rd x _ _ _ hD
    obtain ⟨g1, len, g2, g3⟩ := getTok_dispatch rd n2 (advanceN rd skip.length L) q.2 q.1
      (by rw [hlx]; exact hsp) (by rw [hlx]; exact h35) hn2
    obtain ⟨g4, g5⟩ := g3 (by rw [hlx]; exact hE)
    rw [hlx] at g5
    have hDc : sameCursor (advanceN rd skip.length L)
        (advanceN rd (K + skip.length) (Lexer.new f s)) := by
      rw [advanceN_add]
      exact sameCursor.steps rd _ hL
    have hget : (32 :: 10 :: ls.flatten)[K + skip.length]? = some x := by
      have : ((32 :: 10 :: ls.flatten).drop K)[skip.length]? = some x := by
        rw [hS, List.getElem?_append_right (Nat.le_refl _)]
        simp
      rwa [List.getElem?_drop] at this
    refine ⟨hr.1 ▸ g4, ?_⟩
    generalize hT : K + skip.length = T at hget hDc
    cases T with
    | zero =>
      simp only [List.getElem?_cons_zero, Option.some.injEq] at hget
      rw [← hget] at hsp
      exact absurd (h32.symm.trans hsp) (by simp)
    | succ T =>
      cases T with
      | zero =>
        simp only [Nat.zero_add, List.getElem?_cons_succ, List.getElem?_cons_zero,
          Option.some.injEq] at hget
        rw [← hget] at hsp
        exact absurd (h10.symm.trans hsp) (by simp)
      | succ i =>
        simp only [List.getElem?_cons_succ] at hget
        have hx10 : x ≠ 10 := by
          intro he
          rw [he] at hsp
          exact absurd (h10.symm.trans hsp) (by simp)
        have hi : i < ls.flatten.length := by
          by_contra hge
          rw [List.getElem?_eq_none (by omega)] at hget
          exact absurd hget (by simp)
        have hc := counters_pending rd _ _ (i + 1 + 1) hp
          (by simp only [List.length_cons]; omega)
        rw [List.take_succ_cons, List.take_succ, hget] at hc
        simp only [Option.toList_some] at hc
        have hc2 : ((advanceN rd (i + 1 + 1) (Lexer.new f s)).curLineNum,
            (advanceN rd (i + 1 + 1) (Lexer.new f s)).curCol) =
            locAfter (0, 0) (10 :: (ls.flatten.take i ++ [x])) := hc
        rw [locAfter_token _ x hx10] at hc2
        simp only [Prod.mk.injEq] at hc2
        have hloc : L1.lastLocation = startLocation (advanceN rd skip.length L) := by
          rw [hr.2]
          exact g1
        have hcur : sameCursor L1 (advanceN rd (i + 2 + len) (Lexer.new f s)) := by
          have h1 : sameCursor q.2 (advanceN rd (i + 1 + 1 + len) (Lexer.new f s)) := by
            rw [advanceN_add]
            exact g2.trans (sameCursor.steps rd len hDc)
          rw [hr.2]
          exact ⟨h1.1, h1.2.1, h1.2.2.1, h1.2.2.2.1, h1.2.2.2.2⟩
        have htok : tokenStart x len t L1 := by
          rw [hr.1, hr.2]
          exact g5
        refine ⟨i, rfl, hget, ⟨len, htok, hcur⟩, ?_, ?_⟩
        · show L1.lastLocation.line = _
          rw [hloc]
          exact hDc.2.1.trans hc2.1
        · show L1.lastLocation.col = _
          rw [hloc]
          exact hDc.2.2.1.trans hc2.2
  · intro L L1 n j t hreach h hne
    obtain ⟨K0, hK0⟩ := advances_cursor rd n j _ L hreach
    obtain ⟨K, hKle, hK⟩ : ∃ K, K ≤ ls.flatten.length + 2 ∧
        sameCursor L (advanceN rd K (Lexer.new f s)) := by
      by_cases hle : K0 ≤ ls.flatten.length + 2
      · exact ⟨K0, hle, hK0⟩
      · refine ⟨ls.flatten.length + 2, Nat.le_refl _, hK0.trans ?_⟩
        have := cursor_at_end rd s ls f hsrc (K0 - (ls.flatten.length + 2))
        rwa [show ls.flatten.length + 2 + (K0 - (ls.flatten.length + 2)) = K0 from by omega]
          at this
    rcases stream_decomp ((32 :: 10 :: ls.flatten).drop K) false with
      ⟨skip, x, rest, h1, h2, h3, h4, h5⟩ | ⟨cs, tail, h1, h2⟩
    · exact ⟨K, skip, x, rest, hK, h1, h2, h3, h4, h5⟩
    · exfalso
      have hin := input_at rd s ls f hsrc K hKle
      rw [h1] at hin
      have hlen : ((32 :: 10 :: ls.flatten).drop K).length = cs.length + tail.length := by
        have := congrArg List.length h1
        simp only [List.length_append, List.length_cons, List.length_nil] at this
        omega
      rw [hlen] at hin
      have hin2 : input rd cs.length (advanceN rd K (Lexer.new f s)) = cs ++ [EOF] :=
        input_take rd cs.length tail.length _ (cs ++ [EOF]) tail (by simpa using hin) (by simp)
      have hin3 : input rd cs.length L = cs ++ [EOF] := by
        rw [input_congr rd _ L _ hK.1 hK.2.2.2.1 hK.2.2.2.2]
        exact hin2
      obtain ⟨L2, hg, _⟩ := getTok_blank rd cs.length cs L (cs.length + 1) (Nat.le_refl _) h2
        hin3 (Nat.lt_succ_self _)
      obtain ⟨q, hq, hr⟩ := (getNextToken_eq_some rd n L _).1 h
      have e1 := getTok_mono_le rd _ (max n (cs.length + 1)) (Nat.le_max_left _ _) _ _ hq
      have e2 := getTok_mono_le rd _ (max n (cs.length + 1)) (Nat.le_max_right _ _) _ _ hg
      rw [e1] at e2
      simp only [Option.some.injEq] at e2
      simp only [Prod.mk.injEq] at hr
      rw [e2] at hr
      exact hne hr.1

end TokenLocationClaim


/-- C19 on a `LexerBuffer` over "ab\n  cd;": after the first token the cursor
has made four steps and looks at the newline; behind the newline and two
blanks the identifier "cd" starts at index 5 of the input, and it is recorded
at line 2, column 3. -/
theorem C19_location_is_token_start_witness :
    (sourceYields LexerBuffer.readNextLine [codes "ab\n", codes "  cd;"]
        { contents := codes "ab\n  cd;", current := 0 } = true ∧
      (32 :: 10 :: [codes "ab\n", codes "  cd;"].flatten).drop 4 =
        [10, 32, 32] ++ 99 :: [100, 59] ∧
      skippable false [10, 32, 32] = true ∧ isspace 99 = false ∧ (99 : Int) ≠ 35 ∧
      (99 : Int) ≠ EOF ∧
      advances LexerBuffer.readNextLine 10 1
        (Lexer.new "input" { contents := codes "ab\n  cd;", current := 0 }) =
        some { curTok := tok_identifier
               lastLocation := { file := "input", line := 1, col := 1 }
               identifierStr := codes "ab", numVal := NumVal.zero, lastChar := 10
               curLineNum := 2, curCol := 0, curLineBuffer := codes "  cd;"
               src := { contents := codes "ab\n  cd;", current := 8 } }) ∧
    (tok_identifier ≠ tok_eof ∧
      ∃ i, 4 + [(10 : Int), 32, 32].length = i + 2 ∧
        [codes "ab\n", codes "  cd;"].flatten[i]? = some 99 ∧
        (∃ len, tokenStart 99 len tok_identifier
            ({ curTok := tok_identifier
               lastLocation := { file := "input", line := 2, col := 3 }
               identifierStr := codes "cd", numVal := NumVal.zero, lastChar := 59
               curLineNum := 2, curCol := 5, curLineBuffer := []
               src := { contents := codes "ab\n  cd;", current := 8 } } : Lexer LexerBuffer) ∧
          sameCursor
            ({ curTok := tok_identifier
               lastLocation := { file := "input", line := 2, col := 3 }
               identifierStr := codes "cd", numVal := NumVal.zero, lastChar := 59
               curLineNum := 2, curCol := 5, curLineBuffer := []
               src := { contents := codes "ab\n  cd;", current := 8 } } : Lexer LexerBuffer)
            (advanceN LexerBuffer.readNextLine (i + 2 + len)
              (Lexer.new "input" { contents := codes "ab\n  cd;", current := 0 }))) ∧
        (2 : Int) = 1 + ((([codes "ab\n", codes "  cd;"].flatten.take i).count 10 : Nat) : Int) ∧
        (3 : Int) = 1 + (((([codes "ab\n", codes "  cd;"].flatten.take i).reverse.takeWhile
          (fun c => c ≠ 10)).length : Nat) : Int)) :=
  ⟨by decide,
    (C19_location_is_token_start LexerBuffer.readNextLine
      { contents := codes "ab\n  cd;", current := 0 } [codes "ab\n", codes "  cd;"] "input"
      (by decide)).1
      { curTok := tok_identifier
        lastLocation := { file := "input", line := 1, col := 1 }
        identifierStr := codes "ab", numVal := NumVal.zero, lastChar := 10
        curLineNum := 2, curCol := 0, curLineBuffer := codes "  cd;"
        src := { contents := codes "ab\n  cd;", current := 8 } }
      { curTok := tok_identifier
        lastLocation := { file := "input", line := 2, col := 3 }
        identifierStr := codes "cd", numVal := NumVal.zero, lastChar := 59
        curLineNum := 2, curCol := 5, curLineBuffer := []
        src := { contents := codes "ab\n  cd;", current := 8 } }
      4 10 [10, 32, 32] [100, 59] 99 tok_identifier
      ⟨by decide, by decide, by decide, by decide, by decide⟩
      (by decide) (by decide) (by decide) (by decide) (by decide) (by decide)⟩

end tiny
